import Mathlib

/-!
Verification of the garbage collector in `src/libstore/gc.cc`.

The development is a shallow embedding of the collector: the mutable world
the C++ code reaches through `this` (the valid-path database), the
filesystem, and the `GCResults &` output record are threaded explicitly
through a `GCState` record that extends the source's `LocalStore::GCState`.
Recursive procedures (`tryToDelete` and the SCC closure it builds) take a
fuel argument and return `none` when the fuel runs out; all statements are
conditioned on a run that completed within its fuel.

External collaborators that are not part of this repository's source
(`isValidPath`, `queryReferrers`, `queryValidDerivers`,
`queryDerivationOutputs`, `invalidatePathChecked`, `topoSortPaths`,
`isDerivation`, `deletePathWrapped`, `assertStorePath`, `isInStore`,
`toStorePath`, `vacuumDB`, the filesystem-walking part of root discovery,
and the external root finder program) are modelled from the spec as fields
of a `Store` record of static data, or as small definitions marked
`Modelled from the spec`.
-/

namespace NixGC

/-- Store paths and filesystem paths, as strings (`typedef string Path`). -/
abbrev GCPath := String

/-- `GCOptions::GCAction` from `local-store.hh`, as used throughout `gc.cc`. -/
inductive GCAction where
  | gcReturnLive
  | gcReturnDead
  | gcDeleteDead
  | gcDeleteSpecific
deriving DecidableEq, Repr

/-- The fields of `GCOptions` that `gc.cc` reads. -/
structure GCOptions where
  action : GCAction
  pathsToDelete : List GCPath
  ignoreLiveness : Bool
  maxFreed : Nat
deriving Repr

/-- The slice of the global `settings` object that `gc.cc` reads. -/
structure Settings where
  nixStore : String
  nixStateDir : String
  gcKeepOutputs : Bool
  gcKeepDerivations : Bool
deriving Repr

/-- The immutable data of one run: the reference graph and path metadata
(consumed interfaces, spec section 6.1), the initial world, and per-run
constants.  `refs p` are the outgoing references of `p`; `derivers p` and
`drvOutputs p` are the deriver and derivation-output relations;
`isDir p` is the `S_ISDIR` bit that `lstat` reports for `p` during the run;
`diskSize p` is what `deletePathWrapped` frees when deleting `p`;
`valid0` is the set of valid paths and `fs0` the filesystem contents when
the run starts; `storeEntryNames` is the `readdir` listing of the store
directory; `links` is the listing of `<storeDir>/.links`. -/
structure Store where
  refs : GCPath → List GCPath
  drvOutputs : GCPath → List GCPath
  derivers : GCPath → List GCPath
  isDerivation : GCPath → Bool
  narSize : GCPath → Nat
  diskSize : GCPath → Nat
  isDir : GCPath → Bool
  isStorePath : GCPath → Bool
  isInStore : GCPath → Bool
  toStorePath : GCPath → GCPath
  valid0 : List GCPath
  fs0 : GCPath → Bool
  storeEntryNames : List String
  links : List (String × Nat × Nat)
  pid : Nat

/-- `LocalStore::GCState` (gc.cc:393-407) extended with the world state the
C++ code mutates through `this`, the filesystem and `GCResults & results`:
`valid` is the valid-path database, `fsCreated`/`fsRemoved` record filesystem
changes, `resultsPaths`/`bytesFreed` are the `GCResults` fields,
`linksRemoved`, `reaped` (unlinked stale temp-roots files with the byte
written to them), `keptFds` (read-locked temp-roots descriptors retained for
the cycle) and `vacuumed` record the remaining side effects. -/
structure GCState where
  options : GCOptions
  resultsPaths : List GCPath
  bytesFreed : Nat
  roots : List GCPath
  tempRoots : List GCPath
  deleted : List GCPath
  live : List GCPath
  busy : List GCPath
  invalidated : List GCPath
  gcKeepOutputs : Bool
  gcKeepDerivations : Bool
  bytesInvalidated : Nat
  valid : List GCPath
  fsCreated : List GCPath
  fsRemoved : List GCPath
  linksRemoved : List String
  reaped : List (String × Char)
  keptFds : List String
  vacuumed : Bool
deriving Repr

/-- Insertion into a `std::set` modelled on lists: no duplicates. -/
def insertPath (p : GCPath) (l : List GCPath) : List GCPath :=
  if p ∈ l then l else p :: l

/-- Union of a list into a set-as-list, one `insert` per element. -/
def unionPaths (l acc : List GCPath) : List GCPath :=
  l.foldl (fun acc q => insertPath q acc) acc

/-- `isValidPath` (consumed interface): membership in the valid-path DB. -/
def isValidPath (s : GCState) (p : GCPath) : Bool :=
  decide (p ∈ s.valid)

/-- Whether `lstat` succeeds on `p` in the current world: it existed
initially or was created (by the `-gc-` rename), and was not removed. -/
def fsExists (g : Store) (s : GCState) (p : GCPath) : Bool :=
  (g.fs0 p || decide (p ∈ s.fsCreated)) && !decide (p ∈ s.fsRemoved)

/-- `linksDir` member of `LocalStore`: `<storeDir>/.links`. -/
def linksDir (cfg : Settings) : GCPath :=
  cfg.nixStore ++ "/.links"

/-- The name `(format("%1%-gc-%2%") % *i % getpid())` (gc.cc:540). -/
def renameName (g : Store) (p : GCPath) : GCPath :=
  p ++ "-gc-" ++ toString g.pid

/-- `hasSuffix` from the utility library (consumed; modelled from the spec:
the name of the path ends with the given suffix). -/
def hasSuffix (s suffix : String) : Bool :=
  suffix.data.isSuffixOf s.data

/-- `string(path, 0, path.size() - suffix.size())` (gc.cc:421). -/
def withoutSuffix (s suffix : String) : String :=
  String.mk (s.data.take (s.data.length - suffix.data.length))

/-- `LocalStore::isActiveTempFile` (gc.cc:417-422). -/
def isActiveTempFile (s : GCState) (path : GCPath) (suffix : String) : Bool :=
  hasSuffix path suffix &&
    decide (withoutSuffix path suffix ∈ s.tempRoots)

/-- `shouldDelete` (gc.cc:410-414). -/
def shouldDelete (action : GCAction) : Bool :=
  action == GCAction.gcDeleteDead || action == GCAction.gcDeleteSpecific

/-- `LocalStore::deleteGarbage` (gc.cc:425-431): `deletePathWrapped` plus the
`bytesFreed` credit. -/
def deleteGarbage (g : Store) (s : GCState) (path : GCPath) : GCState :=
  { s with fsRemoved := path :: s.fsRemoved,
           bytesFreed := s.bytesFreed + g.diskSize path }

/-- `invalidatePathChecked` (consumed interface, spec section 6.1): removes
`p` from the valid-path database.  Its inbound-reference check never matters
for the claims under verification and is not modelled. -/
def invalidatePathChecked (s : GCState) (p : GCPath) : GCState :=
  { s with valid := s.valid.erase p }

/-- `queryReferrers` (consumed interface): the valid paths whose references
include `p`. -/
def queryReferrers (g : Store) (s : GCState) (p : GCPath) : List GCPath :=
  s.valid.filter (fun q => decide (p ∈ g.refs q))

/-- `queryValidDerivers` (consumed interface): the derivers of `p` that are
themselves valid. -/
def queryValidDerivers (g : Store) (s : GCState) (p : GCPath) : List GCPath :=
  (g.derivers p).filter (fun d => isValidPath s d)

/-- The `todo`/`paths` fixpoint of gc.cc:461-485: expand the candidate into
the strongly connected component induced by the `gc-keep-derivations` and
`gc-keep-outputs` policy edges.  Each popped element goes through
`assertStorePath` (failure is `Except.error`); `gc-keep-derivations` adds the
valid outputs of a derivation, `gc-keep-outputs` adds the valid derivers. -/
def closePaths (g : Store) (s : GCState) :
    Nat → List GCPath → List GCPath → Option (Except Unit (List GCPath))
  | 0, _, _ => none
  | _ + 1, [], paths => some (.ok paths)
  | fuel + 1, p :: todo, paths =>
    if g.isStorePath p = false then some (.error ())
    else if p ∈ paths then closePaths g s fuel todo paths
    else
      let todo1 :=
        if s.gcKeepDerivations && g.isDerivation p then
          todo ++ (g.drvOutputs p).filter (fun o => isValidPath s o)
        else todo
      let todo2 :=
        if s.gcKeepOutputs then todo1 ++ queryValidDerivers g s p
        else todo1
      closePaths g s fuel todo2 (p :: paths)

/-- Modelled from the spec: `topoSortPaths` (spec section 6.1, a consumed
interface whose implementation is not part of this repository's source)
returns a topological ordering of the given set of paths, referrers first.
No claim under verification depends on the order, only on the ordering
containing exactly the members of the set, so the model keeps the given
order. -/
def topoSortPaths (paths : List GCPath) : List GCPath :=
  paths

/-- The `isLive` label of gc.cc:566-572: mark every member of `paths` live,
and record it in the results under `gcReturnLive`. -/
def markLive (paths : List GCPath) (s : GCState) : GCState :=
  paths.foldl
    (fun s p =>
      { s with live := insertPath p s.live,
               resultsPaths :=
                 if s.options.action == GCAction.gcReturnLive then
                   insertPath p s.resultsPaths
                 else s.resultsPaths })
    s

/-- gc.cc:510-511: collect the referrers of every valid member of `paths`. -/
def collectReferrers (g : Store) (s : GCState) (paths : List GCPath) :
    List GCPath :=
  paths.foldl
    (fun acc p => if isValidPath s p then unionPaths (queryReferrers g s p) acc else acc)
    []

/-- Result of one `tryToDelete` call: `res gone s` is a normal return
(`gone = true` means the path is gone or irrelevant), `limit` is the
`GCLimitReached` sentinel unwinding through the call, `badPath` is an
`assertStorePath` failure unwinding through the call. -/
inductive TDRes where
  | res (gone : Bool) (s : GCState)
  | limit (s : GCState)
  | badPath (s : GCState)
deriving Repr

/-- One destructive step of the deletion loop (gc.cc:530-549).  `stIsDir`
is the `S_ISDIR(st.st_mode)` bit of the `lstat` performed on the original
candidate at gc.cc:441 - the source consults that one `st` for every
member.  A member that is valid when `stIsDir` holds is invalidated, has
its `narSize` accounted into `bytesInvalidated`, is renamed to
`<p>-gc-<pid>` and pushed onto `state.invalidated`; a valid member without
`stIsDir` is invalidated and deleted in place; an invalid member is deleted
in place. -/
def gcDeleteStep (g : Store) (stIsDir : Bool) (s : GCState) (i : GCPath) : GCState :=
  if isValidPath s i then
    if stIsDir then
      let sa := { s with bytesInvalidated := s.bytesInvalidated + g.narSize i }
      let sb := invalidatePathChecked sa i
      { sb with fsRemoved := i :: sb.fsRemoved,
                fsCreated := renameName g i :: sb.fsCreated,
                invalidated := insertPath (renameName g i) sb.invalidated }
    else deleteGarbage g (invalidatePathChecked s i) i
  else deleteGarbage g s i

/-- Recording a processed member (gc.cc:559-561): insert into the `deleted`
memo set, and into the results for every action except `gcReturnLive`. -/
def gcRecordDeleted (s : GCState) (i : GCPath) : GCState :=
  { s with deleted := insertPath i s.deleted,
           resultsPaths :=
             if s.options.action != GCAction.gcReturnLive then
               insertPath i s.resultsPaths
             else s.resultsPaths }

/-- The `foreach (pathsSorted)` loop of gc.cc:521-562: perform the
destructive step for each member (when the action deletes), raise
`GCLimitReached` (`Except.error`) as soon as `bytesFreed +
bytesInvalidated` exceeds `maxFreed`, and only past that check record the
member as deleted. -/
def gcDeleteSCC (g : Store) (stIsDir : Bool) :
    List GCPath → GCState → Except GCState GCState
  | [], s => .ok s
  | i :: rest, s =>
    if shouldDelete s.options.action then
      let s1 := gcDeleteStep g stIsDir s i
      if s1.bytesFreed + s1.bytesInvalidated > s1.options.maxFreed then .error s1
      else gcDeleteSCC g stIsDir rest (gcRecordDeleted s1 i)
    else gcDeleteSCC g stIsDir rest (gcRecordDeleted s i)


/-- Outcome of the referrer recursion loop of gc.cc:513-517. -/
inductive RefLoopOut where
  | ok (s : GCState)
  | isLive (s : GCState)
  | fuelOut
  | limit (s : GCState)
  | badPath (s : GCState)

/-- The `foreach (referrers)` loop of gc.cc:513-517: recursively try to
delete each referrer outside the SCC (`recur` is `tryToDelete` at the next
smaller fuel); the first referrer found live jumps to `isLive`. -/
def tryDeleteReferrers (recur : GCState → GCPath → Option TDRes)
    (paths : List GCPath) : List GCPath → GCState → RefLoopOut
  | [], s => .ok s
  | r :: rest, s =>
    if r ∈ paths then tryDeleteReferrers recur paths rest s
    else
      match recur s r with
      | none => .fuelOut
      | some (.res true s') => tryDeleteReferrers recur paths rest s'
      | some (.res false s') => .isLive s'
      | some (.limit s') => .limit s'
      | some (.badPath s') => .badPath s'

/-- The body of `tryToDelete` after the SCC `paths` has been built
(gc.cc:500-572): root test, referrer recursion, then deletion of the
topologically sorted SCC, or the `isLive` marking. -/
def tryToDeleteSCC (recur : GCState → GCPath → Option TDRes) (g : Store)
    (stIsDir : Bool) (paths : List GCPath) (s : GCState) : Option TDRes :=
  if ∃ p ∈ paths, p ∈ s.roots then some (.res false (markLive paths s))
  else
    match tryDeleteReferrers recur paths (collectReferrers g s paths) s with
    | .fuelOut => none
    | .limit s' => some (.limit s')
    | .badPath s' => some (.badPath s')
    | .isLive s' => some (.res false (markLive paths s'))
    | .ok s' =>
      match gcDeleteSCC g stIsDir (topoSortPaths paths) s' with
      | .error s'' => some (.limit s'')
      | .ok s'' => some (.res true s'')

/-- `LocalStore::tryToDelete` (gc.cc:434-573).  Short circuits: the links
directory, a path absent from the filesystem, and the `deleted`/`live`
memo sets.  A valid candidate is expanded into its policy SCC; an invalid
candidate is checked against the active temp file rule (gc.cc:488-498) and
otherwise forms a singleton.  The `S_ISDIR` bit passed to the deletion loop
is the one of the candidate's own `lstat` (gc.cc:441). -/
def tryToDelete (g : Store) (cfg : Settings) :
    Nat → GCState → GCPath → Option TDRes
  | 0, _, _ => none
  | fuel + 1, s, path =>
    if path = linksDir cfg then some (.res true s)
    else if fsExists g s path = false then some (.res true s)
    else if path ∈ s.deleted then some (.res true s)
    else if path ∈ s.live then some (.res false s)
    else
      if isValidPath s path then
        match closePaths g s fuel [path] [] with
        | none => none
        | some (.error _) => some (.badPath s)
        | some (.ok paths) =>
          tryToDeleteSCC (tryToDelete g cfg fuel) g (g.isDir path) paths s
      else
        if isActiveTempFile s path ".lock" then some (.res false s)
        else if isActiveTempFile s path ".chroot" then some (.res false s)
        else tryToDeleteSCC (tryToDelete g cfg fuel) g (g.isDir path) [path] s


/-- A file in `<stateDir>/temproots` as the collector's reader sees it:
`missing` means `open` fails with `ENOENT`; `ownerAlive` means the owning
process still holds its read lock, so the non-blocking write lock attempt
of gc.cc:261 fails; `contents` are the file's bytes. -/
structure TempRootFile where
  name : String
  missing : Bool
  ownerAlive : Bool
  contents : String
deriving Repr

/-- The token extraction of gc.cc:279-287: the NUL-terminated prefixes of
the contents; a trailing fragment with no terminating NUL is not a token. -/
def splitNulAux : List Char → List Char → List String
  | [], _ => []
  | c :: rest, acc =>
    if c = Char.ofNat 0 then String.mk acc.reverse :: splitNulAux rest []
    else splitNulAux rest (c :: acc)

/-- Split file contents on NUL bytes (gc.cc:279-287). -/
def splitNul (s : String) : List String :=
  splitNulAux s.data []

/-- The token loop of gc.cc:281-287: `assertStorePath` each root and insert
it into `tempRoots`; an assertion failure unwinds (`Except.error`). -/
def addTempRootTokens (g : Store) :
    List String → GCState → Except GCState GCState
  | [], s => .ok s
  | r :: rest, s =>
    if g.isStorePath r then
      addTempRootTokens g rest { s with tempRoots := insertPath r s.tempRoots }
    else .error s

/-- `readTempRoots` (gc.cc:236-291).  A missing file is skipped.  If the
non-blocking write lock succeeds the owner is dead: the file is unlinked and
the single byte 'd' is written to it (recorded in `reaped`), and no roots
are taken from it.  Otherwise the collector takes a blocking read lock,
reads the file, extracts the NUL-terminated tokens into `tempRoots`, and
keeps the read-locked descriptor open for the rest of the cycle
(`keptFds`). -/
def readTempRoots (g : Store) :
    List TempRootFile → GCState → Except GCState GCState
  | [], s => .ok s
  | f :: rest, s =>
    if f.missing then readTempRoots g rest s
    else if f.ownerAlive = false then
      readTempRoots g rest { s with reaped := s.reaped ++ [(f.name, 'd')] }
    else
      match addTempRootTokens g (splitNul f.contents) s with
      | .error s' => .error s'
      | .ok s' => readTempRoots g rest { s' with keptFds := s'.keptFds ++ [f.name] }

/-- `addAdditionalRoots` (gc.cc:365-387): each line of the root finder's
output that is in the store, maps to a store path not already in `roots`,
and is valid, is added to `roots`.  `valid` is the valid-path DB at the
time of the call. -/
def addAdditionalRoots (g : Store) (valid : List GCPath)
    (finderOutput : List GCPath) (roots : List GCPath) : List GCPath :=
  finderOutput.foldl
    (fun roots i =>
      if g.isInStore i then
        let path := g.toStorePath i
        if path ∉ roots ∧ path ∈ valid then path :: roots else roots
      else roots)
    roots

/-- The per-run environment: the outcome of the root-discovery walk of
`nix::findRoots(*this, true)` (a filesystem walk abstracted to the value
set of the map it returns), the tokenized output of the `NIX_ROOT_FINDER`
program, the temp-roots directory listing, and the permutation that
`random_shuffle` applies to the buffered entries this run. -/
structure GCEnv where
  rootMapValues : List GCPath
  rootFinderOutput : List GCPath
  tempRootFiles : List TempRootFile
  shuffle : List GCPath → List GCPath

/-- gc.cc:636-639: with `gcDeleteSpecific` and `ignoreLiveness`, the
`gc-keep-outputs` policy is forced off for the cycle. -/
def effKeepOutputs (cfg : Settings) (options : GCOptions) : Bool :=
  if options.action == GCAction.gcDeleteSpecific && options.ignoreLiveness then false
  else cfg.gcKeepOutputs

/-- gc.cc:636-639: with `gcDeleteSpecific` and `ignoreLiveness`, the
`gc-keep-derivations` policy is forced off for the cycle. -/
def effKeepDerivations (cfg : Settings) (options : GCOptions) : Bool :=
  if options.action == GCAction.gcDeleteSpecific && options.ignoreLiveness then false
  else cfg.gcKeepDerivations

/-- The `GCState` at the start of `collectGarbage` (gc.cc:626-639): empty
sets, the policy flags from `settings` with the `ignoreLiveness` override,
and the initial world. -/
def initialGCState (g : Store) (cfg : Settings) (options : GCOptions) : GCState where
  options := options
  resultsPaths := []
  bytesFreed := 0
  roots := []
  tempRoots := []
  deleted := []
  live := []
  busy := []
  invalidated := []
  gcKeepOutputs := effKeepOutputs cfg options
  gcKeepDerivations := effKeepDerivations cfg options
  bytesInvalidated := 0
  valid := g.valid0
  fsCreated := []
  fsRemoved := []
  linksRemoved := []
  reaped := []
  keptFds := []
  vacuumed := false

/-- Root discovery (gc.cc:648-665): unless `ignoreLiveness`, fold the values
of the persistent-roots map and the external finder's roots into
`state.roots`; then read the temporary roots (which may throw on a bad
store path) and fold them in as well. -/
def gcFindRootsPhase (g : Store) (env : GCEnv) (options : GCOptions)
    (s : GCState) : Except GCState GCState :=
  let s1 :=
    if options.ignoreLiveness then s
    else
      let sA := { s with roots := unionPaths env.rootMapValues s.roots }
      { sA with roots := addAdditionalRoots g sA.valid env.rootFinderOutput sA.roots }
  match readTempRoots g env.tempRootFiles s1 with
  | .error s2 => .error s2
  | .ok s2 => .ok { s2 with roots := unionPaths s2.tempRoots s2.roots }

/-- How the classification part of `collectGarbage` (gc.cc:674-728) exits:
normally (including a caught `GCLimitReached` in the non-specific sweep),
with the "still alive" error of gc.cc:679, with `GCLimitReached` escaping
uncaught (possible only under `gcDeleteSpecific`), or with an
`assertStorePath` error escaping. -/
inductive GCExit where
  | done (s : GCState)
  | aliveErr (p : GCPath) (s : GCState)
  | limitEsc (s : GCState)
  | badPathErr (s : GCState)
deriving Repr

/-- The `gcDeleteSpecific` loop (gc.cc:674-680): assert and try to delete
each requested path in order; the first one still alive raises the error
immediately, with everything already deleted left in place. -/
def gcDeleteSpecificLoop (g : Store) (cfg : Settings) (fuel : Nat) :
    List GCPath → GCState → Option GCExit
  | [], s => some (.done s)
  | i :: rest, s =>
    if g.isStorePath i = false then some (.badPathErr s)
    else
      match tryToDelete g cfg fuel s i with
      | none => none
      | some (.res true s') => gcDeleteSpecificLoop g cfg fuel rest s'
      | some (.res false s') => some (.aliveErr i s')
      | some (.limit s') => some (.limitEsc s')
      | some (.badPath s') => some (.badPathErr s')

/-- Outcome of one of the two sweep loops: finished streaming (with the
buffered valid entries), `GCLimitReached` raised, or an error raised. -/
inductive SweepOut where
  | cont (s : GCState) (entries : List GCPath)
  | limitHit (s : GCState)
  | badP (s : GCState)
deriving Repr

/-- The streaming `readdir` loop of gc.cc:700-711: skip `.` and `..`,
buffer valid paths, and `tryToDelete` invalid ones immediately. -/
def gcSweepStage1 (g : Store) (cfg : Settings) (fuel : Nat) :
    List String → GCState → List GCPath → Option SweepOut
  | [], s, entries => some (.cont s entries)
  | name :: rest, s, entries =>
    if name = "." ∨ name = ".." then gcSweepStage1 g cfg fuel rest s entries
    else
      let path := cfg.nixStore ++ "/" ++ name
      if isValidPath s path then gcSweepStage1 g cfg fuel rest s (entries ++ [path])
      else
        match tryToDelete g cfg fuel s path with
        | none => none
        | some (.res _ s') => gcSweepStage1 g cfg fuel rest s' entries
        | some (.limit s') => some (.limitHit s')
        | some (.badPath s') => some (.badP s')

/-- The second sweep loop (gc.cc:720-724): `tryToDelete` every buffered
valid entry, in the shuffled order. -/
def gcSweepStage2 (g : Store) (cfg : Settings) (fuel : Nat) :
    List GCPath → GCState → Option SweepOut
  | [], s => some (.cont s [])
  | i :: rest, s =>
    match tryToDelete g cfg fuel s i with
    | none => none
    | some (.res _ s') => gcSweepStage2 g cfg fuel rest s'
    | some (.limit s') => some (.limitHit s')
    | some (.badPath s') => some (.badP s')

/-- Classification and eager deletion (gc.cc:671-728): `gcDeleteSpecific`
runs its own loop with no catch, so both the "alive" error and
`GCLimitReached` escape; any other action with `maxFreed > 0` streams the
store directory, then sweeps the shuffled valid entries, catching
`GCLimitReached` (the `catch` of gc.cc:726); any other action with
`maxFreed = 0` does nothing. -/
def gcClassifyPhase (g : Store) (cfg : Settings) (env : GCEnv)
    (options : GCOptions) (fuel : Nat) (s : GCState) : Option GCExit :=
  if options.action == GCAction.gcDeleteSpecific then
    gcDeleteSpecificLoop g cfg fuel options.pathsToDelete s
  else if options.maxFreed > 0 then
    match gcSweepStage1 g cfg fuel g.storeEntryNames s [] with
    | none => none
    | some (.badP s') => some (.badPathErr s')
    | some (.limitHit s') => some (.done s')
    | some (.cont s' entries) =>
      match gcSweepStage2 g cfg fuel (env.shuffle entries) s' with
      | none => none
      | some (.badP s'') => some (.badPathErr s'')
      | some (.limitHit s'') => some (.done s'')
      | some (.cont s'' _) => some (.done s'')
  else some (.done s)

/-- The out-of-lock deletion of the renamed directories (gc.cc:735-736). -/
def gcCleanupInvalidated (g : Store) (s : GCState) : GCState :=
  s.invalidated.foldl (fun s i => deleteGarbage g s i) s

/-- `LocalStore::removeUnusedLinks` (gc.cc:581-621): unlink every entry of
the links directory whose hard-link count is exactly 1, crediting
`st_blocks * 512` bytes. -/
def removeUnusedLinks (g : Store) (s : GCState) : GCState :=
  g.links.foldl
    (fun s l =>
      if l.1 = "." ∨ l.1 = ".." then s
      else if l.2.1 ≠ 1 then s
      else { s with linksRemoved := s.linksRemoved ++ [l.1],
                    bytesFreed := s.bytesFreed + l.2.2 * 512 })
    s

/-- `vacuumDB` (consumed interface, gc.cc:745). -/
def vacuumDB (s : GCState) : GCState :=
  { s with vacuumed := true }

/-- `LocalStore::collectGarbage` (gc.cc:624-746): set up the state with the
policy override, find the roots (under the freshly acquired GC write lock),
classify and delete, and - only when no exception escaped - release the
lock, delete the renamed invalidated directories, sweep the links directory
for deleting actions, and vacuum the database for `gcDeleteDead`. -/
def collectGarbage (g : Store) (cfg : Settings) (env : GCEnv)
    (options : GCOptions) (fuel : Nat) : Option GCExit :=
  let s0 := initialGCState g cfg options
  match gcFindRootsPhase g env options s0 with
  | .error s1 => some (.badPathErr s1)
  | .ok s1 =>
    match gcClassifyPhase g cfg env options fuel s1 with
    | none => none
    | some (.done s2) =>
      let s3 := gcCleanupInvalidated g s2
      let s4 :=
        if options.action == GCAction.gcDeleteDead
            || options.action == GCAction.gcDeleteSpecific then
          removeUnusedLinks g s3
        else s3
      let s5 := if options.action == GCAction.gcDeleteDead then vacuumDB s4 else s4
      some (.done s5)
    | some other => some other

/-- The state carried by any classification exit. -/
def GCExit.state : GCExit → GCState
  | .done s => s
  | .aliveErr _ s => s
  | .limitEsc s => s
  | .badPathErr s => s


/-- The environment of `addPermRoot` (gc.cc:93-149): `canonPath` and the
filesystem reads made by the indirect-root check.  The
`checkRootReachability` probe (gc.cc:133-141) only prints a warning and has
no modelled effect. -/
structure RootEnv where
  canon : GCPath → GCPath
  pathExists : GCPath → Bool
  isLink : GCPath → Bool
  readLink : GCPath → GCPath

/-- Externally visible effects of `addPermRoot`, in program order. -/
inductive PREffect where
  | symlinkCreated (link target : GCPath)
  | indirectRootAdded (p : GCPath)
  | syncedWithGC
deriving DecidableEq, Repr

/-- `addPermRoot` (gc.cc:93-149): canonicalise both paths, assert the store
path, refuse a root inside the store, then create the symlink (and the
indirect registration when `indirect`), enforcing the roots-directory
containment when neither `indirect` nor `allowOutsideRootsDir`; finally
`syncWithGC`.  Returns the effect list and the result. -/
def addPermRoot (g : Store) (cfg : Settings) (env : RootEnv)
    (storePath gcRoot : GCPath) (indirect allowOutsideRootsDir : Bool) :
    List PREffect × Except String GCPath :=
  let sp := env.canon storePath
  let gr := env.canon gcRoot
  if g.isStorePath sp = false then ([], .error "not a store path")
  else if g.isInStore gr then
    ([], .error "creating a garbage collector root in the Nix store is forbidden")
  else if indirect then
    if env.pathExists gr && (!env.isLink gr || !g.isInStore (env.readLink gr)) then
      ([], .error "cannot create symlink: already exists")
    else ([.symlinkCreated gr sp, .indirectRootAdded gr, .syncedWithGC], .ok gr)
  else
    let rootsDir := env.canon (cfg.nixStateDir ++ "/gcroots")
    if !allowOutsideRootsDir &&
        String.mk (gr.data.take (rootsDir.data.length + 1)) ≠ rootsDir ++ "/" then
      ([], .error "not in the roots directory")
    else ([.symlinkCreated gr sp, .syncedWithGC], .ok gr)

/-- The first-use creation loop of `addTempRoot` (gc.cc:160-193).  Each
iteration unlinks any stale file, creates and opens
`<stateDir>/temproots/<pid>` under the GC read lock, read-locks it, and
`fstat`s it; `sizeAt k` is the size observed on iteration `k` (nonzero
exactly when the collector reaped that incarnation between the unlink and
the lock acquisition, because reaping writes the byte 'd').  The loop exits
(`some k`) when the observed size is zero, and otherwise tries again. -/
def addTempRootInitLoop (sizeAt : Nat → Nat) : Nat → Nat → Option Nat
  | 0, _ => none
  | fuel + 1, k =>
    if sizeAt k = 0 then some k
    else addTempRootInitLoop sizeAt fuel (k + 1)

/-- `addTempRoot` (gc.cc:157-208), for a process whose temp-roots file does
not exist yet: run the creation loop, then upgrade to the write lock,
append the path followed by a NUL byte, and downgrade back to a read lock.
Returns the iteration on which creation succeeded and the appended bytes. -/
def addTempRoot (sizeAt : Nat → Nat) (fuel : Nat) (path : GCPath) :
    Option (Nat × String) :=
  match addTempRootInitLoop sizeAt fuel 0 with
  | none => none
  | some k => some (k, path ++ String.mk [Char.ofNat 0])

/-- The state carried by a `tryToDelete` outcome. -/
def TDRes.state : TDRes → GCState
  | .res _ s => s
  | .limit s => s
  | .badPath s => s

/-- The liveness relation of the spec's P1 for one run: a path is live when
it is in the run's root set `R` or reachable from a live path via
`references` or via the policy edges: with `keep-outputs` a live valid
deriver keeps each of its outputs, with `keep-derivations` a live valid
output keeps its derivation. -/
inductive Live (g : Store) (R : List GCPath) (ko kd : Bool) : GCPath → Prop where
  | root {p} : p ∈ R → Live g R ko kd p
  | ref {p q} : Live g R ko kd q → q ∈ g.valid0 → p ∈ g.refs q →
      Live g R ko kd p
  | keepOut {p d} : ko = true → Live g R ko kd d → d ∈ g.valid0 →
      d ∈ g.derivers p → Live g R ko kd p
  | keepDrv {d o} : kd = true → Live g R ko kd o → o ∈ g.valid0 →
      g.isDerivation d = true → o ∈ g.drvOutputs d → Live g R ko kd d

/-- Well-formedness of the initial world, assumed by the liveness theorem:
every valid path exists on disk and is a store path, the links directory is
not a valid path, and no valid path collides with a renamed `-gc-<pid>`
name (the design note of spec section 9: the renamed name cannot collide
with any valid path). -/
structure WFStore (g : Store) (cfg : Settings) : Prop where
  validFs : ∀ p ∈ g.valid0, g.fs0 p = true
  validStorePath : ∀ p ∈ g.valid0, g.isStorePath p = true
  linksNotValid : linksDir cfg ∉ g.valid0
  renameFresh : ∀ p ∈ g.valid0, renameName g p ∉ g.valid0

/-- The successors a member contributes to the SCC fixpoint (gc.cc:470-484):
under `gc-keep-derivations` the valid outputs of a derivation, under
`gc-keep-outputs` the valid derivers. -/
def sccSuccs (g : Store) (s : GCState) (p : GCPath) : List GCPath :=
  (if s.gcKeepDerivations && g.isDerivation p then
    (g.drvOutputs p).filter (fun o => isValidPath s o)
   else []) ++
  (if s.gcKeepOutputs then queryValidDerivers g s p else [])

/-- The invariant preserved by every step of a collection cycle: the run
constants (`roots`, the policy flags), `valid ⊆ valid0`, every name in
`invalidated` is the rename of some initially valid path, and every live
initially-valid path is still valid, still on the filesystem, and not in
the `deleted` memo set. -/
def LiveInv (g : Store) (R : List GCPath) (ko kd : Bool) (s : GCState) : Prop :=
  s.roots = R ∧ s.gcKeepOutputs = ko ∧ s.gcKeepDerivations = kd ∧
  (∀ p, p ∈ s.valid → p ∈ g.valid0) ∧
  (∀ t, t ∈ s.invalidated → ∃ p ∈ g.valid0, t = renameName g p) ∧
  (∀ p, Live g R ko kd p → p ∈ g.valid0 →
    p ∈ s.valid ∧ fsExists g s p = true ∧ p ∉ s.deleted)


/-! ### Concrete instances used by witnesses and counterexamples -/

/-- Settings for the concrete runs: store at `/s`, state at `/v`. -/
def cfg0 : Settings where
  nixStore := "/s"
  nixStateDir := "/v"
  gcKeepOutputs := false
  gcKeepDerivations := false

/-- A minimal store with one valid path `/s/a`; `/s/x` counts as inside the
store directory. -/
def g0 : Store where
  refs := fun _ => []
  drvOutputs := fun _ => []
  derivers := fun _ => []
  isDerivation := fun _ => false
  narSize := fun _ => 0
  diskSize := fun _ => 0
  isDir := fun _ => false
  isStorePath := fun p => decide (p = "/s/a" ∨ p = "/s/x")
  isInStore := fun p => decide (p = "/s/x")
  toStorePath := fun p => p
  valid0 := ["/s/a"]
  fs0 := fun _ => true
  storeEntryNames := []
  links := []
  pid := 7

/-- A trivial filesystem environment for `addPermRoot`. -/
def env0 : RootEnv where
  canon := fun p => p
  pathExists := fun _ => false
  isLink := fun _ => false
  readLink := fun p => p


/-- GC options for a plain `gcDeleteDead` run with a large budget. -/
def optsDD : GCOptions where
  action := GCAction.gcDeleteDead
  pathsToDelete := []
  ignoreLiveness := false
  maxFreed := 1000000

/-- A state in which `/s/a` is a temporary root. -/
def sC6 : GCState :=
  { initialGCState g0 cfg0 optsDD with tempRoots := ["/s/a"] }


/-- The reap records `(name, 'd')` of the files whose owner is dead. -/
def staleReaps (files : List TempRootFile) : List (String × Char) :=
  (files.filter (fun f => !f.missing && !f.ownerAlive)).map (fun f => (f.name, 'd'))

/-- The names of the files whose owner is alive (their descriptors are kept). -/
def aliveNames (files : List TempRootFile) : List String :=
  (files.filter (fun f => !f.missing && f.ownerAlive)).map (fun f => f.name)

/-- All NUL-terminated tokens of the files whose owner is alive. -/
def aliveTokens (files : List TempRootFile) : List String :=
  (files.filter (fun f => !f.missing && f.ownerAlive)).foldr
    (fun f acc => splitNul f.contents ++ acc) []

/-- A stale temp-roots file (owner dead). -/
def trfStale : TempRootFile where
  name := "101"
  missing := false
  ownerAlive := false
  contents := "junk"

/-- A live temp-roots file recording the root `/s/a`. -/
def trfAlive : TempRootFile where
  name := "102"
  missing := false
  ownerAlive := true
  contents := String.mk ['/', 's', '/', 'a', Char.ofNat 0]

/-- A temp-roots directory with one stale and one live file. -/
def filesC7 : List TempRootFile := [trfStale, trfAlive]

/-- The initial state of the C7 witness run. -/
def sC7 : GCState := initialGCState g0 cfg0 optsDD


/-- The state carried by either outcome of the SCC deletion loop. -/
def exceptState : Except GCState GCState → GCState
  | .ok s => s
  | .error s => s

/-- Two states that agree on everything except `tempRoots`, `reaped`,
`keptFds` and `roots` (the fields root discovery writes). -/
def SameWorld (s s' : GCState) : Prop :=
  s'.options = s.options ∧ s'.resultsPaths = s.resultsPaths ∧
  s'.bytesFreed = s.bytesFreed ∧ s'.deleted = s.deleted ∧
  s'.live = s.live ∧ s'.busy = s.busy ∧
  s'.invalidated = s.invalidated ∧ s'.gcKeepOutputs = s.gcKeepOutputs ∧
  s'.gcKeepDerivations = s.gcKeepDerivations ∧
  s'.bytesInvalidated = s.bytesInvalidated ∧ s'.valid = s.valid ∧
  s'.fsCreated = s.fsCreated ∧ s'.fsRemoved = s.fsRemoved ∧
  s'.linksRemoved = s.linksRemoved ∧ s'.vacuumed = s.vacuumed

/-- The names `removeUnusedLinks` unlinks: link count exactly 1. -/
def linkSweepNames (g : Store) : List String :=
  (g.links.filter (fun l => l.1 ≠ "." ∧ l.1 ≠ ".." ∧ l.2.1 = 1)).map (fun l => l.1)

/-- An environment with no discovered roots and no temp-roots files. -/
def envEmpty : GCEnv where
  rootMapValues := []
  rootFinderOutput := []
  tempRootFiles := []
  shuffle := id


/-- The state carried by a sweep-loop outcome. -/
def SweepOut.state : SweepOut → GCState
  | .cont s _ => s
  | .limitHit s => s
  | .badP s => s


/-- A store with a rooted path `/s/a` and a garbage path `/s/b`, both on
disk and listed in the store directory. -/
def gC1 : Store where
  refs := fun _ => []
  drvOutputs := fun _ => []
  derivers := fun _ => []
  isDerivation := fun _ => false
  narSize := fun _ => 100
  diskSize := fun _ => 100
  isDir := fun _ => false
  isStorePath := fun p => decide (p = "/s/a" ∨ p = "/s/b")
  isInStore := fun _ => false
  toStorePath := fun p => p
  valid0 := ["/s/a", "/s/b"]
  fs0 := fun _ => true
  storeEntryNames := ["a", "b"]
  links := []
  pid := 7

/-- An environment whose persistent-root walk found `/s/a`. -/
def envC1 : GCEnv where
  rootMapValues := ["/s/a"]
  rootFinderOutput := []
  tempRootFiles := []
  shuffle := id


/-- Settings with `gc-keep-derivations` enabled. -/
def cfgKD : Settings where
  nixStore := "/s"
  nixStateDir := "/v"
  gcKeepOutputs := false
  gcKeepDerivations := true

/-- A store with a derivation `/s/d.drv` (a plain file) whose output
`/s/o` is a directory; both valid, unrooted and unreferenced. -/
def g2 : Store where
  refs := fun _ => []
  drvOutputs := fun p => if p = "/s/d.drv" then ["/s/o"] else []
  derivers := fun p => if p = "/s/o" then ["/s/d.drv"] else []
  isDerivation := fun p => hasSuffix p ".drv"
  narSize := fun _ => 100
  diskSize := fun _ => 100
  isDir := fun p => decide (p = "/s/o")
  isStorePath := fun p => decide (p = "/s/d.drv" ∨ p = "/s/o")
  isInStore := fun _ => false
  toStorePath := fun p => p
  valid0 := ["/s/d.drv", "/s/o"]
  fs0 := fun _ => true
  storeEntryNames := ["d.drv", "o"]
  links := []
  pid := 7

/-- The state at the start of classification for a `gcDeleteDead` run over
`g2` with `gc-keep-derivations` on. -/
def sKD : GCState := initialGCState g2 cfgKD optsDD


/-- A store with three valid, unrooted, unreferenced directories, each of
500 bytes NAR size and 500 bytes on disk. -/
def g5 : Store where
  refs := fun _ => []
  drvOutputs := fun _ => []
  derivers := fun _ => []
  isDerivation := fun _ => false
  narSize := fun _ => 500
  diskSize := fun _ => 500
  isDir := fun _ => true
  isStorePath := fun p => decide (p = "/s/a" ∨ p = "/s/b" ∨ p = "/s/c")
  isInStore := fun _ => false
  toStorePath := fun p => p
  valid0 := ["/s/a", "/s/b", "/s/c"]
  fs0 := fun _ => true
  storeEntryNames := ["a", "b", "c"]
  links := []
  pid := 7

/-- A `gcDeleteDead` run over `g5` with a 1000-byte budget. -/
def opts5dd : GCOptions where
  action := GCAction.gcDeleteDead
  pathsToDelete := []
  ignoreLiveness := false
  maxFreed := 1000

/-- A `gcDeleteSpecific` run over `g5` with a 1-byte budget. -/
def opts5spec : GCOptions where
  action := GCAction.gcDeleteSpecific
  pathsToDelete := ["/s/a"]
  ignoreLiveness := false
  maxFreed := 1


/-- Persistence invariant for the renamed invalidated directories during a
collection cycle: the valid set only shrinks within `valid0`, every name
ever unlinked is a store path, and every name in `state.invalidated` is
the `-gc-` rename of an initially valid path and was created on the
filesystem.  Together with the freshness of the renamed names this keeps
every renamed directory present until the post-lock cleanup runs. -/
def RenPersist (g : Store) (s : GCState) : Prop :=
  (∀ p, p ∈ s.valid → p ∈ g.valid0) ∧
  (∀ t, t ∈ s.fsRemoved → g.isStorePath t = true) ∧
  (∀ t, t ∈ s.invalidated →
    (∃ p ∈ g.valid0, t = renameName g p) ∧ t ∈ s.fsCreated)

/-- A store with two valid directories: `/s/a` is garbage, `/s/b` will be
rooted. -/
def g9 : Store where
  refs := fun _ => []
  drvOutputs := fun _ => []
  derivers := fun _ => []
  isDerivation := fun _ => false
  narSize := fun _ => 100
  diskSize := fun _ => 100
  isDir := fun _ => true
  isStorePath := fun p => decide (p = "/s/a" ∨ p = "/s/b")
  isInStore := fun _ => false
  toStorePath := fun p => p
  valid0 := ["/s/a", "/s/b"]
  fs0 := fun _ => true
  storeEntryNames := ["a", "b"]
  links := []
  pid := 7

/-- An environment whose persistent-root walk found `/s/b`. -/
def env9 : GCEnv where
  rootMapValues := ["/s/b"]
  rootFinderOutput := []
  tempRootFiles := []
  shuffle := id

/-- A `gcDeleteSpecific` request for `/s/a` then `/s/b`, with a large
budget. -/
def opts9 : GCOptions where
  action := GCAction.gcDeleteSpecific
  pathsToDelete := ["/s/a", "/s/b"]
  ignoreLiveness := false
  maxFreed := 1000000


/-- A store with two valid plain files and a links directory holding one
name with link count 1, one with link count 2, and the `.` entry. -/
def g10 : Store where
  refs := fun _ => []
  drvOutputs := fun _ => []
  derivers := fun _ => []
  isDerivation := fun _ => false
  narSize := fun _ => 100
  diskSize := fun _ => 100
  isDir := fun _ => false
  isStorePath := fun p => decide (p = "/s/a" ∨ p = "/s/b")
  isInStore := fun _ => false
  toStorePath := fun p => p
  valid0 := ["/s/a", "/s/b"]
  fs0 := fun _ => true
  storeEntryNames := ["a", "b"]
  links := [("link1", 1, 4), ("link2", 2, 4), (".", 1, 0)]
  pid := 7

/-- An environment with one stale and one live temp-roots file. -/
def env10 : GCEnv where
  rootMapValues := []
  rootFinderOutput := []
  tempRootFiles := filesC7
  shuffle := id

/-- A `gcDeleteDead` run with `maxFreed = 0`. -/
def opts10 : GCOptions where
  action := GCAction.gcDeleteDead
  pathsToDelete := []
  ignoreLiveness := false
  maxFreed := 0

/-! ### Theorems -/
/-- Membership in a `std::set` insertion. -/
theorem mem_insertPath {t p : GCPath} {l : List GCPath} :
    t ∈ insertPath p l ↔ t = p ∨ t ∈ l := by
  unfold insertPath
  by_cases h : p ∈ l
  · simp only [if_pos h]
    exact ⟨fun ht => Or.inr ht, fun ht => ht.elim (fun he => he ▸ h) id⟩
  · simp [if_neg h]

/-- The token loop of gc.cc:281-287, characterised on success: it returns
with each token inserted into `tempRoots`, every token passed
`assertStorePath`, and no other field touched. -/
theorem addTempRootTokens_ok (g : Store) :
    ∀ ts (s s' : GCState), addTempRootTokens g ts s = .ok s' →
      (∀ t, t ∈ s'.tempRoots ↔ t ∈ ts ∨ t ∈ s.tempRoots) ∧
      (∀ t ∈ ts, g.isStorePath t = true) ∧
      s'.reaped = s.reaped ∧ s'.keptFds = s.keptFds := by
  intro ts
  induction ts with
  | nil =>
    intro s s' h
    simp only [addTempRootTokens] at h
    cases h
    simp
  | cons r rest ih =>
    intro s s' h
    simp only [addTempRootTokens] at h
    by_cases hr : g.isStorePath r = true
    · rw [if_pos hr] at h
      obtain ⟨h1, h2, h3, h4⟩ := ih _ s' h
      refine ⟨fun t => ?_, ?_, h3, h4⟩
      · rw [h1 t]
        simp only [List.mem_cons, mem_insertPath]
        tauto
      · intro t ht
        rcases List.mem_cons.mp ht with he | hm
        · exact he ▸ hr
        · exact h2 t hm
    · rw [if_neg hr] at h
      cases h

/-- Claim C7: the collector's temp-roots reader (gc.cc:236-291).  For each
file: if the non-blocking write lock succeeds (owner dead) the file is
unlinked and the sentinel byte 'd' is written (one `staleReaps` record),
and it contributes no roots; if it fails (owner alive) the blocking read
lock is taken, the whole file is read and split on NUL bytes, every token
passes `assertStorePath` and is added to `tempRoots`, and the read-locked
descriptor is retained for the cycle (`aliveNames`).  On a successful run,
`tempRoots` is exactly the previous set plus the tokens of the live files. -/
theorem readTempRoots_protocol (g : Store) :
    ∀ files (s s' : GCState), readTempRoots g files s = .ok s' →
      (∀ t, t ∈ s'.tempRoots ↔ t ∈ aliveTokens files ∨ t ∈ s.tempRoots) ∧
      s'.reaped = s.reaped ++ staleReaps files ∧
      s'.keptFds = s.keptFds ++ aliveNames files ∧
      (∀ f ∈ files, f.missing = false → f.ownerAlive = true →
        ∀ t ∈ splitNul f.contents, g.isStorePath t = true) := by
  intro files
  induction files with
  | nil =>
    intro s s' h
    simp only [readTempRoots] at h
    cases h
    simp [aliveTokens, staleReaps, aliveNames]
  | cons f rest ih =>
    intro s s' h
    simp only [readTempRoots] at h
    by_cases hm : f.missing = true
    · rw [if_pos hm] at h
      obtain ⟨h1, h2, h3, h4⟩ := ih s s' h
      have hfilt : ∀ p : TempRootFile → Bool,
          (List.filter (fun x => !x.missing && p x) (f :: rest)) =
          List.filter (fun x => !x.missing && p x) rest := by
        intro p; simp [List.filter_cons, hm]
      refine ⟨?_, ?_, ?_, ?_⟩
      · intro t
        rw [h1 t]
        simp only [aliveTokens, hfilt]
      · rw [h2]; simp only [staleReaps, hfilt]
      · rw [h3]; simp only [aliveNames, hfilt]
      · intro f' hf' hmiss halive
        rcases List.mem_cons.mp hf' with he | hmem
        · rw [he] at hmiss; exact absurd hm (by simp [hmiss])
        · exact h4 f' hmem hmiss halive
    · have hm' : f.missing = false := by
        cases hfm : f.missing
        · rfl
        · exact absurd hfm hm
      rw [if_neg hm] at h
      by_cases ha : f.ownerAlive = false
      · rw [if_pos ha] at h
        obtain ⟨h1, h2, h3, h4⟩ := ih _ s' h
        have hfilt1 : (List.filter (fun x => !x.missing && x.ownerAlive) (f :: rest)) =
            List.filter (fun x => !x.missing && x.ownerAlive) rest := by
          simp [List.filter_cons, hm', ha]
        have hfilt2 : (List.filter (fun x => !x.missing && !x.ownerAlive) (f :: rest)) =
            f :: List.filter (fun x => !x.missing && !x.ownerAlive) rest := by
          simp [List.filter_cons, hm', ha]
        refine ⟨?_, ?_, ?_, ?_⟩
        · intro t; rw [h1 t]; simp only [aliveTokens, hfilt1]
        · rw [h2]; simp only [staleReaps, hfilt2]
          simp [List.append_assoc]
        · rw [h3]; simp only [aliveNames, hfilt1]
        · intro f' hf' hmiss halive
          rcases List.mem_cons.mp hf' with he | hmem
          · rw [he] at halive; exact absurd halive (by simp [ha])
          · exact h4 f' hmem hmiss halive
      · have ha' : f.ownerAlive = true := by
          cases hfa : f.ownerAlive
          · exact absurd hfa ha
          · rfl
        rw [if_neg ha] at h
        cases htok : addTempRootTokens g (splitNul f.contents) s with
        | error e => rw [htok] at h; cases h
        | ok s1 =>
          rw [htok] at h
          obtain ⟨t1, t2, t3, t4⟩ := addTempRootTokens_ok g _ s s1 htok
          obtain ⟨h1, h2, h3, h4⟩ := ih _ s' h
          have hfilt1 : (List.filter (fun x => !x.missing && x.ownerAlive) (f :: rest)) =
              f :: List.filter (fun x => !x.missing && x.ownerAlive) rest := by
            simp [List.filter_cons, hm', ha']
          have hfilt2 : (List.filter (fun x => !x.missing && !x.ownerAlive) (f :: rest)) =
              List.filter (fun x => !x.missing && !x.ownerAlive) rest := by
            simp [List.filter_cons, hm', ha']
          refine ⟨?_, ?_, ?_, ?_⟩
          · intro t
            rw [h1 t]
            simp only [aliveTokens, hfilt1, List.foldr_cons, List.mem_append]
            rw [t1 t]
            tauto
          · rw [h2, t3]; simp only [staleReaps, hfilt2]
          · rw [h3, t4]; simp only [aliveNames, hfilt1]
            simp [List.append_assoc]
          · intro f' hf' hmiss halive
            rcases List.mem_cons.mp hf' with he | hmem
            · intro t ht
              exact t2 t (he ▸ ht)
            · exact h4 f' hmem hmiss halive

/-- Witness for C7 on a directory with one stale and one live file. -/
theorem readTempRoots_protocol_witness :
    (readTempRoots g0 filesC7 sC7).toOption.elim False (fun s' =>
      (∀ t, t ∈ s'.tempRoots ↔ t ∈ aliveTokens filesC7 ∨ t ∈ sC7.tempRoots) ∧
      s'.reaped = sC7.reaped ++ staleReaps filesC7 ∧
      s'.keptFds = sC7.keptFds ++ aliveNames filesC7 ∧
      (∀ f ∈ filesC7, f.missing = false → f.ownerAlive = true →
        ∀ t ∈ splitNul f.contents, g0.isStorePath t = true)) := by
  cases hrt : readTempRoots g0 filesC7 sC7 with
  | error s =>
    have hs : (readTempRoots g0 filesC7 sC7).toOption.isSome = true := by decide
    rw [hrt] at hs
    simp [Except.toOption] at hs
  | ok s' =>
    have := readTempRoots_protocol g0 filesC7 sC7 s' hrt
    simpa [Except.toOption] using this

/-- Claim C6: a path that is not a valid store path, whose name is a store
path followed by `.lock` or `.chroot` with the stripped prefix in
`state.tempRoots`, is treated as live: `tryToDelete` returns false without
deleting anything (gc.cc:417-422 and 488-498).  The hypotheses `hnl`,
`hfs`, `hnd` say the call reaches the classification (the path is not the
links directory, exists on disk, and is not already memoized as deleted). -/
theorem tryToDelete_active_temp_file_live (g : Store) (cfg : Settings)
    (fuel : Nat) (s : GCState) (path : GCPath)
    (hnl : path ≠ linksDir cfg)
    (hfs : fsExists g s path = true)
    (hnd : path ∉ s.deleted)
    (hnv : isValidPath s path = false)
    (hact : (hasSuffix path ".lock" = true ∧
              g.isStorePath (withoutSuffix path ".lock") = true ∧
              withoutSuffix path ".lock" ∈ s.tempRoots) ∨
            (hasSuffix path ".chroot" = true ∧
              g.isStorePath (withoutSuffix path ".chroot") = true ∧
              withoutSuffix path ".chroot" ∈ s.tempRoots)) :
    tryToDelete g cfg (fuel + 1) s path = some (.res false s) := by
  by_cases hlv : path ∈ s.live
  · simp [tryToDelete, hnl, hfs, hnd, hlv]
  · by_cases hl : isActiveTempFile s path ".lock" = true
    · simp [tryToDelete, hnl, hfs, hnd, hlv, hnv, hl]
    · have hc : isActiveTempFile s path ".chroot" = true := by
        rcases hact with ⟨h1, _, h3⟩ | ⟨h1, _, h3⟩
        · exact absurd (by simp [isActiveTempFile, h1, h3]) hl
        · simp [isActiveTempFile, h1, h3]
      simp [tryToDelete, hnl, hfs, hnd, hlv, hnv, hl, hc]

/-- Witness for C6: the lock file `/s/a.lock` of the temporary root `/s/a`
is reported live by `tryToDelete`. -/
theorem tryToDelete_active_temp_file_live_witness :
    ("/s/a.lock" ≠ linksDir cfg0 ∧ fsExists g0 sC6 "/s/a.lock" = true ∧
      "/s/a.lock" ∉ sC6.deleted ∧ isValidPath sC6 "/s/a.lock" = false ∧
      hasSuffix "/s/a.lock" ".lock" = true ∧
      g0.isStorePath (withoutSuffix "/s/a.lock" ".lock") = true ∧
      withoutSuffix "/s/a.lock" ".lock" ∈ sC6.tempRoots) ∧
    tryToDelete g0 cfg0 9 sC6 "/s/a.lock" = some (.res false sC6) := by
  refine ⟨by decide, ?_⟩
  exact tryToDelete_active_temp_file_live g0 cfg0 8 sC6 "/s/a.lock"
    (by decide) (by decide) (by decide) (by decide)
    (Or.inl ⟨by decide, by decide, by decide⟩)


/-- Whether an `addPermRoot` outcome is an error. -/
def exceptIsError : Except String GCPath → Bool
  | .error _ => true
  | .ok _ => false

/-- Claim C3, counterexample.  The claim states that a zero observed size
makes `addTempRoot`'s creation loop retry and a nonzero size completes it.
The code (gc.cc:188, `if (st.st_size == 0) break;`) does the opposite: with
a constantly zero observed size the loop completes on its first iteration,
and with a constantly nonzero observed size it never completes (here it
exhausts five iterations). -/
theorem addTempRootInit_zero_size_completes :
    addTempRootInitLoop (fun _ => 0) 5 0 = some 0 ∧
    addTempRootInitLoop (fun _ => 1) 5 0 = none := by
  exact ⟨rfl, rfl⟩

/-- The creation loop exits at `j` only if the size observed at iteration
`j` is zero and every size observed from `k` up to `j` was nonzero. -/
theorem addTempRootInitLoop_sound (sizeAt : Nat → Nat) :
    ∀ fuel k j, addTempRootInitLoop sizeAt fuel k = some j →
      sizeAt j = 0 ∧ k ≤ j ∧ ∀ i, k ≤ i → i < j → sizeAt i ≠ 0 := by
  intro fuel
  induction fuel with
  | zero => intro k j h; simp [addTempRootInitLoop] at h
  | succ fuel ih =>
    intro k j h
    simp only [addTempRootInitLoop] at h
    by_cases h0 : sizeAt k = 0
    · simp only [h0, if_pos rfl] at h
      cases h
      exact ⟨h0, Nat.le_refl _, fun i hki hik => absurd (Nat.lt_of_le_of_lt hki hik) (Nat.lt_irrefl _)⟩
    · rw [if_neg h0] at h
      obtain ⟨hz, hle, hall⟩ := ih (k + 1) j h
      refine ⟨hz, Nat.le_of_succ_le hle, fun i hki hij => ?_⟩
      rcases Nat.eq_or_lt_of_le hki with heq | hlt
      · exact heq ▸ h0
      · exact hall i hlt hij

/-- Claim C3 (amended): in `addTempRoot`'s first-use creation loop, if the
file's size observed after taking the read lock is nonzero then the
collector reaped the previous incarnation and the procedure retries from
the top; the loop completes exactly at the first iteration that observes a
zero size, and only then does the function proceed to append the
NUL-terminated path. -/
theorem addTempRootInit_retries_on_nonzero (sizeAt : Nat → Nat)
    (fuel j : Nat) (path : GCPath)
    (h : addTempRootInitLoop sizeAt fuel 0 = some j) :
    sizeAt j = 0 ∧ (∀ i, i < j → sizeAt i ≠ 0) ∧
    addTempRoot sizeAt fuel path = some (j, path ++ String.mk [Char.ofNat 0]) := by
  obtain ⟨hz, _, hall⟩ := addTempRootInitLoop_sound sizeAt fuel 0 j h
  exact ⟨hz, fun i hij => hall i (Nat.zero_le i) hij, by simp [addTempRoot, h]⟩

/-- Witness for the amended C3 theorem at a concrete trace: sizes 1, 1, 0
make the loop retry twice and complete on iteration 2. -/
theorem addTempRootInit_retries_on_nonzero_witness :
    addTempRootInitLoop (fun i => if i < 2 then 1 else 0) 5 0 = some 2 ∧
    ((fun i => if i < 2 then 1 else 0) 2 = 0 ∧
     (∀ i, i < 2 → (fun i => if i < 2 then 1 else 0) i ≠ 0) ∧
     addTempRoot (fun i => if i < 2 then 1 else 0) 5 "/s/a" =
       some (2, "/s/a" ++ String.mk [Char.ofNat 0])) :=
  ⟨by decide, addTempRootInit_retries_on_nonzero (fun i => if i < 2 then 1 else 0) 5 2 "/s/a" (by decide)⟩

/-- Claim C8: `addPermRoot` rejects a `gcRoot` that canonicalises into the
store directory (gc.cc:100-103): whatever the `indirect` and
`allowOutsideRootsDir` flags are, it returns an error having created no
symlink and registered nothing. -/
theorem addPermRoot_rejects_root_in_store (g : Store) (cfg : Settings)
    (env : RootEnv) (storePath gcRoot : GCPath)
    (indirect allowOutsideRootsDir : Bool)
    (h : g.isInStore (env.canon gcRoot) = true) :
    (addPermRoot g cfg env storePath gcRoot indirect allowOutsideRootsDir).1 = [] ∧
    exceptIsError (addPermRoot g cfg env storePath gcRoot indirect allowOutsideRootsDir).2 = true := by
  unfold addPermRoot
  by_cases hsp : g.isStorePath (env.canon storePath) = false
  · simp [hsp, exceptIsError]
  · simp [hsp, h, exceptIsError]

/-- Witness for C8 at a concrete input. -/
theorem addPermRoot_rejects_root_in_store_witness :
    g0.isInStore (env0.canon "/s/x") = true ∧
    (addPermRoot g0 cfg0 env0 "/s/a" "/s/x" true false).1 = [] ∧
    exceptIsError (addPermRoot g0 cfg0 env0 "/s/a" "/s/x" true false).2 = true := by
  refine ⟨by decide, ?_⟩
  exact addPermRoot_rejects_root_in_store g0 cfg0 env0 "/s/a" "/s/x" true false (by decide)


/-- Membership in a folded set union. -/
theorem mem_unionPaths {t : GCPath} : ∀ {l acc : List GCPath},
    t ∈ unionPaths l acc ↔ t ∈ l ∨ t ∈ acc := by
  intro l
  induction l with
  | nil => intro acc; simp [unionPaths]
  | cons p rest ih =>
    intro acc
    show t ∈ unionPaths rest (insertPath p acc) ↔ _
    rw [ih]
    simp only [List.mem_cons, mem_insertPath]
    tauto

/-- Every SCC successor is currently valid. -/
theorem sccSuccs_subset_valid (g : Store) (s : GCState) (p : GCPath) :
    ∀ q ∈ sccSuccs g s p, q ∈ s.valid := by
  intro q hq
  unfold sccSuccs at hq
  rcases List.mem_append.mp hq with h | h
  · by_cases hb : (s.gcKeepDerivations && g.isDerivation p) = true
    · rw [if_pos hb] at h
      have := List.of_mem_filter h
      simpa [isValidPath] using this
    · rw [if_neg hb] at h; cases h
  · by_cases hb : s.gcKeepOutputs = true
    · rw [if_pos hb] at h
      have := List.of_mem_filter (p := fun d => isValidPath s d) h
      simpa [isValidPath] using this
    · rw [if_neg hb] at h; cases h

/-- The worklist equation: one closure step pushes exactly the successors. -/
theorem closePaths_step (g : Store) (s : GCState) (fuel : Nat)
    (p : GCPath) (todo paths : List GCPath)
    (hsp : g.isStorePath p = true) (hmem : p ∉ paths) :
    closePaths g s (fuel + 1) (p :: todo) paths =
      closePaths g s fuel (todo ++ sccSuccs g s p) (p :: paths) := by
  have hsp' : ¬ (g.isStorePath p = false) := by simp [hsp]
  simp only [closePaths, if_neg hsp', if_neg hmem]
  unfold sccSuccs
  by_cases h1 : (s.gcKeepDerivations && g.isDerivation p) = true
  · by_cases h2 : s.gcKeepOutputs = true
    · simp [h1, h2, queryValidDerivers, List.append_assoc]
    · simp [h1, h2]
  · by_cases h2 : s.gcKeepOutputs = true
    · simp [h1, h2, queryValidDerivers]
    · simp [h1, h2]

/-- Specification of a completed SCC closure: the result contains the
accumulator and the worklist, is closed under `sccSuccs` (given that the
accumulator was, relative to the worklist), consists of valid paths (given
that the inputs did), and has no duplicates. -/
theorem closePaths_ok_spec (g : Store) (s : GCState) :
    ∀ fuel todo acc out, closePaths g s fuel todo acc = some (.ok out) →
      (∀ p ∈ acc, p ∈ out) ∧ (∀ p ∈ todo, p ∈ out) ∧
      ((∀ p ∈ acc, ∀ q ∈ sccSuccs g s p, q ∈ acc ∨ q ∈ todo) →
        ∀ p ∈ out, ∀ q ∈ sccSuccs g s p, q ∈ out) ∧
      ((∀ p ∈ todo, p ∈ s.valid) → (∀ p ∈ acc, p ∈ s.valid) →
        ∀ p ∈ out, p ∈ s.valid) ∧
      (acc.Nodup → out.Nodup) := by
  intro fuel
  induction fuel with
  | zero => intro todo acc out h; simp [closePaths] at h
  | succ fuel ih =>
    intro todo acc out h
    match todo with
    | [] =>
      simp only [closePaths, Option.some.injEq, Except.ok.injEq] at h
      subst h
      refine ⟨fun p hp => hp, fun p hp => absurd hp (List.not_mem_nil p), fun hfix p hp q hq => ?_,
        fun _ hv => hv, id⟩
      rcases hfix p hp q hq with h' | h'
      · exact h'
      · cases h'
    | p :: todo =>
      by_cases hsp : g.isStorePath p = false
      · simp only [closePaths, if_pos hsp] at h
        cases h
      · have hsp' : g.isStorePath p = true := by
          cases hx : g.isStorePath p
          · exact absurd hx hsp
          · rfl
        by_cases hmem : p ∈ acc
        · have hstep : closePaths g s (fuel + 1) (p :: todo) acc =
              closePaths g s fuel todo acc := by
            simp only [closePaths, if_neg hsp, if_pos hmem]
          rw [hstep] at h
          obtain ⟨c1, c2, c3, c4, c5⟩ := ih todo acc out h
          refine ⟨c1, fun q hq => ?_, fun hfix => ?_, fun hv1 hv2 => ?_, c5⟩
          · rcases List.mem_cons.mp hq with he | hm
            · exact he ▸ c1 p hmem
            · exact c2 q hm
          · refine c3 (fun x hx q hq => ?_)
            rcases hfix x hx q hq with h' | h'
            · exact Or.inl h'
            · rcases List.mem_cons.mp h' with he | hm
              · exact Or.inl (he ▸ hmem)
              · exact Or.inr hm
          · exact c4 (fun x hx => hv1 x (List.mem_cons_of_mem p hx)) hv2
        · rw [closePaths_step g s fuel p todo acc hsp' hmem] at h
          obtain ⟨c1, c2, c3, c4, c5⟩ := ih _ _ out h
          have hpout : p ∈ out := c1 p (List.mem_cons_self p acc)
          refine ⟨fun q hq => c1 q (List.mem_cons_of_mem p hq),
                  fun q hq => ?_, fun hfix => ?_, fun hv1 hv2 => ?_, fun hnd => ?_⟩
          · rcases List.mem_cons.mp hq with he | hm
            · exact he ▸ hpout
            · exact c2 q (List.mem_append.mpr (Or.inl hm))
          · refine c3 (fun x hx q hq => ?_)
            rcases List.mem_cons.mp hx with he | hm
            · exact Or.inr (List.mem_append.mpr (Or.inr (he ▸ hq)))
            · rcases hfix x hm q hq with h' | h'
              · exact Or.inl (List.mem_cons_of_mem p h')
              · rcases List.mem_cons.mp h' with he | hm'
                · exact Or.inl (he ▸ List.mem_cons_self p acc)
                · exact Or.inr (List.mem_append.mpr (Or.inl hm'))
          · refine c4 (fun x hx => ?_) (fun x hx => ?_)
            · rcases List.mem_append.mp hx with h' | h'
              · exact hv1 x (List.mem_cons_of_mem p h')
              · exact sccSuccs_subset_valid g s p x h'
            · rcases List.mem_cons.mp hx with he | hm
              · exact he ▸ hv1 p (List.mem_cons_self p todo)
              · exact hv2 x hm
          · exact c5 (List.nodup_cons.mpr ⟨hmem, hnd⟩)

/-- Generalised membership for the referrer collection fold. -/
theorem mem_collectReferrers_go (g : Store) (s : GCState) {q : GCPath} :
    ∀ (l : List GCPath) (acc : List GCPath),
      ((∃ p ∈ l, isValidPath s p = true ∧ q ∈ queryReferrers g s p) ∨ q ∈ acc) →
      q ∈ l.foldl (fun acc p =>
        if isValidPath s p then unionPaths (queryReferrers g s p) acc else acc) acc := by
  intro l
  induction l with
  | nil =>
    intro acc hq
    rcases hq with ⟨p, hp, _⟩ | hq
    · cases hp
    · exact hq
  | cons x rest ih =>
    intro acc hq
    simp only [List.foldl_cons]
    by_cases hv : isValidPath s x = true
    · rw [if_pos hv]
      refine ih _ ?_
      rcases hq with ⟨p, hp, hpv, hpq⟩ | hq
      · rcases List.mem_cons.mp hp with he | hm
        · exact Or.inr (mem_unionPaths.mpr (Or.inl (he ▸ hpq)))
        · exact Or.inl ⟨p, hm, hpv, hpq⟩
      · exact Or.inr (mem_unionPaths.mpr (Or.inr hq))
    · rw [if_neg hv]
      refine ih _ ?_
      rcases hq with ⟨p, hp, hpv, hpq⟩ | hq
      · rcases List.mem_cons.mp hp with he | hm
        · exact absurd (he ▸ hpv) hv
        · exact Or.inl ⟨p, hm, hpv, hpq⟩
      · exact Or.inr hq

/-- A referrer of a valid member is in the collected referrer set. -/
theorem mem_collectReferrers_of (g : Store) (s : GCState)
    {paths : List GCPath} {p q : GCPath} (hp : p ∈ paths)
    (hv : isValidPath s p = true) (hq : q ∈ queryReferrers g s p) :
    q ∈ collectReferrers g s paths :=
  mem_collectReferrers_go g s paths [] (Or.inl ⟨p, hp, hv, hq⟩)

/-- `markLive` only rewrites `live` and `resultsPaths`, and every member of
`paths` (and everything previously live) ends up in `live`. -/
theorem markLive_eq (paths : List GCPath) :
    ∀ s : GCState, ∃ lv rp, markLive paths s = { s with live := lv, resultsPaths := rp } ∧
      (∀ p ∈ paths, p ∈ lv) ∧ (∀ p ∈ s.live, p ∈ lv) := by
  induction paths with
  | nil =>
    intro s
    exact ⟨s.live, s.resultsPaths, rfl, fun p hp => absurd hp (List.not_mem_nil p), fun p hp => hp⟩
  | cons p rest ih =>
    intro s
    obtain ⟨lv, rp, heq, h1, h2⟩ := ih
      { s with live := insertPath p s.live,
               resultsPaths := if s.options.action == GCAction.gcReturnLive then
                 insertPath p s.resultsPaths else s.resultsPaths }
    refine ⟨lv, rp, heq, fun x hx => ?_, fun x hx => ?_⟩
    · rcases List.mem_cons.mp hx with he | hm
      · exact h2 x (by simp [mem_insertPath, he])
      · exact h1 x hm
    · exact h2 x (by simp [mem_insertPath, hx])


/-- The destructive step on a valid member with the candidate a directory. -/
theorem gcDeleteStep_valid_dir (g : Store) (s : GCState) (i : GCPath)
    (hv : isValidPath s i = true) :
    gcDeleteStep g true s i =
      { s with bytesInvalidated := s.bytesInvalidated + g.narSize i,
               valid := s.valid.erase i,
               fsRemoved := i :: s.fsRemoved,
               fsCreated := renameName g i :: s.fsCreated,
               invalidated := insertPath (renameName g i) s.invalidated } := by
  simp [gcDeleteStep, hv, invalidatePathChecked]

/-- The destructive step on a valid member with the candidate not a
directory: invalidate and delete in place. -/
theorem gcDeleteStep_valid_nondir (g : Store) (s : GCState) (i : GCPath)
    (hv : isValidPath s i = true) :
    gcDeleteStep g false s i =
      { s with valid := s.valid.erase i,
               fsRemoved := i :: s.fsRemoved,
               bytesFreed := s.bytesFreed + g.diskSize i } := by
  simp [gcDeleteStep, hv, invalidatePathChecked, deleteGarbage]

/-- The destructive step on an invalid member: delete in place. -/
theorem gcDeleteStep_invalid (g : Store) (d : Bool) (s : GCState) (i : GCPath)
    (hv : isValidPath s i = false) :
    gcDeleteStep g d s i =
      { s with fsRemoved := i :: s.fsRemoved,
               bytesFreed := s.bytesFreed + g.diskSize i } := by
  simp [gcDeleteStep, hv, deleteGarbage]

/-- Fields the destructive step never touches. -/
theorem gcDeleteStep_frame (g : Store) (d : Bool) (s : GCState) (i : GCPath) :
    (gcDeleteStep g d s i).options = s.options ∧
    (gcDeleteStep g d s i).roots = s.roots ∧
    (gcDeleteStep g d s i).gcKeepOutputs = s.gcKeepOutputs ∧
    (gcDeleteStep g d s i).gcKeepDerivations = s.gcKeepDerivations ∧
    (gcDeleteStep g d s i).live = s.live ∧
    (gcDeleteStep g d s i).deleted = s.deleted ∧
    (gcDeleteStep g d s i).tempRoots = s.tempRoots := by
  by_cases hv : isValidPath s i = true
  · cases d
    · rw [gcDeleteStep_valid_nondir g s i hv]
      exact ⟨rfl, rfl, rfl, rfl, rfl, rfl, rfl⟩
    · rw [gcDeleteStep_valid_dir g s i hv]
      exact ⟨rfl, rfl, rfl, rfl, rfl, rfl, rfl⟩
  · have hv' : isValidPath s i = false := by
      cases hx : isValidPath s i
      · rfl
      · exact absurd hx hv
    rw [gcDeleteStep_invalid g d s i hv']
    exact ⟨rfl, rfl, rfl, rfl, rfl, rfl, rfl⟩

/-- After a completed SCC deletion loop every processed member is in the
`deleted` memo set, which only grows. -/
theorem gcDeleteSCC_ok_deleted (g : Store) (d : Bool) :
    ∀ (l : List GCPath) (s s' : GCState), gcDeleteSCC g d l s = .ok s' →
      (∀ i ∈ l, i ∈ s'.deleted) ∧ (∀ i ∈ s.deleted, i ∈ s'.deleted) := by
  intro l
  induction l with
  | nil =>
    intro s s' h
    simp only [gcDeleteSCC, Except.ok.injEq] at h
    subst h
    exact ⟨fun i hi => absurd hi (List.not_mem_nil i), fun i hi => hi⟩
  | cons i rest ih =>
    intro s s' h
    simp only [gcDeleteSCC] at h
    by_cases hsd : shouldDelete s.options.action = true
    · rw [if_pos hsd] at h
      by_cases hb : (gcDeleteStep g d s i).bytesFreed + (gcDeleteStep g d s i).bytesInvalidated >
          (gcDeleteStep g d s i).options.maxFreed
      · rw [if_pos hb] at h
        cases h
      · rw [if_neg hb] at h
        obtain ⟨c1, c2⟩ := ih _ s' h
        have hrec : ∀ x, x ∈ insertPath i (gcDeleteStep g d s i).deleted →
            x ∈ s'.deleted := fun x hx => c2 x hx
        have hstep : (gcDeleteStep g d s i).deleted = s.deleted :=
          (gcDeleteStep_frame g d s i).2.2.2.2.2.1
        refine ⟨fun x hx => ?_, fun x hx => ?_⟩
        · rcases List.mem_cons.mp hx with he | hm
          · exact he ▸ hrec i (mem_insertPath.mpr (Or.inl rfl))
          · exact c1 x hm
        · exact hrec x (mem_insertPath.mpr (Or.inr (hstep ▸ hx)))
    · rw [if_neg hsd] at h
      obtain ⟨c1, c2⟩ := ih _ s' h
      refine ⟨fun x hx => ?_, fun x hx => c2 x (mem_insertPath.mpr (Or.inr hx))⟩
      rcases List.mem_cons.mp hx with he | hm
      · exact he ▸ c2 i (mem_insertPath.mpr (Or.inl rfl))
      · exact c1 x hm


/-- Unfolding of the filesystem-existence test. -/
theorem fsExists_true_iff (g : Store) (s : GCState) (q : GCPath) :
    fsExists g s q = true ↔
      ((g.fs0 q = true ∨ q ∈ s.fsCreated) ∧ q ∉ s.fsRemoved) := by
  simp [fsExists]

/-- Recording a member as deleted preserves the liveness invariant provided
the member is not a live initially-valid path. -/
theorem liveInv_record (g : Store) (R : List GCPath) (ko kd : Bool)
    (s : GCState) (i : GCPath) (hInv : LiveInv g R ko kd s)
    (hni : ¬ (Live g R ko kd i ∧ i ∈ g.valid0)) :
    LiveInv g R ko kd (gcRecordDeleted s i) := by
  obtain ⟨h1, h2, h3, h4, h5, h6⟩ := hInv
  refine ⟨h1, h2, h3, h4, h5, fun q hq hq0 => ?_⟩
  obtain ⟨hqv, hqf, hqd⟩ := h6 q hq hq0
  refine ⟨hqv, hqf, fun hmem => ?_⟩
  rcases mem_insertPath.mp hmem with he | hm
  · exact hni (he ▸ ⟨hq, hq0⟩)
  · exact hqd hm

/-- The destructive step preserves the liveness invariant provided the
member is not a live initially-valid path. -/
theorem liveInv_step (g : Store) (R : List GCPath) (ko kd : Bool) (d : Bool)
    (s : GCState) (i : GCPath) (hInv : LiveInv g R ko kd s)
    (hni : ¬ (Live g R ko kd i ∧ i ∈ g.valid0)) :
    LiveInv g R ko kd (gcDeleteStep g d s i) := by
  obtain ⟨h1, h2, h3, h4, h5, h6⟩ := hInv
  have hlq : ∀ q, Live g R ko kd q → q ∈ g.valid0 → q ≠ i := by
    intro q hq hq0 he
    exact hni (he ▸ ⟨hq, hq0⟩)
  by_cases hv : isValidPath s i = true
  · have hiv : i ∈ s.valid := by simpa [isValidPath] using hv
    cases d
    · rw [gcDeleteStep_valid_nondir g s i hv]
      refine ⟨h1, h2, h3, fun p hp => h4 p (List.mem_of_mem_erase hp), h5,
        fun q hq hq0 => ?_⟩
      obtain ⟨hqv, hqf, hqd⟩ := h6 q hq hq0
      have hne : q ≠ i := hlq q hq hq0
      refine ⟨(List.mem_erase_of_ne hne).mpr hqv, ?_, hqd⟩
      obtain ⟨hor, hnr⟩ := (fsExists_true_iff g s q).mp hqf
      refine (fsExists_true_iff g _ q).mpr ⟨hor, fun hmem => ?_⟩
      rcases List.mem_cons.mp hmem with he | hm
      · exact hne he
      · exact hnr hm
    · rw [gcDeleteStep_valid_dir g s i hv]
      refine ⟨h1, h2, h3, fun p hp => h4 p (List.mem_of_mem_erase hp),
        fun t ht => ?_, fun q hq hq0 => ?_⟩
      · rcases mem_insertPath.mp ht with he | hm
        · exact ⟨i, h4 i hiv, he⟩
        · exact h5 t hm
      · obtain ⟨hqv, hqf, hqd⟩ := h6 q hq hq0
        have hne : q ≠ i := hlq q hq hq0
        refine ⟨(List.mem_erase_of_ne hne).mpr hqv, ?_, hqd⟩
        obtain ⟨hor, hnr⟩ := (fsExists_true_iff g s q).mp hqf
        refine (fsExists_true_iff g _ q).mpr ⟨?_, fun hmem => ?_⟩
        · rcases hor with h' | h'
          · exact Or.inl h'
          · exact Or.inr (List.mem_cons_of_mem _ h')
        · rcases List.mem_cons.mp hmem with he | hm
          · exact hne he
          · exact hnr hm
  · have hv' : isValidPath s i = false := by
      cases hx : isValidPath s i
      · rfl
      · exact absurd hx hv
    have hiv : i ∉ s.valid := by simpa [isValidPath] using hv'
    rw [gcDeleteStep_invalid g d s i hv']
    refine ⟨h1, h2, h3, h4, h5, fun q hq hq0 => ?_⟩
    obtain ⟨hqv, hqf, hqd⟩ := h6 q hq hq0
    have hne : q ≠ i := fun he => hiv (he ▸ hqv)
    refine ⟨hqv, ?_, hqd⟩
    obtain ⟨hor, hnr⟩ := (fsExists_true_iff g s q).mp hqf
    refine (fsExists_true_iff g _ q).mpr ⟨hor, fun hmem => ?_⟩
    rcases List.mem_cons.mp hmem with he | hm
    · exact hne he
    · exact hnr hm

/-- The SCC deletion loop preserves the liveness invariant when none of the
processed members is a live initially-valid path (whatever its exit). -/
theorem gcDeleteSCC_liveInv (g : Store) (R : List GCPath) (ko kd : Bool)
    (d : Bool) :
    ∀ (l : List GCPath) (s : GCState), LiveInv g R ko kd s →
      (∀ i ∈ l, i ∈ g.valid0 → ¬ Live g R ko kd i) →
      LiveInv g R ko kd (exceptState (gcDeleteSCC g d l s)) := by
  intro l
  induction l with
  | nil =>
    intro s hInv _
    simpa [gcDeleteSCC, exceptState] using hInv
  | cons i rest ih =>
    intro s hInv hdead
    have hni : ¬ (Live g R ko kd i ∧ i ∈ g.valid0) := fun ⟨hl, h0⟩ =>
      hdead i (List.mem_cons_self i rest) h0 hl
    simp only [gcDeleteSCC]
    by_cases hsd : shouldDelete s.options.action = true
    · rw [if_pos hsd]
      have hInv1 := liveInv_step g R ko kd d s i hInv hni
      by_cases hb : (gcDeleteStep g d s i).bytesFreed + (gcDeleteStep g d s i).bytesInvalidated >
          (gcDeleteStep g d s i).options.maxFreed
      · rw [if_pos hb]
        exact hInv1
      · rw [if_neg hb]
        exact ih _ (liveInv_record g R ko kd _ i hInv1 hni)
          (fun x hx => hdead x (List.mem_cons_of_mem i hx))
    · rw [if_neg hsd]
      exact ih _ (liveInv_record g R ko kd s i hInv hni)
        (fun x hx => hdead x (List.mem_cons_of_mem i hx))


/-- Marking an SCC live preserves the liveness invariant. -/
theorem liveInv_markLive (g : Store) (R : List GCPath) (ko kd : Bool)
    (paths : List GCPath) (s : GCState) (hInv : LiveInv g R ko kd s) :
    LiveInv g R ko kd (markLive paths s) := by
  obtain ⟨lv, rp, heq, _, _⟩ := markLive_eq paths s
  obtain ⟨h1, h2, h3, h4, h5, h6⟩ := hInv
  rw [heq]
  refine ⟨h1, h2, h3, h4, h5, fun q hq hq0 => ?_⟩
  obtain ⟨hqv, hqf, hqd⟩ := h6 q hq hq0
  exact ⟨hqv, by simpa [fsExists] using hqf, hqd⟩

/-- If some member of a policy-closed SCC is live, then either the SCC
contains a root, or some referrer outside the SCC is itself a live
initially-valid path.  This is the induction that justifies the root test
and referrer recursion of gc.cc:500-517. -/
theorem live_scc_detect (g : Store) (R : List GCPath) (ko kd : Bool)
    (s : GCState) (paths : List GCPath)
    (hInv : LiveInv g R ko kd s)
    (hfix : ∀ p ∈ paths, ∀ q ∈ sccSuccs g s p, q ∈ paths) :
    ∀ m, Live g R ko kd m → m ∈ paths → m ∈ g.valid0 →
      (∃ p ∈ paths, p ∈ s.roots) ∨
      (∃ r, r ∈ collectReferrers g s paths ∧ r ∉ paths ∧
        Live g R ko kd r ∧ r ∈ g.valid0) := by
  have hroots : s.roots = R := hInv.1
  have hko : s.gcKeepOutputs = ko := hInv.2.1
  have hkd : s.gcKeepDerivations = kd := hInv.2.2.1
  have hlv : ∀ q, Live g R ko kd q → q ∈ g.valid0 → q ∈ s.valid :=
    fun q hq hq0 => (hInv.2.2.2.2.2 q hq hq0).1
  intro m hLive
  induction hLive with
  | root hp =>
    intro hm _
    exact Or.inl ⟨_, hm, hroots.symm ▸ hp⟩
  | ref hq hq0 hpq ih =>
    rename_i p q
    intro hm hm0
    by_cases hqp : q ∈ paths
    · exact ih hqp hq0
    · right
      have hqv : q ∈ s.valid := hlv q hq hq0
      have hmv : p ∈ s.valid := hlv p (Live.ref hq hq0 hpq) hm0
      refine ⟨q, ?_, hqp, hq, hq0⟩
      refine mem_collectReferrers_of g s hm (by simp [isValidPath, hmv]) ?_
      exact List.mem_filter.mpr ⟨hqv, by simpa using hpq⟩
  | keepOut hk hd hd0 hder ih =>
    rename_i p d
    intro hm hm0
    have hdv : d ∈ s.valid := hlv d hd hd0
    have hsucc : d ∈ sccSuccs g s p := by
      refine List.mem_append.mpr (Or.inr ?_)
      rw [hko, hk, if_pos rfl]
      exact List.mem_filter.mpr ⟨hder, by simp [isValidPath, hdv]⟩
    exact ih (hfix p hm d hsucc) hd0
  | keepDrv hk ho ho0 hdrv hout ih =>
    rename_i d o
    intro hm hm0
    have hov : o ∈ s.valid := hlv o ho ho0
    have hsucc : o ∈ sccSuccs g s d := by
      refine List.mem_append.mpr (Or.inl ?_)
      have hcond : (s.gcKeepDerivations && g.isDerivation d) = true := by
        rw [hkd, hk, hdrv]; rfl
      rw [if_pos hcond]
      exact List.mem_filter.mpr ⟨hout, by simp [isValidPath, hov]⟩
    exact ih (hfix d hm o hsucc) ho0


/-- Invariant preservation through the referrer recursion loop: if the
recursive callee preserves the invariant and never reports a live
initially-valid path as gone, then so does the loop, and when the loop
completes every referrer outside the SCC is not a live initially-valid
path. -/
theorem tryDeleteReferrers_inv (g : Store) (R : List GCPath) (ko kd : Bool)
    (recur : GCState → GCPath → Option TDRes)
    (Hrec : ∀ (s : GCState) (p : GCPath) (r : TDRes), LiveInv g R ko kd s →
      recur s p = some r → LiveInv g R ko kd (TDRes.state r) ∧
      (∀ s', r = TDRes.res true s' → ¬ (Live g R ko kd p ∧ p ∈ g.valid0)))
    (paths : List GCPath) :
    ∀ (rs : List GCPath) (s : GCState), LiveInv g R ko kd s →
      (∀ s', tryDeleteReferrers recur paths rs s = RefLoopOut.ok s' →
        LiveInv g R ko kd s' ∧
        ∀ x ∈ rs, x ∉ paths → ¬ (Live g R ko kd x ∧ x ∈ g.valid0)) ∧
      (∀ s', tryDeleteReferrers recur paths rs s = RefLoopOut.isLive s' →
        LiveInv g R ko kd s') ∧
      (∀ s', tryDeleteReferrers recur paths rs s = RefLoopOut.limit s' →
        LiveInv g R ko kd s') ∧
      (∀ s', tryDeleteReferrers recur paths rs s = RefLoopOut.badPath s' →
        LiveInv g R ko kd s') := by
  intro rs
  induction rs with
  | nil =>
    intro s hInv
    refine ⟨fun s' h => ?_, fun s' h => ?_, fun s' h => ?_, fun s' h => ?_⟩
    all_goals replace h : RefLoopOut.ok s = _ := h
    · injection h with h
      subst h
      exact ⟨hInv, fun x hx => absurd hx (List.not_mem_nil x)⟩
    · exact RefLoopOut.noConfusion h
    · exact RefLoopOut.noConfusion h
    · exact RefLoopOut.noConfusion h
  | cons r rest ih =>
    intro s hInv
    by_cases hrp : r ∈ paths
    · have hun : ∀ z, tryDeleteReferrers recur paths (r :: rest) s = z ↔
          tryDeleteReferrers recur paths rest s = z := by
        intro z
        simp only [tryDeleteReferrers, if_pos hrp]
      obtain ⟨c1, c2, c3, c4⟩ := ih s hInv
      refine ⟨fun s' h => ?_, fun s' h => c2 s' ((hun _).mp h),
        fun s' h => c3 s' ((hun _).mp h), fun s' h => c4 s' ((hun _).mp h)⟩
      obtain ⟨hI, hall⟩ := c1 s' ((hun _).mp h)
      refine ⟨hI, fun x hx hxp => ?_⟩
      rcases List.mem_cons.mp hx with he | hm
      · exact absurd (he ▸ hrp) hxp
      · exact hall x hm hxp
    · cases hrec : recur s r with
      | none =>
        have hz : tryDeleteReferrers recur paths (r :: rest) s = RefLoopOut.fuelOut := by
          simp only [tryDeleteReferrers, if_neg hrp, hrec]
        rw [hz]
        exact ⟨fun s' h => RefLoopOut.noConfusion h, fun s' h => RefLoopOut.noConfusion h,
          fun s' h => RefLoopOut.noConfusion h, fun s' h => RefLoopOut.noConfusion h⟩
      | some res =>
        obtain ⟨hI1, hgone⟩ := Hrec s r res hInv hrec
        cases res with
        | res gone s1 =>
          cases gone
          · have hz : tryDeleteReferrers recur paths (r :: rest) s = RefLoopOut.isLive s1 := by
              simp only [tryDeleteReferrers, if_neg hrp, hrec]
            rw [hz]
            refine ⟨fun s' h => RefLoopOut.noConfusion h, fun s' h => ?_,
              fun s' h => RefLoopOut.noConfusion h, fun s' h => RefLoopOut.noConfusion h⟩
            injection h with h
            exact h ▸ hI1
          · have hz : tryDeleteReferrers recur paths (r :: rest) s =
                tryDeleteReferrers recur paths rest s1 := by
              simp only [tryDeleteReferrers, if_neg hrp, hrec]
            rw [hz]
            have hnl : ¬ (Live g R ko kd r ∧ r ∈ g.valid0) := hgone s1 rfl
            obtain ⟨c1, c2, c3, c4⟩ := ih s1 hI1
            refine ⟨fun s' h => ?_, c2, c3, c4⟩
            obtain ⟨hI, hall⟩ := c1 s' h
            refine ⟨hI, fun x hx hxp => ?_⟩
            rcases List.mem_cons.mp hx with he | hm
            · exact he ▸ hnl
            · exact hall x hm hxp
        | limit s1 =>
          have hz : tryDeleteReferrers recur paths (r :: rest) s = RefLoopOut.limit s1 := by
            simp only [tryDeleteReferrers, if_neg hrp, hrec]
          rw [hz]
          refine ⟨fun s' h => RefLoopOut.noConfusion h, fun s' h => RefLoopOut.noConfusion h,
            fun s' h => ?_, fun s' h => RefLoopOut.noConfusion h⟩
          injection h with h
          exact h ▸ hI1
        | badPath s1 =>
          have hz : tryDeleteReferrers recur paths (r :: rest) s = RefLoopOut.badPath s1 := by
            simp only [tryDeleteReferrers, if_neg hrp, hrec]
          rw [hz]
          refine ⟨fun s' h => RefLoopOut.noConfusion h, fun s' h => RefLoopOut.noConfusion h,
            fun s' h => RefLoopOut.noConfusion h, fun s' h => ?_⟩
          injection h with h
          exact h ▸ hI1


/-- Invariant preservation and liveness soundness for the SCC body of
`tryToDelete` (root test, referrer recursion, deletion): given that a live
member of the SCC forces a root member or a live outside referrer, the body
preserves the invariant, and if it answers that the SCC is gone then no
member was a live initially-valid path. -/
theorem tryToDeleteSCC_liveInv (g : Store) (R : List GCPath) (ko kd : Bool)
    (recur : GCState → GCPath → Option TDRes)
    (Hrec : ∀ (s : GCState) (p : GCPath) (r : TDRes), LiveInv g R ko kd s →
      recur s p = some r → LiveInv g R ko kd (TDRes.state r) ∧
      (∀ s', r = TDRes.res true s' → ¬ (Live g R ko kd p ∧ p ∈ g.valid0)))
    (stIsDir : Bool) (paths : List GCPath) (s : GCState) (r : TDRes)
    (hInv : LiveInv g R ko kd s)
    (Hlive : ∀ m ∈ paths, Live g R ko kd m → m ∈ g.valid0 →
      (∃ p ∈ paths, p ∈ s.roots) ∨
      (∃ r0, r0 ∈ collectReferrers g s paths ∧ r0 ∉ paths ∧
        Live g R ko kd r0 ∧ r0 ∈ g.valid0))
    (h : tryToDeleteSCC recur g stIsDir paths s = some r) :
    LiveInv g R ko kd (TDRes.state r) ∧
    (∀ s', r = TDRes.res true s' →
      ∀ m ∈ paths, ¬ (Live g R ko kd m ∧ m ∈ g.valid0)) := by
  unfold tryToDeleteSCC at h
  by_cases hroot : ∃ p ∈ paths, p ∈ s.roots
  · rw [if_pos hroot] at h
    injection h with h
    subst h
    refine ⟨liveInv_markLive g R ko kd paths s hInv, fun s' he => ?_⟩
    cases he
  · rw [if_neg hroot] at h
    obtain ⟨c1, c2, c3, c4⟩ := tryDeleteReferrers_inv g R ko kd recur Hrec paths
      (collectReferrers g s paths) s hInv
    cases htl : tryDeleteReferrers recur paths (collectReferrers g s paths) s with
    | fuelOut =>
      rw [htl] at h
      replace h : (none : Option TDRes) = some r := h
      cases h
    | limit s1 =>
      rw [htl] at h
      replace h : some (TDRes.limit s1) = some r := h
      injection h with h
      subst h
      exact ⟨c3 s1 htl, fun s' he => by cases he⟩
    | badPath s1 =>
      rw [htl] at h
      replace h : some (TDRes.badPath s1) = some r := h
      injection h with h
      subst h
      exact ⟨c4 s1 htl, fun s' he => by cases he⟩
    | isLive s1 =>
      rw [htl] at h
      replace h : some (TDRes.res false (markLive paths s1)) = some r := h
      injection h with h
      subst h
      exact ⟨liveInv_markLive g R ko kd paths s1 (c2 s1 htl), fun s' he => by cases he⟩
    | ok s1 =>
      rw [htl] at h
      replace h : (match gcDeleteSCC g stIsDir (topoSortPaths paths) s1 with
        | Except.error s2 => some (TDRes.limit s2)
        | Except.ok s2 => some (TDRes.res true s2)) = some r := h
      obtain ⟨hI1, hall⟩ := c1 s1 htl
      have hdead : ∀ m ∈ paths, m ∈ g.valid0 → ¬ Live g R ko kd m := by
        intro m hm hm0 hLm
        rcases Hlive m hm hLm hm0 with hr | ⟨r0, hr0c, hr0p, hr0l, hr00⟩
        · exact hroot hr
        · exact hall r0 hr0c hr0p ⟨hr0l, hr00⟩
      have hInvDel := gcDeleteSCC_liveInv g R ko kd stIsDir
        (topoSortPaths paths) s1 hI1 (fun i hi h0 => hdead i hi h0)
      cases hdel : gcDeleteSCC g stIsDir (topoSortPaths paths) s1 with
      | error s2 =>
        rw [hdel] at h hInvDel
        replace h : some (TDRes.limit s2) = some r := h
        injection h with h
        subst h
        exact ⟨by simpa [exceptState] using hInvDel, fun s' he => by cases he⟩
      | ok s2 =>
        rw [hdel] at h hInvDel
        replace h : some (TDRes.res true s2) = some r := h
        injection h with h
        subst h
        refine ⟨by simpa [exceptState] using hInvDel, fun s' he m hm => ?_⟩
        exact fun ⟨hLm, hm0⟩ => hdead m hm hm0 hLm


/-- The central liveness lemma for `tryToDelete` (gc.cc:434-573): under a
well-formed store, every call that completes preserves the liveness
invariant, and never returns "gone" for a path that is live and was
initially valid. -/
theorem tryToDelete_liveInv (g : Store) (cfg : Settings)
    (R : List GCPath) (ko kd : Bool) (hwf : WFStore g cfg) :
    ∀ (fuel : Nat) (s : GCState) (path : GCPath) (r : TDRes),
      LiveInv g R ko kd s → tryToDelete g cfg fuel s path = some r →
      LiveInv g R ko kd (TDRes.state r) ∧
      (∀ s', r = TDRes.res true s' → ¬ (Live g R ko kd path ∧ path ∈ g.valid0)) := by
  intro fuel
  induction fuel with
  | zero =>
    intro s path r hInv h
    replace h : (none : Option TDRes) = some r := h
    cases h
  | succ fuel ih =>
    intro s path r hInv h
    by_cases h1 : path = linksDir cfg
    · replace h : some (TDRes.res true s) = some r := by
        simpa only [tryToDelete, if_pos h1] using h
      injection h with h
      subst h
      exact ⟨hInv, fun s' he => fun ⟨_, h0⟩ => hwf.linksNotValid (h1 ▸ h0)⟩
    · by_cases h2 : fsExists g s path = false
      · replace h : some (TDRes.res true s) = some r := by
          simpa only [tryToDelete, if_neg h1, if_pos h2] using h
        injection h with h
        subst h
        refine ⟨hInv, fun s' he => fun ⟨hl, h0⟩ => ?_⟩
        have := (hInv.2.2.2.2.2 path hl h0).2.1
        rw [h2] at this
        cases this
      · by_cases h3 : path ∈ s.deleted
        · replace h : some (TDRes.res true s) = some r := by
            simpa only [tryToDelete, if_neg h1, if_neg h2, if_pos h3] using h
          injection h with h
          subst h
          refine ⟨hInv, fun s' he => fun ⟨hl, h0⟩ => ?_⟩
          exact (hInv.2.2.2.2.2 path hl h0).2.2 h3
        · by_cases h4 : path ∈ s.live
          · replace h : some (TDRes.res false s) = some r := by
              simpa only [tryToDelete, if_neg h1, if_neg h2, if_neg h3, if_pos h4] using h
            injection h with h
            subst h
            exact ⟨hInv, fun s' he => by cases he⟩
          · by_cases hv : isValidPath s path = true
            · replace h : (match closePaths g s fuel [path] [] with
                | none => none
                | some (Except.error _) => some (TDRes.badPath s)
                | some (Except.ok paths) =>
                  tryToDeleteSCC (tryToDelete g cfg fuel) g (g.isDir path) paths s) = some r := by
                simpa only [tryToDelete, if_neg h1, if_neg h2, if_neg h3, if_neg h4, if_pos hv] using h
              cases hcp : closePaths g s fuel [path] [] with
              | none =>
                rw [hcp] at h
                replace h : (none : Option TDRes) = some r := h
                cases h
              | some res =>
                cases res with
                | error e =>
                  rw [hcp] at h
                  replace h : some (TDRes.badPath s) = some r := h
                  injection h with h
                  subst h
                  exact ⟨hInv, fun s' he => by cases he⟩
                | ok paths =>
                  rw [hcp] at h
                  replace h : tryToDeleteSCC (tryToDelete g cfg fuel) g
                      (g.isDir path) paths s = some r := h
                  obtain ⟨c1, c2, c3, c4, c5⟩ := closePaths_ok_spec g s fuel [path] [] paths hcp
                  have hpmem : path ∈ paths := c2 path (List.mem_cons_self path [])
                  have hfix : ∀ p ∈ paths, ∀ q ∈ sccSuccs g s p, q ∈ paths :=
                    c3 (fun p hp => absurd hp (List.not_mem_nil p))
                  have hmain := tryToDeleteSCC_liveInv g R ko kd
                    (tryToDelete g cfg fuel) (fun s p r hI hr => ih s p r hI hr)
                    (g.isDir path) paths s r hInv
                    (fun m hm hLm hm0 =>
                      live_scc_detect g R ko kd s paths hInv hfix m hLm hm hm0) h
                  exact ⟨hmain.1, fun s' he => hmain.2 s' he path hpmem⟩
            · by_cases hl : isActiveTempFile s path ".lock" = true
              · replace h : some (TDRes.res false s) = some r := by
                  simpa only [tryToDelete, if_neg h1, if_neg h2, if_neg h3, if_neg h4,
                    if_neg hv, if_pos hl] using h
                injection h with h
                subst h
                exact ⟨hInv, fun s' he => by cases he⟩
              · by_cases hc : isActiveTempFile s path ".chroot" = true
                · replace h : some (TDRes.res false s) = some r := by
                    simpa only [tryToDelete, if_neg h1, if_neg h2, if_neg h3, if_neg h4,
                      if_neg hv, if_neg hl, if_pos hc] using h
                  injection h with h
                  subst h
                  exact ⟨hInv, fun s' he => by cases he⟩
                · replace h : tryToDeleteSCC (tryToDelete g cfg fuel) g
                      (g.isDir path) [path] s = some r := by
                    simpa only [tryToDelete, if_neg h1, if_neg h2, if_neg h3, if_neg h4,
                      if_neg hv, if_neg hl, if_neg hc] using h
                  have Hlive : ∀ m ∈ [path], Live g R ko kd m → m ∈ g.valid0 →
                      (∃ p ∈ [path], p ∈ s.roots) ∨
                      (∃ r0, r0 ∈ collectReferrers g s [path] ∧ r0 ∉ [path] ∧
                        Live g R ko kd r0 ∧ r0 ∈ g.valid0) := by
                    intro m hm hLm hm0
                    have hme : m = path := by
                      rcases List.mem_cons.mp hm with he | he
                      · exact he
                      · cases he
                    have hmv := (hInv.2.2.2.2.2 m hLm hm0).1
                    rw [hme] at hmv
                    have : isValidPath s path = true := by simp [isValidPath, hmv]
                    exact absurd this hv
                  have hmain := tryToDeleteSCC_liveInv g R ko kd
                    (tryToDelete g cfg fuel) (fun s p r hI hr => ih s p r hI hr)
                    (g.isDir path) [path] s r hInv Hlive h
                  exact ⟨hmain.1, fun s' he =>
                    hmain.2 s' he path (List.mem_cons_self path [])⟩


/-- `SameWorld` is reflexive. -/
theorem sameWorld_rfl (s : GCState) : SameWorld s s :=
  ⟨rfl, rfl, rfl, rfl, rfl, rfl, rfl, rfl, rfl, rfl, rfl, rfl, rfl, rfl, rfl⟩

/-- `SameWorld` composes. -/
theorem sameWorld_trans {a b c : GCState} (h1 : SameWorld a b)
    (h2 : SameWorld b c) : SameWorld a c := by
  obtain ⟨x1, x2, x3, x4, x5, x6, x7, x8, x9, x10, x11, x12, x13, x14, x15⟩ := h1
  obtain ⟨y1, y2, y3, y4, y5, y6, y7, y8, y9, y10, y11, y12, y13, y14, y15⟩ := h2
  exact ⟨y1.trans x1, y2.trans x2, y3.trans x3, y4.trans x4, y5.trans x5,
    y6.trans x6, y7.trans x7, y8.trans x8, y9.trans x9, y10.trans x10,
    y11.trans x11, y12.trans x12, y13.trans x13, y14.trans x14, y15.trans x15⟩

/-- The token loop touches only `tempRoots` (whatever its exit). -/
theorem addTempRootTokens_world (g : Store) :
    ∀ (ts : List String) (s : GCState),
      SameWorld s (exceptState (addTempRootTokens g ts s)) ∧
      (exceptState (addTempRootTokens g ts s)).roots = s.roots ∧
      (exceptState (addTempRootTokens g ts s)).reaped = s.reaped ∧
      (exceptState (addTempRootTokens g ts s)).keptFds = s.keptFds := by
  intro ts
  induction ts with
  | nil =>
    intro s
    exact ⟨sameWorld_rfl s, rfl, rfl, rfl⟩
  | cons r rest ih =>
    intro s
    by_cases hr : g.isStorePath r = true
    · have hz : addTempRootTokens g (r :: rest) s =
          addTempRootTokens g rest { s with tempRoots := insertPath r s.tempRoots } := by
        simp only [addTempRootTokens, if_pos hr]
      rw [hz]
      obtain ⟨w, hroots, hreap, hfds⟩ := ih { s with tempRoots := insertPath r s.tempRoots }
      exact ⟨sameWorld_trans (sameWorld_rfl _) w, hroots, hreap, hfds⟩
    · have hz : addTempRootTokens g (r :: rest) s = .error s := by
        simp only [addTempRootTokens, if_neg hr]
      rw [hz]
      exact ⟨sameWorld_rfl s, rfl, rfl, rfl⟩

/-- The temp-roots reader touches only `tempRoots`, `reaped` and `keptFds`
(whatever its exit). -/
theorem readTempRoots_world (g : Store) :
    ∀ (files : List TempRootFile) (s : GCState),
      SameWorld s (exceptState (readTempRoots g files s)) ∧
      (exceptState (readTempRoots g files s)).roots = s.roots := by
  intro files
  induction files with
  | nil =>
    intro s
    exact ⟨sameWorld_rfl s, rfl⟩
  | cons f rest ih =>
    intro s
    by_cases hm : f.missing = true
    · have hz : readTempRoots g (f :: rest) s = readTempRoots g rest s := by
        simp only [readTempRoots, if_pos hm]
      rw [hz]
      exact ih s
    · by_cases ha : f.ownerAlive = false
      · have hz : readTempRoots g (f :: rest) s =
            readTempRoots g rest { s with reaped := s.reaped ++ [(f.name, 'd')] } := by
          simp only [readTempRoots, if_neg hm, if_pos ha]
        rw [hz]
        obtain ⟨w, hroots⟩ := ih { s with reaped := s.reaped ++ [(f.name, 'd')] }
        exact ⟨sameWorld_trans (sameWorld_rfl _) w, hroots⟩
      · cases htok : addTempRootTokens g (splitNul f.contents) s with
        | error s1 =>
          have hz : readTempRoots g (f :: rest) s = .error s1 := by
            simp only [readTempRoots, if_neg hm, if_neg ha, htok]
          rw [hz]
          obtain ⟨w, hroots, _, _⟩ := addTempRootTokens_world g (splitNul f.contents) s
          rw [htok] at w hroots
          exact ⟨w, hroots⟩
        | ok s1 =>
          have hz : readTempRoots g (f :: rest) s =
              readTempRoots g rest { s1 with keptFds := s1.keptFds ++ [f.name] } := by
            simp only [readTempRoots, if_neg hm, if_neg ha, htok]
          rw [hz]
          obtain ⟨w, hroots, _, _⟩ := addTempRootTokens_world g (splitNul f.contents) s
          rw [htok] at w hroots
          obtain ⟨w2, hroots2⟩ := ih { s1 with keptFds := s1.keptFds ++ [f.name] }
          refine ⟨sameWorld_trans (sameWorld_trans w (sameWorld_rfl _)) w2, ?_⟩
          rw [hroots2]
          exact hroots

/-- Root discovery touches only `roots`, `tempRoots`, `reaped` and
`keptFds` (whatever its exit). -/
theorem gcFindRootsPhase_world (g : Store) (env : GCEnv) (options : GCOptions)
    (s : GCState) :
    SameWorld s (exceptState (gcFindRootsPhase g env options s)) := by
  unfold gcFindRootsPhase
  set s1 := if options.ignoreLiveness then s
    else
      let sA := { s with roots := unionPaths env.rootMapValues s.roots }
      { sA with roots := addAdditionalRoots g sA.valid env.rootFinderOutput sA.roots }
    with hs1
  have hw1 : SameWorld s s1 := by
    rw [hs1]
    by_cases hi : options.ignoreLiveness = true
    · rw [if_pos hi]; exact sameWorld_rfl s
    · rw [if_neg hi]; exact sameWorld_rfl _
  obtain ⟨w2, _⟩ := readTempRoots_world g env.tempRootFiles s1
  cases htr : readTempRoots g env.tempRootFiles s1 with
  | error s2 =>
    rw [htr] at w2
    simp only [htr]
    exact sameWorld_trans hw1 w2
  | ok s2 =>
    rw [htr] at w2
    simp only [htr]
    exact sameWorld_trans hw1 (sameWorld_trans w2 (sameWorld_rfl _))


/-- `fsExists` only reads the filesystem fields. -/
theorem fsExists_congr (g : Store) {s s' : GCState} (q : GCPath)
    (h1 : s'.fsCreated = s.fsCreated) (h2 : s'.fsRemoved = s.fsRemoved) :
    fsExists g s' q = fsExists g s q := by
  simp [fsExists, h1, h2]

/-- The liveness invariant only reads `roots`, the policy flags, `valid`,
`invalidated`, `deleted` and the filesystem fields. -/
theorem liveInv_of_eqFields (g : Store) (R : List GCPath) (ko kd : Bool)
    {s s' : GCState} (hInv : LiveInv g R ko kd s)
    (e1 : s'.roots = s.roots) (e2 : s'.gcKeepOutputs = s.gcKeepOutputs)
    (e3 : s'.gcKeepDerivations = s.gcKeepDerivations)
    (e4 : s'.valid = s.valid) (e5 : s'.invalidated = s.invalidated)
    (e6 : s'.deleted = s.deleted) (e7 : s'.fsCreated = s.fsCreated)
    (e8 : s'.fsRemoved = s.fsRemoved) :
    LiveInv g R ko kd s' := by
  obtain ⟨h1, h2, h3, h4, h5, h6⟩ := hInv
  refine ⟨e1.trans h1, e2.trans h2, e3.trans h3,
    fun p hp => h4 p (by rwa [e4] at hp), fun t ht => h5 t (by rwa [e5] at ht),
    fun q hq hq0 => ?_⟩
  obtain ⟨hqv, hqf, hqd⟩ := h6 q hq hq0
  refine ⟨by rw [e4]; exact hqv, ?_, fun hd => hqd (by rwa [e6] at hd)⟩
  rw [fsExists_congr g q e7 e8]
  exact hqf

/-- The initial state after a successful root-discovery phase satisfies the
liveness invariant for the run's own roots and policy flags. -/
theorem liveInv_initial (g : Store) (cfg : Settings) (env : GCEnv)
    (options : GCOptions) (s1 : GCState) (hwf : WFStore g cfg)
    (h : gcFindRootsPhase g env options (initialGCState g cfg options) = .ok s1) :
    LiveInv g s1.roots s1.gcKeepOutputs s1.gcKeepDerivations s1 := by
  have hw := gcFindRootsPhase_world g env options (initialGCState g cfg options)
  rw [h] at hw
  replace hw : SameWorld (initialGCState g cfg options) s1 := hw
  obtain ⟨x1, x2, x3, x4, x5, x6, x7, x8, x9, x10, x11, x12, x13, x14, x15⟩ := hw
  replace x11 : s1.valid = g.valid0 := x11
  replace x4 : s1.deleted = ([] : List GCPath) := x4
  replace x7 : s1.invalidated = ([] : List GCPath) := x7
  replace x12 : s1.fsCreated = ([] : List GCPath) := x12
  replace x13 : s1.fsRemoved = ([] : List GCPath) := x13
  refine ⟨rfl, rfl, rfl, fun p hp => x11 ▸ hp, fun t ht => ?_, fun q hq hq0 => ?_⟩
  · rw [x7] at ht
    cases ht
  · refine ⟨x11.symm ▸ hq0, ?_, ?_⟩
    · rw [fsExists_true_iff, x12, x13]
      exact ⟨Or.inl (hwf.validFs q hq0), fun hx => absurd hx (List.not_mem_nil q)⟩
    · rw [x4]
      exact List.not_mem_nil q

/-- The `gcDeleteSpecific` loop preserves the liveness invariant on every
exit. -/
theorem gcDeleteSpecificLoop_liveInv (g : Store) (cfg : Settings)
    (R : List GCPath) (ko kd : Bool) (hwf : WFStore g cfg) (fuel : Nat) :
    ∀ (l : List GCPath) (s : GCState) (e : GCExit), LiveInv g R ko kd s →
      gcDeleteSpecificLoop g cfg fuel l s = some e →
      LiveInv g R ko kd (GCExit.state e) := by
  intro l
  induction l with
  | nil =>
    intro s e hInv h
    replace h : some (GCExit.done s) = some e := h
    injection h with h
    subst h
    exact hInv
  | cons i rest ih =>
    intro s e hInv h
    by_cases hsp : g.isStorePath i = false
    · replace h : some (GCExit.badPathErr s) = some e := by
        simpa only [gcDeleteSpecificLoop, if_pos hsp] using h
      injection h with h
      subst h
      exact hInv
    · cases htd : tryToDelete g cfg fuel s i with
      | none =>
        replace h : (none : Option GCExit) = some e := by
          simpa only [gcDeleteSpecificLoop, if_neg hsp, htd] using h
        cases h
      | some res =>
        obtain ⟨hI, _⟩ := tryToDelete_liveInv g cfg R ko kd hwf fuel s i res hInv htd
        cases res with
        | res gone s' =>
          cases gone
          · replace h : some (GCExit.aliveErr i s') = some e := by
              simpa only [gcDeleteSpecificLoop, if_neg hsp, htd] using h
            injection h with h
            subst h
            exact hI
          · replace h : gcDeleteSpecificLoop g cfg fuel rest s' = some e := by
              simpa only [gcDeleteSpecificLoop, if_neg hsp, htd] using h
            exact ih s' e hI h
        | limit s' =>
          replace h : some (GCExit.limitEsc s') = some e := by
            simpa only [gcDeleteSpecificLoop, if_neg hsp, htd] using h
          injection h with h
          subst h
          exact hI
        | badPath s' =>
          replace h : some (GCExit.badPathErr s') = some e := by
            simpa only [gcDeleteSpecificLoop, if_neg hsp, htd] using h
          injection h with h
          subst h
          exact hI

/-- The streaming store sweep preserves the liveness invariant on every
exit. -/
theorem gcSweepStage1_liveInv (g : Store) (cfg : Settings)
    (R : List GCPath) (ko kd : Bool) (hwf : WFStore g cfg) (fuel : Nat) :
    ∀ (names : List String) (s : GCState) (entries : List GCPath)
      (out : SweepOut), LiveInv g R ko kd s →
      gcSweepStage1 g cfg fuel names s entries = some out →
      LiveInv g R ko kd (SweepOut.state out) := by
  intro names
  induction names with
  | nil =>
    intro s entries out hInv h
    replace h : some (SweepOut.cont s entries) = some out := h
    injection h with h
    subst h
    exact hInv
  | cons name rest ih =>
    intro s entries out hInv h
    by_cases hdot : name = "." ∨ name = ".."
    · replace h : gcSweepStage1 g cfg fuel rest s entries = some out := by
        simpa only [gcSweepStage1, if_pos hdot] using h
      exact ih s entries out hInv h
    · by_cases hv : isValidPath s (cfg.nixStore ++ "/" ++ name) = true
      · replace h : gcSweepStage1 g cfg fuel rest s
            (entries ++ [cfg.nixStore ++ "/" ++ name]) = some out := by
          simpa only [gcSweepStage1, if_neg hdot, if_pos hv] using h
        exact ih s _ out hInv h
      · cases htd : tryToDelete g cfg fuel s (cfg.nixStore ++ "/" ++ name) with
        | none =>
          replace h : (none : Option SweepOut) = some out := by
            simpa only [gcSweepStage1, if_neg hdot, if_neg hv, htd] using h
          cases h
        | some res =>
          obtain ⟨hI, _⟩ := tryToDelete_liveInv g cfg R ko kd hwf fuel s _ res hInv htd
          cases res with
          | res gone s' =>
            replace h : gcSweepStage1 g cfg fuel rest s' entries = some out := by
              simpa only [gcSweepStage1, if_neg hdot, if_neg hv, htd] using h
            exact ih s' entries out hI h
          | limit s' =>
            replace h : some (SweepOut.limitHit s') = some out := by
              simpa only [gcSweepStage1, if_neg hdot, if_neg hv, htd] using h
            injection h with h
            subst h
            exact hI
          | badPath s' =>
            replace h : some (SweepOut.badP s') = some out := by
              simpa only [gcSweepStage1, if_neg hdot, if_neg hv, htd] using h
            injection h with h
            subst h
            exact hI

/-- The shuffled sweep preserves the liveness invariant on every exit. -/
theorem gcSweepStage2_liveInv (g : Store) (cfg : Settings)
    (R : List GCPath) (ko kd : Bool) (hwf : WFStore g cfg) (fuel : Nat) :
    ∀ (l : List GCPath) (s : GCState) (out : SweepOut), LiveInv g R ko kd s →
      gcSweepStage2 g cfg fuel l s = some out →
      LiveInv g R ko kd (SweepOut.state out) := by
  intro l
  induction l with
  | nil =>
    intro s out hInv h
    replace h : some (SweepOut.cont s []) = some out := h
    injection h with h
    subst h
    exact hInv
  | cons i rest ih =>
    intro s out hInv h
    cases htd : tryToDelete g cfg fuel s i with
    | none =>
      replace h : (none : Option SweepOut) = some out := by
        simpa only [gcSweepStage2, htd] using h
      cases h
    | some res =>
      obtain ⟨hI, _⟩ := tryToDelete_liveInv g cfg R ko kd hwf fuel s i res hInv htd
      cases res with
      | res gone s' =>
        replace h : gcSweepStage2 g cfg fuel rest s' = some out := by
          simpa only [gcSweepStage2, htd] using h
        exact ih s' out hI h
      | limit s' =>
        replace h : some (SweepOut.limitHit s') = some out := by
          simpa only [gcSweepStage2, htd] using h
        injection h with h
        subst h
        exact hI
      | badPath s' =>
        replace h : some (SweepOut.badP s') = some out := by
          simpa only [gcSweepStage2, htd] using h
        injection h with h
        subst h
        exact hI

/-- Classification preserves the liveness invariant on every exit. -/
theorem gcClassifyPhase_liveInv (g : Store) (cfg : Settings) (env : GCEnv)
    (options : GCOptions) (R : List GCPath) (ko kd : Bool)
    (hwf : WFStore g cfg) (fuel : Nat) (s : GCState) (e : GCExit)
    (hInv : LiveInv g R ko kd s)
    (h : gcClassifyPhase g cfg env options fuel s = some e) :
    LiveInv g R ko kd (GCExit.state e) := by
  unfold gcClassifyPhase at h
  by_cases ha : (options.action == GCAction.gcDeleteSpecific) = true
  · rw [if_pos ha] at h
    exact gcDeleteSpecificLoop_liveInv g cfg R ko kd hwf fuel
      options.pathsToDelete s e hInv h
  · rw [if_neg ha] at h
    by_cases hm : options.maxFreed > 0
    · rw [if_pos hm] at h
      cases h1 : gcSweepStage1 g cfg fuel g.storeEntryNames s [] with
      | none =>
        rw [h1] at h
        replace h : (none : Option GCExit) = some e := h
        cases h
      | some out1 =>
        rw [h1] at h
        have hI1 := gcSweepStage1_liveInv g cfg R ko kd hwf fuel
          g.storeEntryNames s [] out1 hInv h1
        cases out1 with
        | badP s' =>
          replace h : some (GCExit.badPathErr s') = some e := h
          injection h with h
          subst h
          exact hI1
        | limitHit s' =>
          replace h : some (GCExit.done s') = some e := h
          injection h with h
          subst h
          exact hI1
        | cont s' entries =>
          replace hI1 : LiveInv g R ko kd s' := hI1
          replace h : (match gcSweepStage2 g cfg fuel (env.shuffle entries) s' with
            | none => none
            | some (SweepOut.badP s'') => some (GCExit.badPathErr s'')
            | some (SweepOut.limitHit s'') => some (GCExit.done s'')
            | some (SweepOut.cont s'' _) => some (GCExit.done s'')) = some e := h
          cases h2 : gcSweepStage2 g cfg fuel (env.shuffle entries) s' with
          | none =>
            rw [h2] at h
            replace h : (none : Option GCExit) = some e := h
            cases h
          | some out2 =>
            rw [h2] at h
            have hI2 := gcSweepStage2_liveInv g cfg R ko kd hwf fuel
              (env.shuffle entries) s' out2 hI1 h2
            cases out2 with
            | badP s'' =>
              replace h : some (GCExit.badPathErr s'') = some e := h
              injection h with h
              subst h
              exact hI2
            | limitHit s'' =>
              replace h : some (GCExit.done s'') = some e := h
              injection h with h
              subst h
              exact hI2
            | cont s'' l2 =>
              replace h : some (GCExit.done s'') = some e := h
              injection h with h
              subst h
              exact hI2
    · rw [if_neg hm] at h
      replace h : some (GCExit.done s) = some e := h
      injection h with h
      subst h
      exact hInv

/-- Folding `deleteGarbage` over paths that are not initially valid
preserves the liveness invariant. -/
theorem deleteGarbage_fold_liveInv (g : Store) (R : List GCPath) (ko kd : Bool) :
    ∀ (l : List GCPath) (s : GCState), LiveInv g R ko kd s →
      (∀ t ∈ l, t ∉ g.valid0) →
      LiveInv g R ko kd (l.foldl (fun s i => deleteGarbage g s i) s) := by
  intro l
  induction l with
  | nil => intro s hInv _; exact hInv
  | cons t rest ih =>
    intro s hInv hvl
    simp only [List.foldl_cons]
    refine ih _ ?_ (fun x hx => hvl x (List.mem_cons_of_mem t hx))
    obtain ⟨h1, h2, h3, h4, h5, h6⟩ := hInv
    refine ⟨h1, h2, h3, h4, h5, fun q hq hq0 => ?_⟩
    obtain ⟨hqv, hqf, hqd⟩ := h6 q hq hq0
    have hne : q ≠ t := fun he => hvl t (List.mem_cons_self t rest) (he ▸ hq0)
    refine ⟨hqv, ?_, hqd⟩
    obtain ⟨hor, hnr⟩ := (fsExists_true_iff g s q).mp hqf
    refine (fsExists_true_iff g _ q).mpr ⟨hor, fun hmem => ?_⟩
    rcases List.mem_cons.mp hmem with he | hm
    · exact hne he
    · exact hnr hm

/-- Deleting the renamed invalidated directories after lock release
preserves the liveness invariant (their names collide with no valid
path). -/
theorem gcCleanupInvalidated_liveInv (g : Store) (cfg : Settings)
    (R : List GCPath) (ko kd : Bool) (hwf : WFStore g cfg) (s : GCState)
    (hInv : LiveInv g R ko kd s) :
    LiveInv g R ko kd (gcCleanupInvalidated g s) := by
  unfold gcCleanupInvalidated
  refine deleteGarbage_fold_liveInv g R ko kd s.invalidated s hInv ?_
  intro t ht
  obtain ⟨p, hp0, he⟩ := hInv.2.2.2.2.1 t ht
  exact he ▸ hwf.renameFresh p hp0

/-- The link sweep touches only `linksRemoved` and `bytesFreed`. -/
theorem removeUnusedLinks_fields :
    ∀ (l : List (String × Nat × Nat)) (s : GCState),
      (l.foldl (fun s e =>
        if e.1 = "." ∨ e.1 = ".." then s
        else if e.2.1 ≠ 1 then s
        else { s with linksRemoved := s.linksRemoved ++ [e.1],
                      bytesFreed := s.bytesFreed + e.2.2 * 512 }) s).roots = s.roots ∧
      (l.foldl (fun s e =>
        if e.1 = "." ∨ e.1 = ".." then s
        else if e.2.1 ≠ 1 then s
        else { s with linksRemoved := s.linksRemoved ++ [e.1],
                      bytesFreed := s.bytesFreed + e.2.2 * 512 }) s).gcKeepOutputs = s.gcKeepOutputs ∧
      (l.foldl (fun s e =>
        if e.1 = "." ∨ e.1 = ".." then s
        else if e.2.1 ≠ 1 then s
        else { s with linksRemoved := s.linksRemoved ++ [e.1],
                      bytesFreed := s.bytesFreed + e.2.2 * 512 }) s).gcKeepDerivations = s.gcKeepDerivations ∧
      (l.foldl (fun s e =>
        if e.1 = "." ∨ e.1 = ".." then s
        else if e.2.1 ≠ 1 then s
        else { s with linksRemoved := s.linksRemoved ++ [e.1],
                      bytesFreed := s.bytesFreed + e.2.2 * 512 }) s).valid = s.valid ∧
      (l.foldl (fun s e =>
        if e.1 = "." ∨ e.1 = ".." then s
        else if e.2.1 ≠ 1 then s
        else { s with linksRemoved := s.linksRemoved ++ [e.1],
                      bytesFreed := s.bytesFreed + e.2.2 * 512 }) s).invalidated = s.invalidated ∧
      (l.foldl (fun s e =>
        if e.1 = "." ∨ e.1 = ".." then s
        else if e.2.1 ≠ 1 then s
        else { s with linksRemoved := s.linksRemoved ++ [e.1],
                      bytesFreed := s.bytesFreed + e.2.2 * 512 }) s).deleted = s.deleted ∧
      (l.foldl (fun s e =>
        if e.1 = "." ∨ e.1 = ".." then s
        else if e.2.1 ≠ 1 then s
        else { s with linksRemoved := s.linksRemoved ++ [e.1],
                      bytesFreed := s.bytesFreed + e.2.2 * 512 }) s).fsCreated = s.fsCreated ∧
      (l.foldl (fun s e =>
        if e.1 = "." ∨ e.1 = ".." then s
        else if e.2.1 ≠ 1 then s
        else { s with linksRemoved := s.linksRemoved ++ [e.1],
                      bytesFreed := s.bytesFreed + e.2.2 * 512 }) s).fsRemoved = s.fsRemoved := by
  intro l
  induction l with
  | nil => intro s; exact ⟨rfl, rfl, rfl, rfl, rfl, rfl, rfl, rfl⟩
  | cons e rest ih =>
    intro s
    simp only [List.foldl_cons]
    by_cases h1 : e.1 = "." ∨ e.1 = ".."
    · rw [if_pos h1]; exact ih s
    · rw [if_neg h1]
      by_cases h2 : e.2.1 ≠ 1
      · rw [if_pos h2]; exact ih s
      · rw [if_neg h2]
        obtain ⟨a1, a2, a3, a4, a5, a6, a7, a8⟩ := ih
          { s with linksRemoved := s.linksRemoved ++ [e.1],
                   bytesFreed := s.bytesFreed + e.2.2 * 512 }
        exact ⟨a1, a2, a3, a4, a5, a6, a7, a8⟩

/-- The link sweep preserves the liveness invariant. -/
theorem removeUnusedLinks_liveInv (g : Store) (R : List GCPath) (ko kd : Bool)
    (s : GCState) (hInv : LiveInv g R ko kd s) :
    LiveInv g R ko kd (removeUnusedLinks g s) := by
  obtain ⟨a1, a2, a3, a4, a5, a6, a7, a8⟩ := removeUnusedLinks_fields g.links s
  exact liveInv_of_eqFields g R ko kd hInv a1 a2 a3 a4 a5 a6 a7 a8


/-- Claim C1 (the spec's P1): for every run of `collectGarbage`, every store
path that is live - in the run's root set or reachable from it via
`references` together with the policy edges enabled by
`keep-outputs`/`keep-derivations` - and was a valid store path when the run
started is still a valid store path (and still on disk) when the run ends,
whatever the exit.  `tryToDelete` never deletes or invalidates such a
path. -/
theorem collectGarbage_no_live_path_deleted (g : Store) (cfg : Settings)
    (env : GCEnv) (options : GCOptions) (fuel : Nat) (out : GCExit)
    (hwf : WFStore g cfg)
    (h : collectGarbage g cfg env options fuel = some out) :
    ∀ p, Live g (GCExit.state out).roots (GCExit.state out).gcKeepOutputs
        (GCExit.state out).gcKeepDerivations p → p ∈ g.valid0 →
      p ∈ (GCExit.state out).valid ∧ fsExists g (GCExit.state out) p = true := by
  have hworld := gcFindRootsPhase_world g env options (initialGCState g cfg options)
  cases hf : gcFindRootsPhase g env options (initialGCState g cfg options) with
  | error s1 =>
    replace h : some (GCExit.badPathErr s1) = some out := by
      simpa only [collectGarbage, hf] using h
    injection h with h
    subst h
    rw [hf] at hworld
    replace hworld : SameWorld (initialGCState g cfg options) s1 := hworld
    obtain ⟨_, _, _, _, _, _, _, _, _, _, x11, x12, x13, _, _⟩ := hworld
    replace x11 : s1.valid = g.valid0 := x11
    replace x12 : s1.fsCreated = ([] : List GCPath) := x12
    replace x13 : s1.fsRemoved = ([] : List GCPath) := x13
    simp only [GCExit.state]
    intro p _ hp0
    refine ⟨x11 ▸ hp0, ?_⟩
    rw [fsExists_true_iff, x12, x13]
    exact ⟨Or.inl (hwf.validFs p hp0), fun hx => absurd hx (List.not_mem_nil p)⟩
  | ok s1 =>
    have hInv1 := liveInv_initial g cfg env options s1 hwf hf
    replace h : (match gcClassifyPhase g cfg env options fuel s1 with
      | none => none
      | some (GCExit.done s2) =>
        some (GCExit.done
          (if options.action == GCAction.gcDeleteDead then
            vacuumDB
              (if options.action == GCAction.gcDeleteDead
                  || options.action == GCAction.gcDeleteSpecific then
                removeUnusedLinks g (gcCleanupInvalidated g s2)
              else gcCleanupInvalidated g s2)
          else
            (if options.action == GCAction.gcDeleteDead
                || options.action == GCAction.gcDeleteSpecific then
              removeUnusedLinks g (gcCleanupInvalidated g s2)
            else gcCleanupInvalidated g s2)))
      | some other => some other) = some out := by
      simpa only [collectGarbage, hf] using h
    cases hc : gcClassifyPhase g cfg env options fuel s1 with
    | none =>
      rw [hc] at h
      replace h : (none : Option GCExit) = some out := h
      cases h
    | some e =>
      have hInvE := gcClassifyPhase_liveInv g cfg env options s1.roots
        s1.gcKeepOutputs s1.gcKeepDerivations hwf fuel s1 e hInv1 hc
      have hfinal : LiveInv g s1.roots s1.gcKeepOutputs s1.gcKeepDerivations
          (GCExit.state out) := by
        cases e with
        | done s2 =>
          rw [hc] at h
          replace h : some (GCExit.done
            (if options.action == GCAction.gcDeleteDead then
              vacuumDB
                (if options.action == GCAction.gcDeleteDead
                    || options.action == GCAction.gcDeleteSpecific then
                  removeUnusedLinks g (gcCleanupInvalidated g s2)
                else gcCleanupInvalidated g s2)
            else
              (if options.action == GCAction.gcDeleteDead
                  || options.action == GCAction.gcDeleteSpecific then
                removeUnusedLinks g (gcCleanupInvalidated g s2)
              else gcCleanupInvalidated g s2))) = some out := h
          injection h with h
          subst h
          replace hInvE : LiveInv g s1.roots s1.gcKeepOutputs s1.gcKeepDerivations s2 := hInvE
          have hI3 := gcCleanupInvalidated_liveInv g cfg s1.roots
            s1.gcKeepOutputs s1.gcKeepDerivations hwf s2 hInvE
          have hI4 : LiveInv g s1.roots s1.gcKeepOutputs s1.gcKeepDerivations
              (if options.action == GCAction.gcDeleteDead
                  || options.action == GCAction.gcDeleteSpecific then
                removeUnusedLinks g (gcCleanupInvalidated g s2)
              else gcCleanupInvalidated g s2) := by
            by_cases hl : (options.action == GCAction.gcDeleteDead
                || options.action == GCAction.gcDeleteSpecific) = true
            · rw [if_pos hl]
              exact removeUnusedLinks_liveInv g s1.roots s1.gcKeepOutputs
                s1.gcKeepDerivations _ hI3
            · rw [if_neg hl]
              exact hI3
          by_cases hv : (options.action == GCAction.gcDeleteDead) = true
          · simp only [GCExit.state, if_pos hv]
            exact liveInv_of_eqFields g s1.roots s1.gcKeepOutputs
              s1.gcKeepDerivations hI4 rfl rfl rfl rfl rfl rfl rfl rfl
          · simp only [GCExit.state, if_neg hv]
            exact hI4
        | aliveErr p' s2 =>
          rw [hc] at h
          replace h : some (GCExit.aliveErr p' s2) = some out := h
          injection h with h
          subst h
          exact hInvE
        | limitEsc s2 =>
          rw [hc] at h
          replace h : some (GCExit.limitEsc s2) = some out := h
          injection h with h
          subst h
          exact hInvE
        | badPathErr s2 =>
          rw [hc] at h
          replace h : some (GCExit.badPathErr s2) = some out := h
          injection h with h
          subst h
          exact hInvE
      intro p hLive hp0
      obtain ⟨e1, e2, e3, _, _, h6⟩ := hfinal
      rw [e1, e2, e3] at hLive
      obtain ⟨hpv, hpf, _⟩ := h6 p hLive hp0
      exact ⟨hpv, hpf⟩

/-- Witness for C1: `/s/a` is a root, the `gcDeleteDead` sweep deletes the
garbage path `/s/b`, and `/s/a` remains valid and on disk. -/
theorem collectGarbage_no_live_path_deleted_witness :
    Option.elim (collectGarbage gC1 cfg0 envC1 optsDD 20) False (fun out =>
      "/s/a" ∈ (GCExit.state out).valid ∧
      fsExists gC1 (GCExit.state out) "/s/a" = true) := by
  cases hcg : collectGarbage gC1 cfg0 envC1 optsDD 20 with
  | none =>
    have hs : (collectGarbage gC1 cfg0 envC1 optsDD 20).isSome = true := by decide
    rw [hcg] at hs
    simp at hs
  | some out =>
    have hx : out = (collectGarbage gC1 cfg0 envC1 optsDD 20).getD
        (GCExit.done (initialGCState gC1 cfg0 optsDD)) := by
      rw [hcg]
      rfl
    have hroot : "/s/a" ∈ (GCExit.state out).roots := by
      rw [hx]
      decide
    have hmain := collectGarbage_no_live_path_deleted gC1 cfg0 envC1 optsDD 20 out
      ⟨by decide, by decide, by decide, by decide⟩ hcg "/s/a"
      (Live.root hroot) (by decide)
    simpa using hmain


/-- Members of `paths` (and previously live paths) are live after
`markLive paths`. -/
theorem markLive_mem (paths : List GCPath) (s : GCState) (p : GCPath)
    (hp : p ∈ paths ∨ p ∈ s.live) : p ∈ (markLive paths s).live := by
  obtain ⟨lv, rp, heq, h1, h2⟩ := markLive_eq paths s
  rw [heq]
  show p ∈ lv
  rcases hp with h | h
  · exact h1 p h
  · exact h2 p h

/-- Claim C4: `tryToDelete` treats the expanded SCC atomically.  For a
fresh valid candidate whose policy closure is `scc`: if any member of `scc`
is in `state.roots` the call returns false, a false return marks every
member live, and a true return marks every member deleted; moreover under
`gc-keep-derivations` the valid outputs of a candidate derivation belong to
`scc`, so a derivation and its valid outputs are all kept or all deleted
together. -/
theorem tryToDelete_scc_atomic (g : Store) (cfg : Settings) (fuel : Nat)
    (s : GCState) (path : GCPath) (scc : List GCPath) (b : Bool) (s' : GCState)
    (hnl : path ≠ linksDir cfg)
    (hfs : fsExists g s path = true)
    (hnd : path ∉ s.deleted)
    (hnlv : path ∉ s.live)
    (hv : isValidPath s path = true)
    (hcp : closePaths g s fuel [path] [] = some (.ok scc))
    (h : tryToDelete g cfg (fuel + 1) s path = some (TDRes.res b s')) :
    ((∃ p ∈ scc, p ∈ s.roots) → b = false) ∧
    (b = false → ∀ p ∈ scc, p ∈ s'.live) ∧
    (b = true → ∀ p ∈ scc, p ∈ s'.deleted) ∧
    (s.gcKeepDerivations = true → g.isDerivation path = true →
      ∀ o ∈ g.drvOutputs path, o ∈ s.valid → o ∈ scc) := by
  obtain ⟨c1, c2, c3, c4, c5⟩ := closePaths_ok_spec g s fuel [path] [] scc hcp
  have hpmem : path ∈ scc := c2 path (List.mem_cons_self path [])
  have hfix : ∀ p ∈ scc, ∀ q ∈ sccSuccs g s p, q ∈ scc :=
    c3 (fun p hp => absurd hp (List.not_mem_nil p))
  have houtputs : s.gcKeepDerivations = true → g.isDerivation path = true →
      ∀ o ∈ g.drvOutputs path, o ∈ s.valid → o ∈ scc := by
    intro hkd hdrv o ho hov
    refine hfix path hpmem o ?_
    refine List.mem_append.mpr (Or.inl ?_)
    have hcond : (s.gcKeepDerivations && g.isDerivation path) = true := by
      rw [hkd, hdrv]; rfl
    rw [if_pos hcond]
    exact List.mem_filter.mpr ⟨ho, by simp [isValidPath, hov]⟩
  have hf2 : ¬ (fsExists g s path = false) := by simp [hfs]
  replace h : tryToDeleteSCC (tryToDelete g cfg fuel) g (g.isDir path) scc s =
      some (TDRes.res b s') := by
    have h0 : (match closePaths g s fuel [path] [] with
      | none => none
      | some (Except.error _) => some (TDRes.badPath s)
      | some (Except.ok paths) =>
        tryToDeleteSCC (tryToDelete g cfg fuel) g (g.isDir path) paths s) =
        some (TDRes.res b s') := by
      simpa only [tryToDelete, if_neg hnl, if_neg hf2, if_neg hnd, if_neg hnlv,
        if_pos hv] using h
    rw [hcp] at h0
    exact h0
  unfold tryToDeleteSCC at h
  by_cases hroot : ∃ p ∈ scc, p ∈ s.roots
  · rw [if_pos hroot] at h
    injection h with h
    injection h with hb hs'
    refine ⟨fun _ => hb.symm, fun _ p hp => ?_, fun hbt => ?_, houtputs⟩
    · rw [← hs']
      exact markLive_mem scc s p (Or.inl hp)
    · rw [← hb] at hbt
      cases hbt
  · rw [if_neg hroot] at h
    cases htl : tryDeleteReferrers (tryToDelete g cfg fuel) scc
        (collectReferrers g s scc) s with
    | fuelOut =>
      rw [htl] at h
      replace h : (none : Option TDRes) = some (TDRes.res b s') := h
      cases h
    | limit s1 =>
      rw [htl] at h
      replace h : some (TDRes.limit s1) = some (TDRes.res b s') := h
      injection h with h
      cases h
    | badPath s1 =>
      rw [htl] at h
      replace h : some (TDRes.badPath s1) = some (TDRes.res b s') := h
      injection h with h
      cases h
    | isLive s1 =>
      rw [htl] at h
      replace h : some (TDRes.res false (markLive scc s1)) = some (TDRes.res b s') := h
      injection h with h
      injection h with hb hs'
      refine ⟨fun _ => hb.symm, fun _ p hp => ?_, fun hbt => ?_, houtputs⟩
      · rw [← hs']
        exact markLive_mem scc s1 p (Or.inl hp)
      · rw [← hb] at hbt
        cases hbt
    | ok s1 =>
      rw [htl] at h
      replace h : (match gcDeleteSCC g (g.isDir path) (topoSortPaths scc) s1 with
        | Except.error s2 => some (TDRes.limit s2)
        | Except.ok s2 => some (TDRes.res true s2)) = some (TDRes.res b s') := h
      cases hdel : gcDeleteSCC g (g.isDir path) (topoSortPaths scc) s1 with
      | error s2 =>
        rw [hdel] at h
        replace h : some (TDRes.limit s2) = some (TDRes.res b s') := h
        injection h with h
        cases h
      | ok s2 =>
        rw [hdel] at h
        replace h : some (TDRes.res true s2) = some (TDRes.res b s') := h
        injection h with h
        injection h with hb hs'
        refine ⟨fun hex => absurd hex hroot, fun hbf => ?_, fun _ p hp => ?_, houtputs⟩
        · rw [← hb] at hbf
          cases hbf
        · rw [← hs']
          exact (gcDeleteSCC_ok_deleted g (g.isDir path) (topoSortPaths scc) s1 s2 hdel).1 p hp


/-- Witness for C4: the derivation `/s/d.drv` and its valid output `/s/o`
form one SCC under `gc-keep-derivations`, and a completed `tryToDelete`
deletes both. -/
theorem tryToDelete_scc_atomic_witness :
    ("/s/d.drv" ≠ linksDir cfgKD ∧ fsExists g2 sKD "/s/d.drv" = true ∧
     "/s/d.drv" ∉ sKD.deleted ∧ "/s/d.drv" ∉ sKD.live ∧
     isValidPath sKD "/s/d.drv" = true ∧
     closePaths g2 sKD 10 ["/s/d.drv"] [] = some (.ok ["/s/o", "/s/d.drv"])) ∧
    Option.elim (tryToDelete g2 cfgKD 11 sKD "/s/d.drv") False (fun r =>
      match r with
      | TDRes.res b s' => b = true ∧ ∀ p ∈ ["/s/o", "/s/d.drv"], p ∈ s'.deleted
      | TDRes.limit _ => False
      | TDRes.badPath _ => False) := by
  have hcp : closePaths g2 sKD 10 ["/s/d.drv"] [] = some (.ok ["/s/o", "/s/d.drv"]) := by
    rfl
  refine ⟨⟨by decide, by decide, by decide, by decide, by decide, hcp⟩, ?_⟩
  cases htd : tryToDelete g2 cfgKD 11 sKD "/s/d.drv" with
  | none =>
    have hs : (tryToDelete g2 cfgKD 11 sKD "/s/d.drv").isSome = true := by decide
    rw [htd] at hs
    simp at hs
  | some r =>
    have hshape : (match tryToDelete g2 cfgKD 11 sKD "/s/d.drv" with
      | some (TDRes.res b _) => b
      | _ => false) = true := by decide
    rw [htd] at hshape
    cases r with
    | res b s' =>
      replace hshape : b = true := hshape
      have hthm := tryToDelete_scc_atomic g2 cfgKD 10 sKD "/s/d.drv"
        ["/s/o", "/s/d.drv"] b s' (by decide) (by decide) (by decide)
        (by decide) (by decide) hcp htd
      exact ⟨hshape, hthm.2.2.1 hshape⟩
    | limit s' =>
      replace hshape : false = true := hshape
      cases hshape
    | badPath s' =>
      replace hshape : false = true := hshape
      cases hshape

/-- Claim C2, counterexample.  The claim states that the directory test in
the deletion loop is a property of each member `p`.  In the code the test
`S_ISDIR(st.st_mode)` (gc.cc:531) reads the `lstat` of the original
candidate (gc.cc:441).  Concretely: the candidate `/s/d.drv` is a plain
file whose SCC (under `gc-keep-derivations`) contains its output `/s/o`,
which is a directory and a valid path; the run deletes `/s/o` in place
(into `fsRemoved`) and pushes nothing onto `state.invalidated`, although
the claim requires a valid directory member to be renamed and pushed onto
`state.invalidated`. -/
theorem tryToDelete_dir_member_deleted_in_place :
    (g2.isDir "/s/o" && isValidPath sKD "/s/o" &&
      match tryToDelete g2 cfgKD 11 sKD "/s/d.drv" with
      | some (TDRes.res b s') =>
          b && decide ("/s/o" ∈ s'.fsRemoved) && decide (s'.invalidated = [])
      | _ => false) = true := by
  decide

/-- Effects of the SCC deletion loop on distinct valid members, with all
the bookkeeping needed for the induction. -/
theorem gcDeleteSCC_effects_aux (g : Store) (d : Bool) :
    ∀ (l : List GCPath) (s s' : GCState), gcDeleteSCC g d l s = .ok s' →
      shouldDelete s.options.action = true → l.Nodup → s.valid.Nodup →
      (∀ i ∈ l, i ∈ s.valid) →
      (∀ t ∈ s.invalidated, t ∈ s'.invalidated) ∧
      (∀ t ∈ s.fsRemoved, t ∈ s'.fsRemoved) ∧
      (∀ p ∈ s'.valid, p ∈ s.valid) ∧
      (d = false → s'.invalidated = s.invalidated) ∧
      (∀ i ∈ l, (d = true → renameName g i ∈ s'.invalidated) ∧
        i ∈ s'.fsRemoved ∧ i ∉ s'.valid) := by
  intro l
  induction l with
  | nil =>
    intro s s' h _ _ _ _
    replace h : Except.ok s = Except.ok s' := h
    injection h with h
    subst h
    exact ⟨fun t ht => ht, fun t ht => ht, fun p hp => hp, fun _ => rfl,
      fun i hi => absurd hi (List.not_mem_nil i)⟩
  | cons i rest ih =>
    intro s s' h hsd hnd hvn hall
    have hvi : i ∈ s.valid := hall i (List.mem_cons_self i rest)
    have hvb : isValidPath s i = true := by simp [isValidPath, hvi]
    have hirest : i ∉ rest := (List.nodup_cons.mp hnd).1
    have hser : (gcDeleteStep g d s i).valid = s.valid.erase i := by
      cases d
      · rw [gcDeleteStep_valid_nondir g s i hvb]
      · rw [gcDeleteStep_valid_dir g s i hvb]
    have hsfr : (gcDeleteStep g d s i).fsRemoved = i :: s.fsRemoved := by
      cases d
      · rw [gcDeleteStep_valid_nondir g s i hvb]
      · rw [gcDeleteStep_valid_dir g s i hvb]
    have hsopts : (gcDeleteStep g d s i).options = s.options :=
      (gcDeleteStep_frame g d s i).1
    have hsinvT : d = true →
        (gcDeleteStep g d s i).invalidated = insertPath (renameName g i) s.invalidated := by
      intro hd
      subst hd
      rw [gcDeleteStep_valid_dir g s i hvb]
    have hsinvF : d = false →
        (gcDeleteStep g d s i).invalidated = s.invalidated := by
      intro hd
      subst hd
      rw [gcDeleteStep_valid_nondir g s i hvb]
    have hunfold : gcDeleteSCC g d (i :: rest) s =
        (if (gcDeleteStep g d s i).bytesFreed + (gcDeleteStep g d s i).bytesInvalidated >
            (gcDeleteStep g d s i).options.maxFreed then
          Except.error (gcDeleteStep g d s i)
        else gcDeleteSCC g d rest (gcRecordDeleted (gcDeleteStep g d s i) i)) := by
      simp only [gcDeleteSCC, if_pos hsd]
    rw [hunfold] at h
    by_cases hb : (gcDeleteStep g d s i).bytesFreed + (gcDeleteStep g d s i).bytesInvalidated >
        (gcDeleteStep g d s i).options.maxFreed
    · rw [if_pos hb] at h
      cases h
    · rw [if_neg hb] at h
      have hs2valid : (gcRecordDeleted (gcDeleteStep g d s i) i).valid = s.valid.erase i := hser
      have hs2opts : (gcRecordDeleted (gcDeleteStep g d s i) i).options = s.options := hsopts
      have hs2fsr : (gcRecordDeleted (gcDeleteStep g d s i) i).fsRemoved = i :: s.fsRemoved := hsfr
      have hs2invT : d = true → (gcRecordDeleted (gcDeleteStep g d s i) i).invalidated =
          insertPath (renameName g i) s.invalidated := hsinvT
      have hs2invF : d = false → (gcRecordDeleted (gcDeleteStep g d s i) i).invalidated =
          s.invalidated := hsinvF
      obtain ⟨m1, m2, m3, m4, m5⟩ := ih (gcRecordDeleted (gcDeleteStep g d s i) i) s' h
        (by rw [hs2opts]; exact hsd)
        (List.nodup_cons.mp hnd).2
        (by rw [hs2valid]; exact hvn.erase i)
        (by
          intro x hx
          rw [hs2valid]
          have hxv : x ∈ s.valid := hall x (List.mem_cons_of_mem i hx)
          have hne : x ≠ i := fun he => hirest (he ▸ hx)
          exact (List.mem_erase_of_ne hne).mpr hxv)
      have hvalid_anti : ∀ p ∈ s'.valid, p ∈ s.valid := by
        intro p hp
        have hxx := m3 p hp
        rw [hs2valid] at hxx
        exact List.mem_of_mem_erase hxx
      refine ⟨?_, ?_, hvalid_anti, ?_, ?_⟩
      · intro t ht
        refine m1 t ?_
        cases d
        · rw [hs2invF rfl]
          exact ht
        · rw [hs2invT rfl]
          exact mem_insertPath.mpr (Or.inr ht)
      · intro t ht
        refine m2 t ?_
        rw [hs2fsr]
        exact List.mem_cons_of_mem i ht
      · intro hd
        rw [m4 hd, hs2invF hd]
      · intro x hx
        rcases List.mem_cons.mp hx with he | hm
        · subst he
          refine ⟨fun hd => ?_, ?_, ?_⟩
          · refine m1 _ ?_
            rw [hs2invT hd]
            exact mem_insertPath.mpr (Or.inl rfl)
          · refine m2 x ?_
            rw [hs2fsr]
            exact List.mem_cons_self x s.fsRemoved
          · intro hxv
            have hxx := m3 x hxv
            rw [hs2valid] at hxx
            exact ((List.Nodup.mem_erase_iff hvn).mp hxx).1 rfl
        · exact m5 x hm


/-- Claim C2 (amended): in the deletion step of `tryToDelete` - the loop
`gcDeleteSCC` over the topologically sorted SCC, which `tryToDelete`
invokes with the `S_ISDIR` bit of the original candidate's `lstat`
(gc.cc:441), not of each member - given distinct members that are valid on
entry and a deleting action: when the candidate's bit is set, every member
is invalidated, its rename `<i>-gc-<pid>` is pushed onto
`state.invalidated`, and the member's name leaves the filesystem and the
valid set; when the bit is clear, every member is invalidated and deleted
in place, and `state.invalidated` is unchanged.  The directory test is a
property of the original candidate, not of each member. -/
theorem gcDeleteSCC_member_effects (g : Store) (d : Bool) (l : List GCPath)
    (s s' : GCState) (h : gcDeleteSCC g d l s = .ok s')
    (hsd : shouldDelete s.options.action = true) (hnd : l.Nodup)
    (hvn : s.valid.Nodup) (hall : ∀ i ∈ l, i ∈ s.valid) :
    ∀ i ∈ l,
      (d = true → renameName g i ∈ s'.invalidated ∧ i ∈ s'.fsRemoved ∧ i ∉ s'.valid) ∧
      (d = false → i ∈ s'.fsRemoved ∧ i ∉ s'.valid ∧ s'.invalidated = s.invalidated) := by
  obtain ⟨m1, m2, m3, m4, m5⟩ := gcDeleteSCC_effects_aux g d l s s' h hsd hnd hvn hall
  intro i hi
  obtain ⟨e1, e2, e3⟩ := m5 i hi
  exact ⟨fun hd => ⟨e1 hd, e2, e3⟩, fun hd => ⟨e2, e3, m4 hd⟩⟩

/-- Witness for the amended C2 theorem: deleting the SCC of `/s/d.drv`
(an ordinary file, so the candidate bit is clear) removes both members in
place and leaves `state.invalidated` empty. -/
theorem gcDeleteSCC_member_effects_witness :
    (shouldDelete sKD.options.action = true ∧
     (["/s/o", "/s/d.drv"] : List GCPath).Nodup ∧ sKD.valid.Nodup ∧
     (∀ i ∈ (["/s/o", "/s/d.drv"] : List GCPath), i ∈ sKD.valid)) ∧
    (gcDeleteSCC g2 false ["/s/o", "/s/d.drv"] sKD).toOption.elim False (fun s' =>
      ∀ i ∈ (["/s/o", "/s/d.drv"] : List GCPath),
        i ∈ s'.fsRemoved ∧ i ∉ s'.valid ∧ s'.invalidated = sKD.invalidated) := by
  refine ⟨⟨by decide, by decide, by decide, by decide⟩, ?_⟩
  cases hdel : gcDeleteSCC g2 false ["/s/o", "/s/d.drv"] sKD with
  | error s1 =>
    have hs : (gcDeleteSCC g2 false ["/s/o", "/s/d.drv"] sKD).toOption.isSome = true := by
      decide
    rw [hdel] at hs
    simp [Except.toOption] at hs
  | ok s' =>
    have hthm := gcDeleteSCC_member_effects g2 false ["/s/o", "/s/d.drv"] sKD s' hdel
      (by decide) (by decide) (by decide) (by decide)
    show ∀ i ∈ (["/s/o", "/s/d.drv"] : List GCPath),
      i ∈ s'.fsRemoved ∧ i ∉ s'.valid ∧ s'.invalidated = sKD.invalidated
    intro i hi
    exact (hthm i hi).2 rfl


/-- One destructive step adds at most one path's bytes to the running
total `bytesFreed + bytesInvalidated`. -/
theorem gcDeleteStep_budget (g : Store) (d : Bool) (s : GCState) (i : GCPath)
    (C : Nat) (hnar : ∀ p, g.narSize p ≤ C) (hdisk : ∀ p, g.diskSize p ≤ C) :
    (gcDeleteStep g d s i).bytesFreed + (gcDeleteStep g d s i).bytesInvalidated ≤
      s.bytesFreed + s.bytesInvalidated + C := by
  by_cases hv : isValidPath s i = true
  · cases d
    · rw [gcDeleteStep_valid_nondir g s i hv]
      have := hdisk i
      simp only
      omega
    · rw [gcDeleteStep_valid_dir g s i hv]
      have := hnar i
      simp only
      omega
  · have hv' : isValidPath s i = false := by
      cases hx : isValidPath s i
      · rfl
      · exact absurd hx hv
    rw [gcDeleteStep_invalid g d s i hv']
    have := hdisk i
    simp only
    omega

/-- The SCC deletion loop respects the budget: on a normal exit the total
is within `maxFreed`; when `GCLimitReached` is raised the total is within
`maxFreed` plus one path's bytes.  The options never change. -/
theorem gcDeleteSCC_budget (g : Store) (d : Bool) (C : Nat)
    (hnar : ∀ p, g.narSize p ≤ C) (hdisk : ∀ p, g.diskSize p ≤ C) :
    ∀ (l : List GCPath) (s : GCState),
      s.bytesFreed + s.bytesInvalidated ≤ s.options.maxFreed →
      (∀ s', gcDeleteSCC g d l s = .ok s' →
        s'.bytesFreed + s'.bytesInvalidated ≤ s.options.maxFreed ∧
        s'.options = s.options) ∧
      (∀ s', gcDeleteSCC g d l s = .error s' →
        s'.bytesFreed + s'.bytesInvalidated ≤ s.options.maxFreed + C ∧
        s'.options = s.options) := by
  intro l
  induction l with
  | nil =>
    intro s hsum
    constructor
    · intro s' h
      replace h : Except.ok s = Except.ok s' := h
      injection h with h
      subst h
      exact ⟨hsum, rfl⟩
    · intro s' h
      replace h : Except.ok s = Except.error s' := h
      cases h
  | cons i rest ih =>
    intro s hsum
    by_cases hsd : shouldDelete s.options.action = true
    · have hunfold : gcDeleteSCC g d (i :: rest) s =
          (if (gcDeleteStep g d s i).bytesFreed + (gcDeleteStep g d s i).bytesInvalidated >
              (gcDeleteStep g d s i).options.maxFreed then
            Except.error (gcDeleteStep g d s i)
          else gcDeleteSCC g d rest (gcRecordDeleted (gcDeleteStep g d s i) i)) := by
        simp only [gcDeleteSCC, if_pos hsd]
      have hsopts : (gcDeleteStep g d s i).options = s.options :=
        (gcDeleteStep_frame g d s i).1
      have hstepb := gcDeleteStep_budget g d s i C hnar hdisk
      by_cases hb : (gcDeleteStep g d s i).bytesFreed + (gcDeleteStep g d s i).bytesInvalidated >
          (gcDeleteStep g d s i).options.maxFreed
      · rw [hunfold, if_pos hb]
        constructor
        · intro s' h
          cases h
        · intro s' h
          injection h with h
          subst h
          exact ⟨by omega, hsopts⟩
      · rw [hunfold, if_neg hb]
        rw [hsopts] at hb
        have hs2sum : (gcRecordDeleted (gcDeleteStep g d s i) i).bytesFreed +
            (gcRecordDeleted (gcDeleteStep g d s i) i).bytesInvalidated ≤
            (gcRecordDeleted (gcDeleteStep g d s i) i).options.maxFreed := by
          show (gcDeleteStep g d s i).bytesFreed + (gcDeleteStep g d s i).bytesInvalidated ≤
            (gcDeleteStep g d s i).options.maxFreed
          rw [hsopts]
          omega
        obtain ⟨c1, c2⟩ := ih (gcRecordDeleted (gcDeleteStep g d s i) i) hs2sum
        have hs2opts : (gcRecordDeleted (gcDeleteStep g d s i) i).options = s.options := hsopts
        constructor
        · intro s' h
          obtain ⟨b1, b2⟩ := c1 s' h
          rw [hs2opts] at b1
          exact ⟨b1, b2.trans hs2opts⟩
        · intro s' h
          obtain ⟨b1, b2⟩ := c2 s' h
          rw [hs2opts] at b1
          exact ⟨b1, b2.trans hs2opts⟩
    · have hunfold : gcDeleteSCC g d (i :: rest) s =
          gcDeleteSCC g d rest (gcRecordDeleted s i) := by
        simp only [gcDeleteSCC, if_neg hsd]
      rw [hunfold]
      have hrec : (gcRecordDeleted s i).bytesFreed + (gcRecordDeleted s i).bytesInvalidated ≤
          (gcRecordDeleted s i).options.maxFreed := hsum
      obtain ⟨c1, c2⟩ := ih (gcRecordDeleted s i) hrec
      constructor
      · intro s' h
        obtain ⟨b1, b2⟩ := c1 s' h
        exact ⟨b1, b2⟩
      · intro s' h
        obtain ⟨b1, b2⟩ := c2 s' h
        exact ⟨b1, b2⟩

/-- `markLive` does not change the byte counters or the options. -/
theorem markLive_budget (paths : List GCPath) (s : GCState) :
    (markLive paths s).bytesFreed = s.bytesFreed ∧
    (markLive paths s).bytesInvalidated = s.bytesInvalidated ∧
    (markLive paths s).options = s.options := by
  obtain ⟨lv, rp, heq, _, _⟩ := markLive_eq paths s
  rw [heq]
  exact ⟨rfl, rfl, rfl⟩

/-- Budget propagation through the referrer recursion loop. -/
theorem tryDeleteReferrers_budget (recur : GCState → GCPath → Option TDRes)
    (paths : List GCPath) (C : Nat)
    (Hrec : ∀ (s : GCState) (p : GCPath) (r : TDRes),
      s.bytesFreed + s.bytesInvalidated ≤ s.options.maxFreed →
      recur s p = some r →
      (TDRes.state r).options = s.options ∧
      (∀ b s', r = TDRes.res b s' →
        s'.bytesFreed + s'.bytesInvalidated ≤ s.options.maxFreed) ∧
      (∀ s', r = TDRes.limit s' →
        s'.bytesFreed + s'.bytesInvalidated ≤ s.options.maxFreed + C) ∧
      (∀ s', r = TDRes.badPath s' →
        s'.bytesFreed + s'.bytesInvalidated ≤ s.options.maxFreed)) :
    ∀ (rs : List GCPath) (s : GCState),
      s.bytesFreed + s.bytesInvalidated ≤ s.options.maxFreed →
      (∀ s', tryDeleteReferrers recur paths rs s = RefLoopOut.ok s' →
        s'.bytesFreed + s'.bytesInvalidated ≤ s.options.maxFreed ∧
        s'.options = s.options) ∧
      (∀ s', tryDeleteReferrers recur paths rs s = RefLoopOut.isLive s' →
        s'.bytesFreed + s'.bytesInvalidated ≤ s.options.maxFreed ∧
        s'.options = s.options) ∧
      (∀ s', tryDeleteReferrers recur paths rs s = RefLoopOut.limit s' →
        s'.bytesFreed + s'.bytesInvalidated ≤ s.options.maxFreed + C ∧
        s'.options = s.options) ∧
      (∀ s', tryDeleteReferrers recur paths rs s = RefLoopOut.badPath s' →
        s'.bytesFreed + s'.bytesInvalidated ≤ s.options.maxFreed ∧
        s'.options = s.options) := by
  intro rs
  induction rs with
  | nil =>
    intro s hsum
    refine ⟨fun s' h => ?_, fun s' h => ?_, fun s' h => ?_, fun s' h => ?_⟩
    all_goals replace h : RefLoopOut.ok s = _ := h
    · injection h with h
      subst h
      exact ⟨hsum, rfl⟩
    · exact RefLoopOut.noConfusion h
    · exact RefLoopOut.noConfusion h
    · exact RefLoopOut.noConfusion h
  | cons r rest ih =>
    intro s hsum
    by_cases hrp : r ∈ paths
    · have hun : ∀ z, tryDeleteReferrers recur paths (r :: rest) s = z ↔
          tryDeleteReferrers recur paths rest s = z := by
        intro z
        simp only [tryDeleteReferrers, if_pos hrp]
      obtain ⟨c1, c2, c3, c4⟩ := ih s hsum
      exact ⟨fun s' h => c1 s' ((hun _).mp h), fun s' h => c2 s' ((hun _).mp h),
        fun s' h => c3 s' ((hun _).mp h), fun s' h => c4 s' ((hun _).mp h)⟩
    · cases hrec : recur s r with
      | none =>
        have hz : tryDeleteReferrers recur paths (r :: rest) s = RefLoopOut.fuelOut := by
          simp only [tryDeleteReferrers, if_neg hrp, hrec]
        rw [hz]
        exact ⟨fun s' h => RefLoopOut.noConfusion h, fun s' h => RefLoopOut.noConfusion h,
          fun s' h => RefLoopOut.noConfusion h, fun s' h => RefLoopOut.noConfusion h⟩
      | some res =>
        obtain ⟨hopt, hres, hlim, hbad⟩ := Hrec s r res hsum hrec
        cases res with
        | res gone s1 =>
          have hs1 : s1.bytesFreed + s1.bytesInvalidated ≤ s.options.maxFreed :=
            hres gone s1 rfl
          have hs1opt : s1.options = s.options := hopt
          cases gone
          · have hz : tryDeleteReferrers recur paths (r :: rest) s = RefLoopOut.isLive s1 := by
              simp only [tryDeleteReferrers, if_neg hrp, hrec]
            rw [hz]
            refine ⟨fun s' h => RefLoopOut.noConfusion h, fun s' h => ?_,
              fun s' h => RefLoopOut.noConfusion h, fun s' h => RefLoopOut.noConfusion h⟩
            injection h with h
            subst h
            exact ⟨hs1, hs1opt⟩
          · have hz : tryDeleteReferrers recur paths (r :: rest) s =
                tryDeleteReferrers recur paths rest s1 := by
              simp only [tryDeleteReferrers, if_neg hrp, hrec]
            rw [hz]
            obtain ⟨c1, c2, c3, c4⟩ := ih s1 (by rw [hs1opt]; exact hs1)
            rw [hs1opt] at c1 c2 c3 c4
            exact ⟨c1, c2, c3, c4⟩
        | limit s1 =>
          have hz : tryDeleteReferrers recur paths (r :: rest) s = RefLoopOut.limit s1 := by
            simp only [tryDeleteReferrers, if_neg hrp, hrec]
          rw [hz]
          refine ⟨fun s' h => RefLoopOut.noConfusion h, fun s' h => RefLoopOut.noConfusion h,
            fun s' h => ?_, fun s' h => RefLoopOut.noConfusion h⟩
          injection h with h
          subst h
          exact ⟨hlim s1 rfl, hopt⟩
        | badPath s1 =>
          have hz : tryDeleteReferrers recur paths (r :: rest) s = RefLoopOut.badPath s1 := by
            simp only [tryDeleteReferrers, if_neg hrp, hrec]
          rw [hz]
          refine ⟨fun s' h => RefLoopOut.noConfusion h, fun s' h => RefLoopOut.noConfusion h,
            fun s' h => RefLoopOut.noConfusion h, fun s' h => ?_⟩
          injection h with h
          subst h
          exact ⟨hbad s1 rfl, hopt⟩

/-- Budget propagation through the SCC body of `tryToDelete`. -/
theorem tryToDeleteSCC_budget (g : Store) (C : Nat)
    (hnar : ∀ p, g.narSize p ≤ C) (hdisk : ∀ p, g.diskSize p ≤ C)
    (recur : GCState → GCPath → Option TDRes)
    (Hrec : ∀ (s : GCState) (p : GCPath) (r : TDRes),
      s.bytesFreed + s.bytesInvalidated ≤ s.options.maxFreed →
      recur s p = some r →
      (TDRes.state r).options = s.options ∧
      (∀ b s', r = TDRes.res b s' →
        s'.bytesFreed + s'.bytesInvalidated ≤ s.options.maxFreed) ∧
      (∀ s', r = TDRes.limit s' →
        s'.bytesFreed + s'.bytesInvalidated ≤ s.options.maxFreed + C) ∧
      (∀ s', r = TDRes.badPath s' →
        s'.bytesFreed + s'.bytesInvalidated ≤ s.options.maxFreed))
    (stIsDir : Bool) (paths : List GCPath) (s : GCState) (r : TDRes)
    (hsum : s.bytesFreed + s.bytesInvalidated ≤ s.options.maxFreed)
    (h : tryToDeleteSCC recur g stIsDir paths s = some r) :
    (TDRes.state r).options = s.options ∧
    (∀ b s', r = TDRes.res b s' →
      s'.bytesFreed + s'.bytesInvalidated ≤ s.options.maxFreed) ∧
    (∀ s', r = TDRes.limit s' →
      s'.bytesFreed + s'.bytesInvalidated ≤ s.options.maxFreed + C) ∧
    (∀ s', r = TDRes.badPath s' →
      s'.bytesFreed + s'.bytesInvalidated ≤ s.options.maxFreed) := by
  unfold tryToDeleteSCC at h
  by_cases hroot : ∃ p ∈ paths, p ∈ s.roots
  · rw [if_pos hroot] at h
    injection h with h
    subst h
    obtain ⟨m1, m2, m3⟩ := markLive_budget paths s
    refine ⟨m3, fun b s' he => ?_, fun s' he => TDRes.noConfusion he,
      fun s' he => TDRes.noConfusion he⟩
    injection he with hb hs'
    rw [← hs', m1, m2]
    exact hsum
  · rw [if_neg hroot] at h
    obtain ⟨c1, c2, c3, c4⟩ := tryDeleteReferrers_budget recur paths C Hrec
      (collectReferrers g s paths) s hsum
    cases htl : tryDeleteReferrers recur paths (collectReferrers g s paths) s with
    | fuelOut =>
      rw [htl] at h
      replace h : (none : Option TDRes) = some r := h
      cases h
    | limit s1 =>
      rw [htl] at h
      replace h : some (TDRes.limit s1) = some r := h
      injection h with h
      subst h
      obtain ⟨b1, b2⟩ := c3 s1 htl
      refine ⟨b2, fun b s' he => TDRes.noConfusion he, fun s' he => ?_,
        fun s' he => TDRes.noConfusion he⟩
      injection he with he
      subst he
      exact b1
    | badPath s1 =>
      rw [htl] at h
      replace h : some (TDRes.badPath s1) = some r := h
      injection h with h
      subst h
      obtain ⟨b1, b2⟩ := c4 s1 htl
      refine ⟨b2, fun b s' he => TDRes.noConfusion he,
        fun s' he => TDRes.noConfusion he, fun s' he => ?_⟩
      injection he with he
      subst he
      exact b1
    | isLive s1 =>
      rw [htl] at h
      replace h : some (TDRes.res false (markLive paths s1)) = some r := h
      injection h with h
      subst h
      obtain ⟨b1, b2⟩ := c2 s1 htl
      obtain ⟨m1, m2, m3⟩ := markLive_budget paths s1
      refine ⟨m3.trans b2, fun b s' he => ?_, fun s' he => TDRes.noConfusion he,
        fun s' he => TDRes.noConfusion he⟩
      injection he with hb hs'
      rw [← hs', m1, m2]
      exact b1
    | ok s1 =>
      rw [htl] at h
      replace h : (match gcDeleteSCC g stIsDir (topoSortPaths paths) s1 with
        | Except.error s2 => some (TDRes.limit s2)
        | Except.ok s2 => some (TDRes.res true s2)) = some r := h
      obtain ⟨b1, b2⟩ := c1 s1 htl
      obtain ⟨d1, d2⟩ := gcDeleteSCC_budget g stIsDir C hnar hdisk
        (topoSortPaths paths) s1 (by rw [b2]; exact b1)
      cases hdel : gcDeleteSCC g stIsDir (topoSortPaths paths) s1 with
      | error s2 =>
        rw [hdel] at h
        replace h : some (TDRes.limit s2) = some r := h
        injection h with h
        subst h
        obtain ⟨e1, e2⟩ := d2 s2 hdel
        rw [b2] at e1 e2
        refine ⟨e2, fun b s' he => TDRes.noConfusion he, fun s' he => ?_,
          fun s' he => TDRes.noConfusion he⟩
        injection he with he
        subst he
        exact e1
      | ok s2 =>
        rw [hdel] at h
        replace h : some (TDRes.res true s2) = some r := h
        injection h with h
        subst h
        obtain ⟨e1, e2⟩ := d1 s2 hdel
        rw [b2] at e1 e2
        refine ⟨e2, fun b s' he => ?_, fun s' he => TDRes.noConfusion he,
          fun s' he => TDRes.noConfusion he⟩
        injection he with hb hs'
        rw [← hs']
        exact e1


/-- Budget propagation through `tryToDelete`: starting within the budget, a
normal return or an `assertStorePath` error stays within `maxFreed`, and a
`GCLimitReached` unwind exceeds it by at most one path's bytes.  The
options are never modified. -/
theorem tryToDelete_budget (g : Store) (cfg : Settings) (C : Nat)
    (hnar : ∀ p, g.narSize p ≤ C) (hdisk : ∀ p, g.diskSize p ≤ C) :
    ∀ (fuel : Nat) (s : GCState) (path : GCPath) (r : TDRes),
      s.bytesFreed + s.bytesInvalidated ≤ s.options.maxFreed →
      tryToDelete g cfg fuel s path = some r →
      (TDRes.state r).options = s.options ∧
      (∀ b s', r = TDRes.res b s' →
        s'.bytesFreed + s'.bytesInvalidated ≤ s.options.maxFreed) ∧
      (∀ s', r = TDRes.limit s' →
        s'.bytesFreed + s'.bytesInvalidated ≤ s.options.maxFreed + C) ∧
      (∀ s', r = TDRes.badPath s' →
        s'.bytesFreed + s'.bytesInvalidated ≤ s.options.maxFreed) := by
  intro fuel
  induction fuel with
  | zero =>
    intro s path r hsum h
    replace h : (none : Option TDRes) = some r := h
    cases h
  | succ fuel ih =>
    intro s path r hsum h
    have htrivial : ∀ s0 : GCState, some (TDRes.res true s0) = some r ∨
        some (TDRes.res false s0) = some r →
        s0.bytesFreed + s0.bytesInvalidated ≤ s.options.maxFreed →
        s0.options = s.options →
        (TDRes.state r).options = s.options ∧
        (∀ b s', r = TDRes.res b s' →
          s'.bytesFreed + s'.bytesInvalidated ≤ s.options.maxFreed) ∧
        (∀ s', r = TDRes.limit s' →
          s'.bytesFreed + s'.bytesInvalidated ≤ s.options.maxFreed + C) ∧
        (∀ s', r = TDRes.badPath s' →
          s'.bytesFreed + s'.bytesInvalidated ≤ s.options.maxFreed) := by
      intro s0 hor hs0 hopt
      rcases hor with he | he
      all_goals (
        injection he with he
        subst he
        refine ⟨hopt, fun b s' he2 => ?_, fun s' he2 => TDRes.noConfusion he2,
          fun s' he2 => TDRes.noConfusion he2⟩
        injection he2 with hb hs'
        rw [← hs']
        exact hs0)
    by_cases h1 : path = linksDir cfg
    · replace h : some (TDRes.res true s) = some r := by
        simpa only [tryToDelete, if_pos h1] using h
      exact htrivial s (Or.inl h) hsum rfl
    · by_cases h2 : fsExists g s path = false
      · replace h : some (TDRes.res true s) = some r := by
          simpa only [tryToDelete, if_neg h1, if_pos h2] using h
        exact htrivial s (Or.inl h) hsum rfl
      · by_cases h3 : path ∈ s.deleted
        · replace h : some (TDRes.res true s) = some r := by
            simpa only [tryToDelete, if_neg h1, if_neg h2, if_pos h3] using h
          exact htrivial s (Or.inl h) hsum rfl
        · by_cases h4 : path ∈ s.live
          · replace h : some (TDRes.res false s) = some r := by
              simpa only [tryToDelete, if_neg h1, if_neg h2, if_neg h3, if_pos h4] using h
            exact htrivial s (Or.inr h) hsum rfl
          · by_cases hv : isValidPath s path = true
            · replace h : (match closePaths g s fuel [path] [] with
                | none => none
                | some (Except.error _) => some (TDRes.badPath s)
                | some (Except.ok paths) =>
                  tryToDeleteSCC (tryToDelete g cfg fuel) g (g.isDir path) paths s) = some r := by
                simpa only [tryToDelete, if_neg h1, if_neg h2, if_neg h3, if_neg h4,
                  if_pos hv] using h
              cases hcp : closePaths g s fuel [path] [] with
              | none =>
                rw [hcp] at h
                replace h : (none : Option TDRes) = some r := h
                cases h
              | some res =>
                cases res with
                | error e =>
                  rw [hcp] at h
                  replace h : some (TDRes.badPath s) = some r := h
                  injection h with h
                  subst h
                  exact ⟨rfl, fun b s' he => TDRes.noConfusion he,
                    fun s' he => TDRes.noConfusion he, fun s' he => by
                      injection he with he
                      subst he
                      exact hsum⟩
                | ok paths =>
                  rw [hcp] at h
                  replace h : tryToDeleteSCC (tryToDelete g cfg fuel) g
                      (g.isDir path) paths s = some r := h
                  exact tryToDeleteSCC_budget g C hnar hdisk (tryToDelete g cfg fuel)
                    (fun s0 p0 r0 hs0 hr0 => ih s0 p0 r0 hs0 hr0)
                    (g.isDir path) paths s r hsum h
            · by_cases hl : isActiveTempFile s path ".lock" = true
              · replace h : some (TDRes.res false s) = some r := by
                  simpa only [tryToDelete, if_neg h1, if_neg h2, if_neg h3, if_neg h4,
                    if_neg hv, if_pos hl] using h
                exact htrivial s (Or.inr h) hsum rfl
              · by_cases hc : isActiveTempFile s path ".chroot" = true
                · replace h : some (TDRes.res false s) = some r := by
                    simpa only [tryToDelete, if_neg h1, if_neg h2, if_neg h3, if_neg h4,
                      if_neg hv, if_neg hl, if_pos hc] using h
                  exact htrivial s (Or.inr h) hsum rfl
                · replace h : tryToDeleteSCC (tryToDelete g cfg fuel) g
                      (g.isDir path) [path] s = some r := by
                    simpa only [tryToDelete, if_neg h1, if_neg h2, if_neg h3, if_neg h4,
                      if_neg hv, if_neg hl, if_neg hc] using h
                  exact tryToDeleteSCC_budget g C hnar hdisk (tryToDelete g cfg fuel)
                    (fun s0 p0 r0 hs0 hr0 => ih s0 p0 r0 hs0 hr0)
                    (g.isDir path) [path] s r hsum h


/-- Budget bound for the `gcDeleteSpecific` loop: starting within the
budget, any exit state exceeds `maxFreed` by at most one path's bytes, and
the options are unchanged. -/
theorem gcDeleteSpecificLoop_budget (g : Store) (cfg : Settings) (C : Nat)
    (hnar : ∀ p, g.narSize p ≤ C) (hdisk : ∀ p, g.diskSize p ≤ C)
    (fuel : Nat) :
    ∀ (l : List GCPath) (s : GCState) (e : GCExit),
      s.bytesFreed + s.bytesInvalidated ≤ s.options.maxFreed →
      gcDeleteSpecificLoop g cfg fuel l s = some e →
      (GCExit.state e).options = s.options ∧
      (GCExit.state e).bytesFreed + (GCExit.state e).bytesInvalidated ≤
        s.options.maxFreed + C := by
  intro l
  induction l with
  | nil =>
    intro s e hsum h
    replace h : some (GCExit.done s) = some e := h
    injection h with h
    subst h
    exact ⟨rfl, Nat.le_trans hsum (Nat.le_add_right _ C)⟩
  | cons i rest ih =>
    intro s e hsum h
    by_cases hsp : g.isStorePath i = false
    · replace h : some (GCExit.badPathErr s) = some e := by
        simpa only [gcDeleteSpecificLoop, if_pos hsp] using h
      injection h with h
      subst h
      exact ⟨rfl, Nat.le_trans hsum (Nat.le_add_right _ C)⟩
    · cases htd : tryToDelete g cfg fuel s i with
      | none =>
        replace h : (none : Option GCExit) = some e := by
          simpa only [gcDeleteSpecificLoop, if_neg hsp, htd] using h
        cases h
      | some res =>
        obtain ⟨hopt, hres, hlim, hbad⟩ :=
          tryToDelete_budget g cfg C hnar hdisk fuel s i res hsum htd
        cases res with
        | res gone s' =>
          replace hopt : s'.options = s.options := hopt
          have hs' : s'.bytesFreed + s'.bytesInvalidated ≤ s.options.maxFreed :=
            hres gone s' rfl
          cases gone
          · replace h : some (GCExit.aliveErr i s') = some e := by
              simpa only [gcDeleteSpecificLoop, if_neg hsp, htd] using h
            injection h with h
            subst h
            exact ⟨hopt, Nat.le_trans hs' (Nat.le_add_right _ C)⟩
          · replace h : gcDeleteSpecificLoop g cfg fuel rest s' = some e := by
              simpa only [gcDeleteSpecificLoop, if_neg hsp, htd] using h
            have hsum' : s'.bytesFreed + s'.bytesInvalidated ≤ s'.options.maxFreed := by
              rw [hopt]
              exact hs'
            obtain ⟨h1, h2⟩ := ih s' e hsum' h
            rw [hopt] at h1 h2
            exact ⟨h1, h2⟩
        | limit s' =>
          replace hopt : s'.options = s.options := hopt
          replace h : some (GCExit.limitEsc s') = some e := by
            simpa only [gcDeleteSpecificLoop, if_neg hsp, htd] using h
          injection h with h
          subst h
          exact ⟨hopt, hlim s' rfl⟩
        | badPath s' =>
          replace hopt : s'.options = s.options := hopt
          replace h : some (GCExit.badPathErr s') = some e := by
            simpa only [gcDeleteSpecificLoop, if_neg hsp, htd] using h
          injection h with h
          subst h
          exact ⟨hopt, Nat.le_trans (hbad s' rfl) (Nat.le_add_right _ C)⟩

/-- Budget bound for the streaming sweep: any exit state exceeds `maxFreed`
by at most one path's bytes, and a `cont` exit stays within `maxFreed`. -/
theorem gcSweepStage1_budget (g : Store) (cfg : Settings) (C : Nat)
    (hnar : ∀ p, g.narSize p ≤ C) (hdisk : ∀ p, g.diskSize p ≤ C)
    (fuel : Nat) :
    ∀ (names : List String) (s : GCState) (entries : List GCPath)
      (out : SweepOut),
      s.bytesFreed + s.bytesInvalidated ≤ s.options.maxFreed →
      gcSweepStage1 g cfg fuel names s entries = some out →
      (SweepOut.state out).options = s.options ∧
      (SweepOut.state out).bytesFreed + (SweepOut.state out).bytesInvalidated ≤
        s.options.maxFreed + C ∧
      (∀ s' es, out = SweepOut.cont s' es →
        s'.bytesFreed + s'.bytesInvalidated ≤ s.options.maxFreed) := by
  intro names
  induction names with
  | nil =>
    intro s entries out hsum h
    replace h : some (SweepOut.cont s entries) = some out := h
    injection h with h
    subst h
    refine ⟨rfl, Nat.le_trans hsum (Nat.le_add_right _ C), fun s' es he => ?_⟩
    injection he with h1 h2
    rw [← h1]
    exact hsum
  | cons name rest ih =>
    intro s entries out hsum h
    by_cases hdot : name = "." ∨ name = ".."
    · replace h : gcSweepStage1 g cfg fuel rest s entries = some out := by
        simpa only [gcSweepStage1, if_pos hdot] using h
      exact ih s entries out hsum h
    · by_cases hv : isValidPath s (cfg.nixStore ++ "/" ++ name) = true
      · replace h : gcSweepStage1 g cfg fuel rest s
            (entries ++ [cfg.nixStore ++ "/" ++ name]) = some out := by
          simpa only [gcSweepStage1, if_neg hdot, if_pos hv] using h
        exact ih s _ out hsum h
      · cases htd : tryToDelete g cfg fuel s (cfg.nixStore ++ "/" ++ name) with
        | none =>
          replace h : (none : Option SweepOut) = some out := by
            simpa only [gcSweepStage1, if_neg hdot, if_neg hv, htd] using h
          cases h
        | some res =>
          obtain ⟨hopt, hres, hlim, hbad⟩ :=
            tryToDelete_budget g cfg C hnar hdisk fuel s _ res hsum htd
          cases res with
          | res gone s' =>
            replace hopt : s'.options = s.options := hopt
            have hs' : s'.bytesFreed + s'.bytesInvalidated ≤ s.options.maxFreed :=
              hres gone s' rfl
            replace h : gcSweepStage1 g cfg fuel rest s' entries = some out := by
              simpa only [gcSweepStage1, if_neg hdot, if_neg hv, htd] using h
            have hsum' : s'.bytesFreed + s'.bytesInvalidated ≤ s'.options.maxFreed := by
              rw [hopt]
              exact hs'
            obtain ⟨h1, h2, h3⟩ := ih s' entries out hsum' h
            rw [hopt] at h1 h2 h3
            exact ⟨h1, h2, h3⟩
          | limit s' =>
            replace hopt : s'.options = s.options := hopt
            replace h : some (SweepOut.limitHit s') = some out := by
              simpa only [gcSweepStage1, if_neg hdot, if_neg hv, htd] using h
            injection h with h
            subst h
            exact ⟨hopt, hlim s' rfl, fun s2 es he => SweepOut.noConfusion he⟩
          | badPath s' =>
            replace hopt : s'.options = s.options := hopt
            replace h : some (SweepOut.badP s') = some out := by
              simpa only [gcSweepStage1, if_neg hdot, if_neg hv, htd] using h
            injection h with h
            subst h
            exact ⟨hopt, Nat.le_trans (hbad s' rfl) (Nat.le_add_right _ C),
              fun s2 es he => SweepOut.noConfusion he⟩

/-- Budget bound for the shuffled sweep. -/
theorem gcSweepStage2_budget (g : Store) (cfg : Settings) (C : Nat)
    (hnar : ∀ p, g.narSize p ≤ C) (hdisk : ∀ p, g.diskSize p ≤ C)
    (fuel : Nat) :
    ∀ (l : List GCPath) (s : GCState) (out : SweepOut),
      s.bytesFreed + s.bytesInvalidated ≤ s.options.maxFreed →
      gcSweepStage2 g cfg fuel l s = some out →
      (SweepOut.state out).options = s.options ∧
      (SweepOut.state out).bytesFreed + (SweepOut.state out).bytesInvalidated ≤
        s.options.maxFreed + C := by
  intro l
  induction l with
  | nil =>
    intro s out hsum h
    replace h : some (SweepOut.cont s []) = some out := h
    injection h with h
    subst h
    exact ⟨rfl, Nat.le_trans hsum (Nat.le_add_right _ C)⟩
  | cons i rest ih =>
    intro s out hsum h
    cases htd : tryToDelete g cfg fuel s i with
    | none =>
      replace h : (none : Option SweepOut) = some out := by
        simpa only [gcSweepStage2, htd] using h
      cases h
    | some res =>
      obtain ⟨hopt, hres, hlim, hbad⟩ :=
        tryToDelete_budget g cfg C hnar hdisk fuel s i res hsum htd
      cases res with
      | res gone s' =>
        replace hopt : s'.options = s.options := hopt
        have hs' : s'.bytesFreed + s'.bytesInvalidated ≤ s.options.maxFreed :=
          hres gone s' rfl
        replace h : gcSweepStage2 g cfg fuel rest s' = some out := by
          simpa only [gcSweepStage2, htd] using h
        have hsum' : s'.bytesFreed + s'.bytesInvalidated ≤ s'.options.maxFreed := by
          rw [hopt]
          exact hs'
        obtain ⟨h1, h2⟩ := ih s' out hsum' h
        rw [hopt] at h1 h2
        exact ⟨h1, h2⟩
      | limit s' =>
        replace hopt : s'.options = s.options := hopt
        replace h : some (SweepOut.limitHit s') = some out := by
          simpa only [gcSweepStage2, htd] using h
        injection h with h
        subst h
        exact ⟨hopt, hlim s' rfl⟩
      | badPath s' =>
        replace hopt : s'.options = s.options := hopt
        replace h : some (SweepOut.badP s') = some out := by
          simpa only [gcSweepStage2, htd] using h
        injection h with h
        subst h
        exact ⟨hopt, Nat.le_trans (hbad s' rfl) (Nat.le_add_right _ C)⟩


/-- C5 (amended): within the classification phase the `maxFreed` budget is
a soft cap checked after each deletion/invalidation, so every exit state
has `bytesFreed + bytesInvalidated` at most `maxFreed` plus one path's
bytes; and the `GCLimitReached` sentinel can escape the phase only under
`gcDeleteSpecific` (for the other actions the sweep catches it and the
collector proceeds to cleanup - a cleanup which then credits the renamed
directories' on-disk bytes to `bytesFreed` a second time, so the bound
does not survive to the end of `collectGarbage`). -/
theorem gcClassifyPhase_budget (g : Store) (cfg : Settings) (env : GCEnv)
    (options : GCOptions) (C : Nat)
    (hnar : ∀ p, g.narSize p ≤ C) (hdisk : ∀ p, g.diskSize p ≤ C)
    (fuel : Nat) (s : GCState) (e : GCExit)
    (hopt : s.options = options)
    (hsum : s.bytesFreed + s.bytesInvalidated ≤ options.maxFreed)
    (h : gcClassifyPhase g cfg env options fuel s = some e) :
    (GCExit.state e).bytesFreed + (GCExit.state e).bytesInvalidated ≤
      options.maxFreed + C ∧
    (options.action ≠ GCAction.gcDeleteSpecific →
      ∀ s', e ≠ GCExit.limitEsc s') := by
  have hsum0 : s.bytesFreed + s.bytesInvalidated ≤ s.options.maxFreed := by
    rw [hopt]
    exact hsum
  unfold gcClassifyPhase at h
  by_cases ha : (options.action == GCAction.gcDeleteSpecific) = true
  · rw [if_pos ha] at h
    obtain ⟨h1, h2⟩ := gcDeleteSpecificLoop_budget g cfg C hnar hdisk fuel
      options.pathsToDelete s e hsum0 h
    rw [hopt] at h2
    exact ⟨h2, fun hne => absurd (eq_of_beq ha) hne⟩
  · rw [if_neg ha] at h
    by_cases hm : options.maxFreed > 0
    · rw [if_pos hm] at h
      cases h1 : gcSweepStage1 g cfg fuel g.storeEntryNames s [] with
      | none =>
        rw [h1] at h
        replace h : (none : Option GCExit) = some e := h
        cases h
      | some out1 =>
        rw [h1] at h
        obtain ⟨ho1, hb1, hc1⟩ := gcSweepStage1_budget g cfg C hnar hdisk fuel
          g.storeEntryNames s [] out1 hsum0 h1
        cases out1 with
        | badP s' =>
          replace h : some (GCExit.badPathErr s') = some e := h
          injection h with h
          subst h
          rw [hopt] at hb1
          exact ⟨hb1, fun hne s2 he => GCExit.noConfusion he⟩
        | limitHit s' =>
          replace h : some (GCExit.done s') = some e := h
          injection h with h
          subst h
          rw [hopt] at hb1
          exact ⟨hb1, fun hne s2 he => GCExit.noConfusion he⟩
        | cont s' entries =>
          replace ho1 : s'.options = s.options := ho1
          have hcs : s'.bytesFreed + s'.bytesInvalidated ≤ s.options.maxFreed :=
            hc1 s' entries rfl
          replace h : (match gcSweepStage2 g cfg fuel (env.shuffle entries) s' with
            | none => none
            | some (SweepOut.badP s2) => some (GCExit.badPathErr s2)
            | some (SweepOut.limitHit s2) => some (GCExit.done s2)
            | some (SweepOut.cont s2 _) => some (GCExit.done s2)) = some e := h
          cases h2 : gcSweepStage2 g cfg fuel (env.shuffle entries) s' with
          | none =>
            rw [h2] at h
            replace h : (none : Option GCExit) = some e := h
            cases h
          | some out2 =>
            rw [h2] at h
            have hsum2 : s'.bytesFreed + s'.bytesInvalidated ≤
                s'.options.maxFreed := by
              rw [ho1]
              exact hcs
            obtain ⟨ho2, hb2⟩ := gcSweepStage2_budget g cfg C hnar hdisk fuel
              (env.shuffle entries) s' out2 hsum2 h2
            rw [ho1, hopt] at hb2
            cases out2 with
            | badP s2 =>
              replace h : some (GCExit.badPathErr s2) = some e := h
              injection h with h
              subst h
              exact ⟨hb2, fun hne s3 he => GCExit.noConfusion he⟩
            | limitHit s2 =>
              replace h : some (GCExit.done s2) = some e := h
              injection h with h
              subst h
              exact ⟨hb2, fun hne s3 he => GCExit.noConfusion he⟩
            | cont s2 l2 =>
              replace h : some (GCExit.done s2) = some e := h
              injection h with h
              subst h
              exact ⟨hb2, fun hne s3 he => GCExit.noConfusion he⟩
    · rw [if_neg hm] at h
      replace h : some (GCExit.done s) = some e := h
      injection h with h
      subst h
      exact ⟨Nat.le_trans hsum (Nat.le_add_right _ C),
        fun hne s2 he => GCExit.noConfusion he⟩

/-- The budget theorem instantiated on a concrete run: the `gcDeleteDead`
classification over `g5` exits within `maxFreed + 500` and is no
`GCLimitReached` escape. -/
theorem gcClassifyPhase_budget_witness :
    (match gcClassifyPhase g5 cfg0 envEmpty opts5dd 100
        (initialGCState g5 cfg0 opts5dd) with
     | some e =>
        (GCExit.state e).bytesFreed + (GCExit.state e).bytesInvalidated ≤
          opts5dd.maxFreed + 500 ∧ (∀ s', e ≠ GCExit.limitEsc s')
     | none => False) := by
  cases hcg : gcClassifyPhase g5 cfg0 envEmpty opts5dd 100
      (initialGCState g5 cfg0 opts5dd) with
  | none =>
    have hs : (gcClassifyPhase g5 cfg0 envEmpty opts5dd 100
        (initialGCState g5 cfg0 opts5dd)).isSome = true := by decide
    rw [hcg] at hs
    simp at hs
  | some e =>
    obtain ⟨h1, h2⟩ := gcClassifyPhase_budget g5 cfg0 envEmpty opts5dd 500
      (fun p => Nat.le_refl 500) (fun p => Nat.le_refl 500) 100
      (initialGCState g5 cfg0 opts5dd) e rfl (by decide) hcg
    exact ⟨h1, h2 (by decide)⟩


/-- C5 counterexample.  Over `g5` every valid path has NAR size and disk
size 500 bytes.  (1) A `gcDeleteDead` run with `maxFreed = 1000` terminates
normally with `bytesFreed + bytesInvalidated = 3000`: the post-lock cleanup
credits the renamed directories' disk bytes to `bytesFreed` on top of the
`bytesInvalidated` already accounted for them, so the final sum exceeds
`maxFreed` by three paths' bytes, not one.  (2) A `gcDeleteSpecific` run
with `maxFreed = 1` ends in `GCExit.limitEsc`: the `GCLimitReached`
sentinel escapes `collectGarbage` uncaught rather than being caught by the
collector. -/
theorem collectGarbage_budget_overrun :
    ((match collectGarbage g5 cfg0 envEmpty opts5dd 100 with
      | some (GCExit.done s) =>
        decide (s.bytesFreed + s.bytesInvalidated = 3000) &&
          decide (opts5dd.maxFreed = 1000) &&
          decide (∀ p, p ∈ g5.valid0 → g5.narSize p = 500 ∧ g5.diskSize p = 500)
      | _ => false) = true) ∧
    ((match collectGarbage g5 cfg0 envEmpty opts5spec 100 with
      | some (GCExit.limitEsc _) => true
      | _ => false) = true) :=
  ⟨by decide, by decide⟩


/-- In a `RenPersist` state, when the renamed names are not store paths,
every renamed invalidated directory is still on the filesystem. -/
theorem renPersist_fsExists (g : Store) (s : GCState)
    (hfresh : ∀ p ∈ g.valid0, g.isStorePath (renameName g p) = false)
    (hInv : RenPersist g s) :
    ∀ t ∈ s.invalidated, fsExists g s t = true := by
  intro t ht
  obtain ⟨⟨p, hp0, hrn⟩, hc⟩ := hInv.2.2 t ht
  rw [fsExists_true_iff]
  refine ⟨Or.inr hc, fun hr => ?_⟩
  have h1 := hInv.2.1 t hr
  rw [hrn, hfresh p hp0] at h1
  cases h1

/-- The destructive step preserves the persistence invariant for any member
that is a store path. -/
theorem renPersist_step (g : Store) (d : Bool) (s : GCState) (i : GCPath)
    (hsp : g.isStorePath i = true) (hInv : RenPersist g s) :
    RenPersist g (gcDeleteStep g d s i) := by
  obtain ⟨h1, h2, h3⟩ := hInv
  by_cases hv : isValidPath s i = true
  · cases d
    · rw [gcDeleteStep_valid_nondir g s i hv]
      refine ⟨fun p hp => h1 p (List.mem_of_mem_erase hp), fun t ht => ?_, h3⟩
      rcases List.mem_cons.mp ht with he | hm
      · rw [he]
        exact hsp
      · exact h2 t hm
    · rw [gcDeleteStep_valid_dir g s i hv]
      have hiv : i ∈ s.valid := by simpa [isValidPath] using hv
      refine ⟨fun p hp => h1 p (List.mem_of_mem_erase hp), fun t ht => ?_,
        fun t ht => ?_⟩
      · rcases List.mem_cons.mp ht with he | hm
        · rw [he]
          exact hsp
        · exact h2 t hm
      · rcases mem_insertPath.mp ht with he | hm
        · rw [he]
          exact ⟨⟨i, h1 i hiv, rfl⟩, List.mem_cons_self _ _⟩
        · obtain ⟨hw, hc⟩ := h3 t hm
          exact ⟨hw, List.mem_cons_of_mem _ hc⟩
  · have hv' : isValidPath s i = false := by
      cases hx : isValidPath s i
      · rfl
      · exact absurd hx hv
    rw [gcDeleteStep_invalid g d s i hv']
    refine ⟨h1, fun t ht => ?_, h3⟩
    rcases List.mem_cons.mp ht with he | hm
    · rw [he]
      exact hsp
    · exact h2 t hm

/-- Recording a processed member touches no field the persistence invariant
reads. -/
theorem renPersist_record (g : Store) (s : GCState) (i : GCPath)
    (hInv : RenPersist g s) : RenPersist g (gcRecordDeleted s i) :=
  hInv

/-- The SCC deletion loop preserves the persistence invariant when every
member is a store path (whatever its exit). -/
theorem gcDeleteSCC_renPersist (g : Store) (d : Bool) :
    ∀ (l : List GCPath) (s : GCState), RenPersist g s →
      (∀ i ∈ l, g.isStorePath i = true) →
      RenPersist g (exceptState (gcDeleteSCC g d l s)) := by
  intro l
  induction l with
  | nil =>
    intro s hInv _
    simpa [gcDeleteSCC, exceptState] using hInv
  | cons i rest ih =>
    intro s hInv hsp
    have hspi : g.isStorePath i = true := hsp i (List.mem_cons_self i rest)
    simp only [gcDeleteSCC]
    by_cases hsd : shouldDelete s.options.action = true
    · rw [if_pos hsd]
      have hInv1 := renPersist_step g d s i hspi hInv
      by_cases hb : (gcDeleteStep g d s i).bytesFreed +
          (gcDeleteStep g d s i).bytesInvalidated >
          (gcDeleteStep g d s i).options.maxFreed
      · rw [if_pos hb]
        exact hInv1
      · rw [if_neg hb]
        exact ih _ (renPersist_record g _ i hInv1)
          (fun x hx => hsp x (List.mem_cons_of_mem i hx))
    · rw [if_neg hsd]
      exact ih _ (renPersist_record g s i hInv)
        (fun x hx => hsp x (List.mem_cons_of_mem i hx))

/-- Marking an SCC live preserves the persistence invariant. -/
theorem renPersist_markLive (g : Store) (paths : List GCPath) (s : GCState)
    (hInv : RenPersist g s) : RenPersist g (markLive paths s) := by
  obtain ⟨lv, rp, heq, _, _⟩ := markLive_eq paths s
  rw [heq]
  exact hInv

/-- The collected referrers are all drawn from the current valid set. -/
theorem collectReferrers_subset_valid (g : Store) (s : GCState)
    (paths : List GCPath) :
    ∀ q ∈ collectReferrers g s paths, q ∈ s.valid := by
  have hgen : ∀ (l : List GCPath) (acc : List GCPath),
      (∀ x ∈ acc, x ∈ s.valid) →
      ∀ q ∈ l.foldl (fun acc p =>
        if isValidPath s p then unionPaths (queryReferrers g s p) acc else acc) acc,
        q ∈ s.valid := by
    intro l
    induction l with
    | nil =>
      intro acc hacc q hq
      exact hacc q hq
    | cons x rest ih =>
      intro acc hacc q hq
      simp only [List.foldl_cons] at hq
      by_cases hv : isValidPath s x = true
      · rw [if_pos hv] at hq
        refine ih _ (fun y hy => ?_) q hq
        rcases mem_unionPaths.mp hy with h1 | h2
        · simp only [queryReferrers] at h1
          exact List.mem_of_mem_filter h1
        · exact hacc y h2
      · rw [if_neg hv] at hq
        exact ih _ hacc q hq
  exact hgen paths [] (fun x hx => absurd hx (List.not_mem_nil x))


/-- The referrer recursion loop preserves the persistence invariant when
the callee does (for store-path arguments) and every referrer in the list
is a store path. -/
theorem tryDeleteReferrers_renPersist (g : Store)
    (recur : GCState → GCPath → Option TDRes)
    (Hrec : ∀ (s : GCState) (p : GCPath) (r : TDRes), RenPersist g s →
      g.isStorePath p = true → recur s p = some r →
      RenPersist g (TDRes.state r))
    (paths : List GCPath) :
    ∀ (rs : List GCPath) (s : GCState), RenPersist g s →
      (∀ x ∈ rs, g.isStorePath x = true) →
      (∀ s', tryDeleteReferrers recur paths rs s = RefLoopOut.ok s' →
        RenPersist g s') ∧
      (∀ s', tryDeleteReferrers recur paths rs s = RefLoopOut.isLive s' →
        RenPersist g s') ∧
      (∀ s', tryDeleteReferrers recur paths rs s = RefLoopOut.limit s' →
        RenPersist g s') ∧
      (∀ s', tryDeleteReferrers recur paths rs s = RefLoopOut.badPath s' →
        RenPersist g s') := by
  intro rs
  induction rs with
  | nil =>
    intro s hInv _
    refine ⟨fun s' h => ?_, fun s' h => ?_, fun s' h => ?_, fun s' h => ?_⟩
    all_goals replace h : RefLoopOut.ok s = _ := h
    · injection h with h
      subst h
      exact hInv
    · exact RefLoopOut.noConfusion h
    · exact RefLoopOut.noConfusion h
    · exact RefLoopOut.noConfusion h
  | cons r rest ih =>
    intro s hInv hrs
    have hrest : ∀ x ∈ rest, g.isStorePath x = true :=
      fun x hx => hrs x (List.mem_cons_of_mem r hx)
    by_cases hrp : r ∈ paths
    · have hun : ∀ z, tryDeleteReferrers recur paths (r :: rest) s = z ↔
          tryDeleteReferrers recur paths rest s = z := by
        intro z
        simp only [tryDeleteReferrers, if_pos hrp]
      obtain ⟨c1, c2, c3, c4⟩ := ih s hInv hrest
      exact ⟨fun s' h => c1 s' ((hun _).mp h), fun s' h => c2 s' ((hun _).mp h),
        fun s' h => c3 s' ((hun _).mp h), fun s' h => c4 s' ((hun _).mp h)⟩
    · cases hrec : recur s r with
      | none =>
        have hz : tryDeleteReferrers recur paths (r :: rest) s =
            RefLoopOut.fuelOut := by
          simp only [tryDeleteReferrers, if_neg hrp, hrec]
        rw [hz]
        exact ⟨fun s' h => RefLoopOut.noConfusion h,
          fun s' h => RefLoopOut.noConfusion h,
          fun s' h => RefLoopOut.noConfusion h,
          fun s' h => RefLoopOut.noConfusion h⟩
      | some res =>
        have hI1 := Hrec s r res hInv (hrs r (List.mem_cons_self r rest)) hrec
        cases res with
        | res gone s1 =>
          cases gone
          · have hz : tryDeleteReferrers recur paths (r :: rest) s =
                RefLoopOut.isLive s1 := by
              simp only [tryDeleteReferrers, if_neg hrp, hrec]
            rw [hz]
            refine ⟨fun s' h => RefLoopOut.noConfusion h, fun s' h => ?_,
              fun s' h => RefLoopOut.noConfusion h,
              fun s' h => RefLoopOut.noConfusion h⟩
            injection h with h
            exact h ▸ hI1
          · have hz : tryDeleteReferrers recur paths (r :: rest) s =
                tryDeleteReferrers recur paths rest s1 := by
              simp only [tryDeleteReferrers, if_neg hrp, hrec]
            rw [hz]
            exact ih s1 hI1 hrest
        | limit s1 =>
          have hz : tryDeleteReferrers recur paths (r :: rest) s =
              RefLoopOut.limit s1 := by
            simp only [tryDeleteReferrers, if_neg hrp, hrec]
          rw [hz]
          refine ⟨fun s' h => RefLoopOut.noConfusion h,
            fun s' h => RefLoopOut.noConfusion h, fun s' h => ?_,
            fun s' h => RefLoopOut.noConfusion h⟩
          injection h with h
          exact h ▸ hI1
        | badPath s1 =>
          have hz : tryDeleteReferrers recur paths (r :: rest) s =
              RefLoopOut.badPath s1 := by
            simp only [tryDeleteReferrers, if_neg hrp, hrec]
          rw [hz]
          refine ⟨fun s' h => RefLoopOut.noConfusion h,
            fun s' h => RefLoopOut.noConfusion h,
            fun s' h => RefLoopOut.noConfusion h, fun s' h => ?_⟩
          injection h with h
          exact h ▸ hI1

/-- The SCC body of `tryToDelete` preserves the persistence invariant when
every SCC member is a store path. -/
theorem tryToDeleteSCC_renPersist (g : Store) (cfg : Settings)
    (hwf : WFStore g cfg)
    (recur : GCState → GCPath → Option TDRes)
    (Hrec : ∀ (s : GCState) (p : GCPath) (r : TDRes), RenPersist g s →
      g.isStorePath p = true → recur s p = some r →
      RenPersist g (TDRes.state r))
    (stIsDir : Bool) (paths : List GCPath) (s : GCState) (r : TDRes)
    (hInv : RenPersist g s)
    (hpsp : ∀ p ∈ paths, g.isStorePath p = true)
    (h : tryToDeleteSCC recur g stIsDir paths s = some r) :
    RenPersist g (TDRes.state r) := by
  have hrsp2 : ∀ x ∈ collectReferrers g s paths, g.isStorePath x = true :=
    fun x hx => hwf.validStorePath x
      (hInv.1 x (collectReferrers_subset_valid g s paths x hx))
  unfold tryToDeleteSCC at h
  by_cases hroot : ∃ p ∈ paths, p ∈ s.roots
  · rw [if_pos hroot] at h
    injection h with h
    subst h
    exact renPersist_markLive g paths s hInv
  · rw [if_neg hroot] at h
    obtain ⟨c1, c2, c3, c4⟩ := tryDeleteReferrers_renPersist g recur Hrec paths
      (collectReferrers g s paths) s hInv hrsp2
    cases htl : tryDeleteReferrers recur paths (collectReferrers g s paths) s with
    | fuelOut =>
      rw [htl] at h
      replace h : (none : Option TDRes) = some r := h
      cases h
    | limit s1 =>
      rw [htl] at h
      replace h : some (TDRes.limit s1) = some r := h
      injection h with h
      subst h
      exact c3 s1 htl
    | badPath s1 =>
      rw [htl] at h
      replace h : some (TDRes.badPath s1) = some r := h
      injection h with h
      subst h
      exact c4 s1 htl
    | isLive s1 =>
      rw [htl] at h
      replace h : some (TDRes.res false (markLive paths s1)) = some r := h
      injection h with h
      subst h
      exact renPersist_markLive g paths s1 (c2 s1 htl)
    | ok s1 =>
      rw [htl] at h
      replace h : (match gcDeleteSCC g stIsDir (topoSortPaths paths) s1 with
        | Except.error s2 => some (TDRes.limit s2)
        | Except.ok s2 => some (TDRes.res true s2)) = some r := h
      have hDel := gcDeleteSCC_renPersist g stIsDir (topoSortPaths paths) s1
        (c1 s1 htl) (fun i hi => hpsp i hi)
      cases hdel : gcDeleteSCC g stIsDir (topoSortPaths paths) s1 with
      | error s2 =>
        rw [hdel] at h hDel
        replace h : some (TDRes.limit s2) = some r := h
        injection h with h
        subst h
        simpa [exceptState] using hDel
      | ok s2 =>
        rw [hdel] at h hDel
        replace h : some (TDRes.res true s2) = some r := h
        injection h with h
        subst h
        simpa [exceptState] using hDel

/-- Persistence of the renamed directories through `tryToDelete`: every
completed call on a store-path candidate preserves the invariant. -/
theorem tryToDelete_renPersist (g : Store) (cfg : Settings)
    (hwf : WFStore g cfg) :
    ∀ (fuel : Nat) (s : GCState) (path : GCPath) (r : TDRes),
      RenPersist g s → g.isStorePath path = true →
      tryToDelete g cfg fuel s path = some r →
      RenPersist g (TDRes.state r) := by
  intro fuel
  induction fuel with
  | zero =>
    intro s path r hInv hsp h
    replace h : (none : Option TDRes) = some r := h
    cases h
  | succ fuel ih =>
    intro s path r hInv hsp h
    by_cases h1 : path = linksDir cfg
    · replace h : some (TDRes.res true s) = some r := by
        simpa only [tryToDelete, if_pos h1] using h
      injection h with h
      subst h
      exact hInv
    · by_cases h2 : fsExists g s path = false
      · replace h : some (TDRes.res true s) = some r := by
          simpa only [tryToDelete, if_neg h1, if_pos h2] using h
        injection h with h
        subst h
        exact hInv
      · by_cases h3 : path ∈ s.deleted
        · replace h : some (TDRes.res true s) = some r := by
            simpa only [tryToDelete, if_neg h1, if_neg h2, if_pos h3] using h
          injection h with h
          subst h
          exact hInv
        · by_cases h4 : path ∈ s.live
          · replace h : some (TDRes.res false s) = some r := by
              simpa only [tryToDelete, if_neg h1, if_neg h2, if_neg h3,
                if_pos h4] using h
            injection h with h
            subst h
            exact hInv
          · by_cases hv : isValidPath s path = true
            · replace h : (match closePaths g s fuel [path] [] with
                | none => none
                | some (Except.error _) => some (TDRes.badPath s)
                | some (Except.ok paths) =>
                  tryToDeleteSCC (tryToDelete g cfg fuel) g (g.isDir path)
                    paths s) = some r := by
                simpa only [tryToDelete, if_neg h1, if_neg h2, if_neg h3,
                  if_neg h4, if_pos hv] using h
              cases hcp : closePaths g s fuel [path] [] with
              | none =>
                rw [hcp] at h
                replace h : (none : Option TDRes) = some r := h
                cases h
              | some res =>
                cases res with
                | error e =>
                  rw [hcp] at h
                  replace h : some (TDRes.badPath s) = some r := h
                  injection h with h
                  subst h
                  exact hInv
                | ok paths =>
                  rw [hcp] at h
                  replace h : tryToDeleteSCC (tryToDelete g cfg fuel) g
                      (g.isDir path) paths s = some r := h
                  obtain ⟨_, _, _, c4, _⟩ :=
                    closePaths_ok_spec g s fuel [path] [] paths hcp
                  have hpv : ∀ p ∈ paths, p ∈ s.valid := by
                    refine c4 (fun x hx => ?_)
                      (fun x hx => absurd hx (List.not_mem_nil x))
                    rcases List.mem_cons.mp hx with he | hm
                    · rw [he]
                      simpa [isValidPath] using hv
                    · cases hm
                  exact tryToDeleteSCC_renPersist g cfg hwf
                    (tryToDelete g cfg fuel)
                    (fun s0 p0 r0 h0 hsp0 hr0 => ih s0 p0 r0 h0 hsp0 hr0)
                    (g.isDir path) paths s r hInv
                    (fun p hp => hwf.validStorePath p (hInv.1 p (hpv p hp))) h
            · by_cases hl : isActiveTempFile s path ".lock" = true
              · replace h : some (TDRes.res false s) = some r := by
                  simpa only [tryToDelete, if_neg h1, if_neg h2, if_neg h3,
                    if_neg h4, if_neg hv, if_pos hl] using h
                injection h with h
                subst h
                exact hInv
              · by_cases hc : isActiveTempFile s path ".chroot" = true
                · replace h : some (TDRes.res false s) = some r := by
                    simpa only [tryToDelete, if_neg h1, if_neg h2, if_neg h3,
                      if_neg h4, if_neg hv, if_neg hl, if_pos hc] using h
                  injection h with h
                  subst h
                  exact hInv
                · replace h : tryToDeleteSCC (tryToDelete g cfg fuel) g
                      (g.isDir path) [path] s = some r := by
                    simpa only [tryToDelete, if_neg h1, if_neg h2, if_neg h3,
                      if_neg h4, if_neg hv, if_neg hl, if_neg hc] using h
                  exact tryToDeleteSCC_renPersist g cfg hwf
                    (tryToDelete g cfg fuel)
                    (fun s0 p0 r0 h0 hsp0 hr0 => ih s0 p0 r0 h0 hsp0 hr0)
                    (g.isDir path) [path] s r hInv
                    (fun p hp => by
                      rcases List.mem_cons.mp hp with he | hm
                      · rw [he]
                        exact hsp
                      · cases hm) h

/-- The `gcDeleteSpecific` loop preserves the persistence invariant on
every exit (the loop itself asserts each candidate is a store path). -/
theorem gcDeleteSpecificLoop_renPersist (g : Store) (cfg : Settings)
    (hwf : WFStore g cfg) (fuel : Nat) :
    ∀ (l : List GCPath) (s : GCState) (e : GCExit), RenPersist g s →
      gcDeleteSpecificLoop g cfg fuel l s = some e →
      RenPersist g (GCExit.state e) := by
  intro l
  induction l with
  | nil =>
    intro s e hInv h
    replace h : some (GCExit.done s) = some e := h
    injection h with h
    subst h
    exact hInv
  | cons i rest ih =>
    intro s e hInv h
    by_cases hsp : g.isStorePath i = false
    · replace h : some (GCExit.badPathErr s) = some e := by
        simpa only [gcDeleteSpecificLoop, if_pos hsp] using h
      injection h with h
      subst h
      exact hInv
    · have hsp' : g.isStorePath i = true := by
        cases hx : g.isStorePath i
        · exact absurd hx hsp
        · rfl
      cases htd : tryToDelete g cfg fuel s i with
      | none =>
        replace h : (none : Option GCExit) = some e := by
          simpa only [gcDeleteSpecificLoop, if_neg hsp, htd] using h
        cases h
      | some res =>
        have hI := tryToDelete_renPersist g cfg hwf fuel s i res hInv hsp' htd
        cases res with
        | res gone s' =>
          cases gone
          · replace h : some (GCExit.aliveErr i s') = some e := by
              simpa only [gcDeleteSpecificLoop, if_neg hsp, htd] using h
            injection h with h
            subst h
            exact hI
          · replace h : gcDeleteSpecificLoop g cfg fuel rest s' = some e := by
              simpa only [gcDeleteSpecificLoop, if_neg hsp, htd] using h
            exact ih s' e hI h
        | limit s' =>
          replace h : some (GCExit.limitEsc s') = some e := by
            simpa only [gcDeleteSpecificLoop, if_neg hsp, htd] using h
          injection h with h
          subst h
          exact hI
        | badPath s' =>
          replace h : some (GCExit.badPathErr s') = some e := by
            simpa only [gcDeleteSpecificLoop, if_neg hsp, htd] using h
          injection h with h
          subst h
          exact hI


/-- C9 (amended): `collectGarbage` under `gcDeleteSpecific` is not atomic
on failure: the requested paths are processed in order and the first one
still alive raises the error immediately, with the deletions and
invalidations already performed for earlier paths left in place (the valid
set has only shrunk); but the renamed invalidated directories are NOT
deleted afterwards - the "still alive" error escapes `collectGarbage`
before the post-lock cleanup, so every name in `state.invalidated` is
still present on the filesystem. -/
theorem collectGarbage_specific_alive_no_cleanup (g : Store) (cfg : Settings)
    (env : GCEnv) (options : GCOptions) (fuel : Nat)
    (hwf : WFStore g cfg)
    (hfresh : ∀ p ∈ g.valid0, g.isStorePath (renameName g p) = false)
    (ha : options.action = GCAction.gcDeleteSpecific)
    (p : GCPath) (s : GCState)
    (h : collectGarbage g cfg env options fuel = some (GCExit.aliveErr p s)) :
    (∀ q, q ∈ s.valid → q ∈ g.valid0) ∧
    (∀ t, t ∈ s.invalidated →
      (∃ q ∈ g.valid0, t = renameName g q) ∧ fsExists g s t = true) := by
  cases hfr : gcFindRootsPhase g env options (initialGCState g cfg options) with
  | error s1 =>
    replace h : some (GCExit.badPathErr s1) = some (GCExit.aliveErr p s) := by
      simpa only [collectGarbage, hfr] using h
    injection h with h
    exact GCExit.noConfusion h
  | ok s1 =>
    replace h : (match gcClassifyPhase g cfg env options fuel s1 with
      | none => none
      | some (GCExit.done s2) =>
        some (GCExit.done
          (if options.action == GCAction.gcDeleteDead then
            vacuumDB
              (if options.action == GCAction.gcDeleteDead
                  || options.action == GCAction.gcDeleteSpecific then
                removeUnusedLinks g (gcCleanupInvalidated g s2)
              else gcCleanupInvalidated g s2)
          else
            (if options.action == GCAction.gcDeleteDead
                || options.action == GCAction.gcDeleteSpecific then
              removeUnusedLinks g (gcCleanupInvalidated g s2)
            else gcCleanupInvalidated g s2)))
      | some other => some other) = some (GCExit.aliveErr p s) := by
      simpa only [collectGarbage, hfr] using h
    have hw := gcFindRootsPhase_world g env options (initialGCState g cfg options)
    rw [hfr] at hw
    replace hw : SameWorld (initialGCState g cfg options) s1 := hw
    obtain ⟨x1, x2, x3, x4, x5, x6, x7, x8, x9, x10, x11, x12, x13, x14, x15⟩ := hw
    replace x11 : s1.valid = g.valid0 := x11
    replace x7 : s1.invalidated = ([] : List GCPath) := x7
    replace x13 : s1.fsRemoved = ([] : List GCPath) := x13
    have hInv1 : RenPersist g s1 := by
      refine ⟨fun q hq => x11 ▸ hq, fun t ht => ?_, fun t ht => ?_⟩
      · rw [x13] at ht
        cases ht
      · rw [x7] at ht
        cases ht
    cases hcl : gcClassifyPhase g cfg env options fuel s1 with
    | none =>
      rw [hcl] at h
      replace h : (none : Option GCExit) = some (GCExit.aliveErr p s) := h
      cases h
    | some e =>
      rw [hcl] at h
      have hcl' : gcDeleteSpecificLoop g cfg fuel options.pathsToDelete s1 =
          some e := by
        unfold gcClassifyPhase at hcl
        rw [if_pos (by rw [ha]; rfl)] at hcl
        exact hcl
      have hret := gcDeleteSpecificLoop_renPersist g cfg hwf fuel
        options.pathsToDelete s1 e hInv1 hcl'
      cases e with
      | done s2 =>
        replace h : some (GCExit.done
            (if options.action == GCAction.gcDeleteDead then
              vacuumDB
                (if options.action == GCAction.gcDeleteDead
                    || options.action == GCAction.gcDeleteSpecific then
                  removeUnusedLinks g (gcCleanupInvalidated g s2)
                else gcCleanupInvalidated g s2)
            else
              (if options.action == GCAction.gcDeleteDead
                  || options.action == GCAction.gcDeleteSpecific then
                removeUnusedLinks g (gcCleanupInvalidated g s2)
              else gcCleanupInvalidated g s2))) =
            some (GCExit.aliveErr p s) := h
        injection h with h
        exact GCExit.noConfusion h
      | aliveErr p2 s2 =>
        replace h : some (GCExit.aliveErr p2 s2) = some (GCExit.aliveErr p s) := h
        injection h with h
        injection h with h1 h2
        subst h1
        subst h2
        replace hret : RenPersist g s2 := hret
        exact ⟨hret.1, fun t ht =>
          ⟨(hret.2.2 t ht).1, renPersist_fsExists g s2 hfresh hret t ht⟩⟩
      | limitEsc s2 =>
        replace h : some (GCExit.limitEsc s2) = some (GCExit.aliveErr p s) := h
        injection h with h
        exact GCExit.noConfusion h
      | badPathErr s2 =>
        replace h : some (GCExit.badPathErr s2) = some (GCExit.aliveErr p s) := h
        injection h with h
        exact GCExit.noConfusion h


/-- C9 counterexample: in the `gcDeleteSpecific` run over `g9` requesting
`/s/a` then the rooted `/s/b`, the "still alive" error is raised at
`/s/b` after `/s/a` was already invalidated and renamed; the run ends
right there, and the renamed directory `/s/a-gc-7` is still present on
the filesystem - it is not deleted after the GC lock is released, because
the escaping error skips the post-lock cleanup of gc.cc:735-736. -/
theorem collectGarbage_specific_alive_renamed_remains :
    (match collectGarbage g9 cfg0 env9 opts9 100 with
     | some (GCExit.aliveErr p s) =>
       decide (p = "/s/b") &&
         decide ("/s/a-gc-7" ∈ s.invalidated) &&
         fsExists g9 s "/s/a-gc-7" &&
         decide ("/s/a" ∉ s.valid) &&
         decide ("/s/a" ∈ s.deleted)
     | _ => false) = true := by
  decide

/-- The C9 persistence theorem instantiated on the `g9` run. -/
theorem collectGarbage_specific_alive_no_cleanup_witness :
    (match collectGarbage g9 cfg0 env9 opts9 100 with
     | some (GCExit.aliveErr _ s) =>
       (∀ q, q ∈ s.valid → q ∈ g9.valid0) ∧
       (∀ t, t ∈ s.invalidated →
         (∃ q ∈ g9.valid0, t = renameName g9 q) ∧ fsExists g9 s t = true)
     | _ => False) := by
  have hone : (match collectGarbage g9 cfg0 env9 opts9 100 with
    | some (GCExit.aliveErr _ _) => true
    | _ => false) = true := by decide
  cases hcg : collectGarbage g9 cfg0 env9 opts9 100 with
  | none =>
    rw [hcg] at hone
    replace hone : false = true := hone
    cases hone
  | some e =>
    cases e with
    | aliveErr p s =>
      exact collectGarbage_specific_alive_no_cleanup g9 cfg0 env9 opts9 100
        ⟨by decide, by decide, by decide, by decide⟩ (by decide) rfl p s hcg
    | done s =>
      rw [hcg] at hone
      replace hone : false = true := hone
      cases hone
    | limitEsc s =>
      rw [hcg] at hone
      replace hone : false = true := hone
      cases hone
    | badPathErr s =>
      rw [hcg] at hone
      replace hone : false = true := hone
      cases hone


/-- The link-sweep fold only rewrites `linksRemoved` (appending the names
with link count 1) and `bytesFreed`. -/
theorem removeUnusedLinks_eq :
    ∀ (l : List (String × Nat × Nat)) (s : GCState),
      ∃ bf, (l.foldl (fun s l =>
        if l.1 = "." ∨ l.1 = ".." then s
        else if l.2.1 ≠ 1 then s
        else { s with linksRemoved := s.linksRemoved ++ [l.1],
                      bytesFreed := s.bytesFreed + l.2.2 * 512 }) s) =
        { s with linksRemoved := s.linksRemoved ++ (l.filter (fun l => l.1 ≠ "." ∧ l.1 ≠ ".." ∧ l.2.1 = 1)).map (fun l => l.1), bytesFreed := bf } := by
  intro l
  induction l with
  | nil =>
    intro s
    refine ⟨s.bytesFreed, ?_⟩
    simp
  | cons e rest ih =>
    intro s
    simp only [List.foldl_cons]
    by_cases h1 : e.1 = "." ∨ e.1 = ".."
    · have hfe : List.filter
          (fun l => decide (l.1 ≠ "." ∧ l.1 ≠ ".." ∧ l.2.1 = 1)) (e :: rest) =
          List.filter (fun l => decide (l.1 ≠ "." ∧ l.1 ≠ ".." ∧ l.2.1 = 1)) rest := by
        rcases h1 with h1 | h1
        · simp [List.filter_cons, h1]
        · simp [List.filter_cons, h1]
      rw [if_pos h1]
      obtain ⟨bf, hbf⟩ := ih s
      refine ⟨bf, ?_⟩
      rw [hbf, hfe]
    · rw [if_neg h1]
      push_neg at h1
      by_cases h2 : e.2.1 ≠ 1
      · have hfe : List.filter
            (fun l => decide (l.1 ≠ "." ∧ l.1 ≠ ".." ∧ l.2.1 = 1)) (e :: rest) =
            List.filter (fun l => decide (l.1 ≠ "." ∧ l.1 ≠ ".." ∧ l.2.1 = 1)) rest := by
          simp [List.filter_cons, h2]
        rw [if_pos h2]
        obtain ⟨bf, hbf⟩ := ih s
        refine ⟨bf, ?_⟩
        rw [hbf, hfe]
      · have h2' : e.2.1 = 1 := by
          by_contra hx
          exact h2 hx
        have hfe : List.filter
            (fun l => decide (l.1 ≠ "." ∧ l.1 ≠ ".." ∧ l.2.1 = 1)) (e :: rest) =
            e :: List.filter (fun l => decide (l.1 ≠ "." ∧ l.1 ≠ ".." ∧ l.2.1 = 1)) rest := by
          simp [List.filter_cons, h1.1, h1.2, h2']
        rw [if_neg h2]
        obtain ⟨bf, hbf⟩ := ih
          { s with linksRemoved := s.linksRemoved ++ [e.1],
                   bytesFreed := s.bytesFreed + e.2.2 * 512 }
        refine ⟨bf, ?_⟩
        rw [hbf, hfe]
        simp [List.append_assoc]


/-- `removeUnusedLinks` appends exactly the names with link count 1 to
`linksRemoved` and otherwise only changes `bytesFreed`. -/
theorem removeUnusedLinks_spec (g : Store) (s : GCState) :
    ∃ bf, removeUnusedLinks g s =
      { s with linksRemoved := s.linksRemoved ++ linkSweepNames g,
               bytesFreed := bf } :=
  removeUnusedLinks_eq g.links s

/-- A successful root-discovery phase appends exactly the stale reap
records to `reaped` and the live files' descriptors to `keptFds`. -/
theorem gcFindRootsPhase_reaped (g : Store) (env : GCEnv)
    (options : GCOptions) (s s1 : GCState)
    (h : gcFindRootsPhase g env options s = .ok s1) :
    s1.reaped = s.reaped ++ staleReaps env.tempRootFiles ∧
    s1.keptFds = s.keptFds ++ aliveNames env.tempRootFiles := by
  by_cases hi : options.ignoreLiveness = true
  · replace h : (match readTempRoots g env.tempRootFiles s with
      | Except.error s2 => Except.error s2
      | Except.ok s2 =>
        Except.ok { s2 with roots := unionPaths s2.tempRoots s2.roots }) =
        Except.ok s1 := by
      simpa only [gcFindRootsPhase, if_pos hi] using h
    cases htr : readTempRoots g env.tempRootFiles s with
    | error s2 =>
      rw [htr] at h
      replace h : (Except.error s2 : Except GCState GCState) = Except.ok s1 := h
      exact Except.noConfusion h
    | ok s2 =>
      rw [htr] at h
      replace h : Except.ok { s2 with roots := unionPaths s2.tempRoots s2.roots } =
          Except.ok s1 := h
      injection h with h
      obtain ⟨_, h2, h3, _⟩ := readTempRoots_protocol g env.tempRootFiles s s2 htr
      rw [← h]
      exact ⟨h2, h3⟩
  · replace h : (match readTempRoots g env.tempRootFiles
        { s with roots := addAdditionalRoots g s.valid env.rootFinderOutput (unionPaths env.rootMapValues s.roots) } with
      | Except.error s2 => Except.error s2
      | Except.ok s2 =>
        Except.ok { s2 with roots := unionPaths s2.tempRoots s2.roots }) =
        Except.ok s1 := by
      simpa only [gcFindRootsPhase, if_neg hi] using h
    cases htr : readTempRoots g env.tempRootFiles
        { s with roots := addAdditionalRoots g s.valid env.rootFinderOutput (unionPaths env.rootMapValues s.roots) } with
    | error s2 =>
      rw [htr] at h
      replace h : (Except.error s2 : Except GCState GCState) = Except.ok s1 := h
      exact Except.noConfusion h
    | ok s2 =>
      rw [htr] at h
      replace h : Except.ok { s2 with roots := unionPaths s2.tempRoots s2.roots } =
          Except.ok s1 := h
      injection h with h
      obtain ⟨_, h2, h3, _⟩ := readTempRoots_protocol g env.tempRootFiles
        { s with roots := addAdditionalRoots g s.valid env.rootFinderOutput (unionPaths env.rootMapValues s.roots) } s2 htr
      rw [← h]
      exact ⟨h2, h3⟩


/-- Claim C10: for a non-`gcDeleteSpecific` action with `maxFreed = 0` the
classification sweep is skipped entirely: a normal exit leaves the results
empty, the valid set untouched, nothing deleted, invalidated or removed
from the filesystem - while root discovery still ran (the stale temp-root
files were reaped, the live ones' descriptors kept), and for
`gcDeleteDead` the link sweep and the database vacuum still ran. -/
theorem collectGarbage_maxFreed_zero_skips_sweep (g : Store) (cfg : Settings)
    (env : GCEnv) (options : GCOptions) (fuel : Nat) (s : GCState)
    (hna : options.action ≠ GCAction.gcDeleteSpecific)
    (hmf : options.maxFreed = 0)
    (h : collectGarbage g cfg env options fuel = some (GCExit.done s)) :
    s.resultsPaths = [] ∧ s.valid = g.valid0 ∧ s.deleted = [] ∧
    s.invalidated = [] ∧ s.bytesInvalidated = 0 ∧ s.fsRemoved = [] ∧
    s.reaped = staleReaps env.tempRootFiles ∧
    s.keptFds = aliveNames env.tempRootFiles ∧
    (options.action = GCAction.gcDeleteDead →
      s.linksRemoved = linkSweepNames g ∧ s.vacuumed = true) ∧
    (options.action ≠ GCAction.gcDeleteDead →
      s.linksRemoved = [] ∧ s.vacuumed = false ∧ s.bytesFreed = 0) := by
  cases hfr : gcFindRootsPhase g env options (initialGCState g cfg options) with
  | error s1 =>
    replace h : some (GCExit.badPathErr s1) = some (GCExit.done s) := by
      simpa only [collectGarbage, hfr] using h
    injection h with h
    exact GCExit.noConfusion h
  | ok s1 =>
    replace h : (match gcClassifyPhase g cfg env options fuel s1 with
      | none => none
      | some (GCExit.done s2) =>
        some (GCExit.done
          (if options.action == GCAction.gcDeleteDead then
            vacuumDB
              (if options.action == GCAction.gcDeleteDead
                  || options.action == GCAction.gcDeleteSpecific then
                removeUnusedLinks g (gcCleanupInvalidated g s2)
              else gcCleanupInvalidated g s2)
          else
            (if options.action == GCAction.gcDeleteDead
                || options.action == GCAction.gcDeleteSpecific then
              removeUnusedLinks g (gcCleanupInvalidated g s2)
            else gcCleanupInvalidated g s2)))
      | some other => some other) = some (GCExit.done s) := by
      simpa only [collectGarbage, hfr] using h
    have hw := gcFindRootsPhase_world g env options (initialGCState g cfg options)
    rw [hfr] at hw
    replace hw : SameWorld (initialGCState g cfg options) s1 := hw
    obtain ⟨x1, x2, x3, x4, x5, x6, x7, x8, x9, x10, x11, x12, x13, x14, x15⟩ := hw
    replace x2 : s1.resultsPaths = ([] : List GCPath) := x2
    replace x3 : s1.bytesFreed = 0 := x3
    replace x4 : s1.deleted = ([] : List GCPath) := x4
    replace x7 : s1.invalidated = ([] : List GCPath) := x7
    replace x10 : s1.bytesInvalidated = 0 := x10
    replace x11 : s1.valid = g.valid0 := x11
    replace x13 : s1.fsRemoved = ([] : List GCPath) := x13
    replace x14 : s1.linksRemoved = ([] : List String) := x14
    replace x15 : s1.vacuumed = false := x15
    obtain ⟨hre, hkf⟩ := gcFindRootsPhase_reaped g env options
      (initialGCState g cfg options) s1 hfr
    replace hre : s1.reaped = [] ++ staleReaps env.tempRootFiles := hre
    replace hkf : s1.keptFds = [] ++ aliveNames env.tempRootFiles := hkf
    rw [List.nil_append] at hre hkf
    have hb1 : ¬ ((options.action == GCAction.gcDeleteSpecific) = true) :=
      fun hb => hna (eq_of_beq hb)
    have hb1' : (options.action == GCAction.gcDeleteSpecific) = false := by
      cases hx : options.action == GCAction.gcDeleteSpecific
      · rfl
      · exact absurd hx hb1
    have hb2 : ¬ options.maxFreed > 0 := by
      rw [hmf]
      exact Nat.lt_irrefl 0
    have hcl : gcClassifyPhase g cfg env options fuel s1 =
        some (GCExit.done s1) := by
      unfold gcClassifyPhase
      rw [if_neg hb1, if_neg hb2]
    rw [hcl] at h
    have hclean : gcCleanupInvalidated g s1 = s1 := by
      unfold gcCleanupInvalidated
      rw [x7]
      rfl
    by_cases hdd : options.action = GCAction.gcDeleteDead
    · have hbd : (options.action == GCAction.gcDeleteDead) = true := by
        rw [hdd]
        rfl
      replace h : some (GCExit.done
          (vacuumDB (removeUnusedLinks g (gcCleanupInvalidated g s1)))) =
          some (GCExit.done s) := by
        simpa only [hbd, Bool.true_or, if_pos] using h
      injection h with h
      injection h with h
      obtain ⟨bf, hrl⟩ := removeUnusedLinks_spec g s1
      rw [hclean, hrl] at h
      rw [← h]
      rw [x14] at *
      refine ⟨x2, x11, x4, x7, x10, x13, hre, hkf, fun _ => ⟨?_, rfl⟩,
        fun hc => absurd hdd hc⟩
      exact List.nil_append _
    · have hbd : (options.action == GCAction.gcDeleteDead) = false := by
        cases hx : options.action == GCAction.gcDeleteDead
        · rfl
        · exact absurd (eq_of_beq hx) hdd
      replace h : some (GCExit.done (gcCleanupInvalidated g s1)) =
          some (GCExit.done s) := by
        simpa only [hbd, hb1', Bool.or_self, Bool.false_or, if_neg,
          Bool.false_eq_true, not_false_eq_true] using h
      injection h with h
      injection h with h
      rw [hclean] at h
      rw [← h]
      exact ⟨x2, x11, x4, x7, x10, x13, hre, hkf, fun hc => absurd hc hdd,
        fun _ => ⟨x14, x15, x3⟩⟩


/-- The C10 theorem instantiated on a concrete `gcDeleteDead` run with
`maxFreed = 0`, two valid paths, one stale and one live temp-roots file,
and a links directory with one name of link count 1. -/
theorem collectGarbage_maxFreed_zero_skips_sweep_witness :
    (match collectGarbage g10 cfg0 env10 opts10 100 with
     | some (GCExit.done s) =>
       s.resultsPaths = [] ∧ s.valid = g10.valid0 ∧ s.deleted = [] ∧
       s.invalidated = [] ∧ s.bytesInvalidated = 0 ∧ s.fsRemoved = [] ∧
       s.reaped = staleReaps env10.tempRootFiles ∧
       s.keptFds = aliveNames env10.tempRootFiles ∧
       (opts10.action = GCAction.gcDeleteDead →
         s.linksRemoved = linkSweepNames g10 ∧ s.vacuumed = true) ∧
       (opts10.action ≠ GCAction.gcDeleteDead →
         s.linksRemoved = [] ∧ s.vacuumed = false ∧ s.bytesFreed = 0)
     | _ => False) := by
  have hone : (match collectGarbage g10 cfg0 env10 opts10 100 with
    | some (GCExit.done _) => true
    | _ => false) = true := by decide
  cases hcg : collectGarbage g10 cfg0 env10 opts10 100 with
  | none =>
    rw [hcg] at hone
    replace hone : false = true := hone
    cases hone
  | some e =>
    cases e with
    | done s =>
      exact collectGarbage_maxFreed_zero_skips_sweep g10 cfg0 env10 opts10 100 s
        (by decide) rfl hcg
    | aliveErr p s =>
      rw [hcg] at hone
      replace hone : false = true := hone
      cases hone
    | limitEsc s =>
      rw [hcg] at hone
      replace hone : false = true := hone
      cases hone
    | badPathErr s =>
      rw [hcg] at hone
      replace hone : false = true := hone
      cases hone

end NixGC
